import Mathlib

/-!
# Verification of the `oss` scheduler simulation (oss.c, worker.c)

Shallow embedding of the simulated clock, the process table and the main loop of
`oss.c`, followed by theorems about them.

Conventions of the embedding:

* A C `int` (and `pid_t`) is an `Int`; every arithmetic result the C code stores in an
  `int` goes through `wrapInt32`, the two's-complement wrap-around of 32-bit integers.
* The process table is a `List PCB` (20 entries in every state of the scheduler).
* The operating system is an explicit input of each loop iteration (`Env`): the values
  returned by the successive `waitpid` calls and the value returned by `fork`.
* `time_limit` and `launch_interval` are C `float`s; the embedding takes the integers
  the casts `(int)time_limit` and `(int)((time_limit - (int)time_limit) * 1000000000)`
  produce (and likewise for `launch_interval`) as configuration.
* Start-up, signal delivery and shutdown are the sequence of calls the kernel process
  makes (`Action`), given the answers of the shared-memory calls (`ShmEnv`) and the
  signal that is delivered (`Signal`).
-/

namespace Oss

/-! ## Machine integers -/

/-- Two's-complement wrap-around of a 32-bit signed integer. -/
def wrapInt32 (x : Int) : Int := (x + 2147483648) % 4294967296 - 2147483648

/-- The values a C `int` can hold. -/
def isInt32 (x : Int) : Prop := -2147483648 ≤ x ∧ x ≤ 2147483647

instance (x : Int) : Decidable (isInt32 x) := by unfold isInt32; infer_instance

/-! ## The clock -/

/-- The `struct CustomClock` of oss.c and worker.c. -/
structure CustomClock where
  seconds : Int
  nanoseconds : Int
deriving DecidableEq, Repr

/-- The function `incrementClock` of oss.c: add 700 ns, carry into the seconds at 1e9. -/
def incrementClock (shmClock : CustomClock) : CustomClock :=
  let nanos := wrapInt32 (shmClock.nanoseconds + 700)
  if nanos ≥ 1000000000 then
    { seconds := wrapInt32 (shmClock.seconds + 1)
      nanoseconds := wrapInt32 (nanos - 1000000000) }
  else
    { seconds := shmClock.seconds, nanoseconds := nanos }

/-- The clock as `main` initialises it (oss.c lines 118-120). -/
def initClock : CustomClock := { seconds := 0, nanoseconds := 0 }

/-- A clock value is normalized when its nanoseconds lie in `[0, 1e9)`. -/
def CustomClock.normalized (c : CustomClock) : Prop :=
  0 ≤ c.nanoseconds ∧ c.nanoseconds < 1000000000

instance (c : CustomClock) : Decidable c.normalized := by
  unfold CustomClock.normalized; infer_instance

/-- Total nanoseconds a (seconds, nanoseconds) pair stands for. -/
def totalNanos (sec nano : Int) : Int := sec * 1000000000 + nano

/-- The pattern `sec = a + dSec; nano = b + dNano; if (nano >= 1e9) { sec += 1; nano -= 1e9; }`
that oss.c uses for the ending time (lines 201-207) and for the next launch time
(lines 211-216), and worker.c for its termination time (lines 42-49). -/
def addTime (sec nano dSec dNano : Int) : Int × Int :=
  let sumSec := wrapInt32 (sec + dSec)
  let sumNano := wrapInt32 (nano + dNano)
  if sumNano ≥ 1000000000 then (wrapInt32 (sumSec + 1), wrapInt32 (sumNano - 1000000000))
  else (sumSec, sumNano)

/-- The pattern `sec = a - b; nano = c - d; if (nano < 0) { sec -= 1; nano += 1e9; }`
that oss.c uses for the run time of a reaped child (lines 158-163) and for the time
elapsed since the last report (lines 224-231). -/
def subTime (sec nano sec0 nano0 : Int) : Int × Int :=
  let diffSec := wrapInt32 (sec - sec0)
  let diffNano := wrapInt32 (nano - nano0)
  if diffNano < 0 then (wrapInt32 (diffSec - 1), wrapInt32 (diffNano + 1000000000))
  else (diffSec, diffNano)

/-- The accumulation `combinedTimeSec += runSec; combinedTimeNano += runNano;` with its
carry (oss.c lines 164-169). -/
def accumulate (combinedTimeSec combinedTimeNano runSec runNano : Int) : Int × Int :=
  let sec := wrapInt32 (combinedTimeSec + runSec)
  let nano := wrapInt32 (combinedTimeNano + runNano)
  if nano ≥ 1000000000 then (wrapInt32 (sec + 1), wrapInt32 (nano - 1000000000))
  else (sec, nano)

/-! ## The process table -/

/-- The `struct PCB` of oss.c. -/
structure PCB where
  occupied : Int
  pid : Int
  startSeconds : Int
  startNanoseconds : Int
  endingSeconds : Int
  endingNanoseconds : Int
deriving DecidableEq, Repr

/-- The entry `main` writes at initialisation and on a reap: all fields zero. -/
def emptyPCB : PCB :=
  { occupied := 0, pid := 0, startSeconds := 0, startNanoseconds := 0,
    endingSeconds := 0, endingNanoseconds := 0 }

instance : Inhabited PCB := ⟨emptyPCB⟩

/-- The loop of `findEmptySlot`, at index `i` with `remaining` iterations to go. -/
def findEmptySlotFrom (table : List PCB) : Nat → Nat → Int
  | _, 0 => -1
  | i, remaining + 1 =>
    if (table.getD i default).occupied = 0 then (i : Int)
    else findEmptySlotFrom table (i + 1) remaining

/-- The function `findEmptySlot` of oss.c: `for (i = 0; i < size; i++)` runs `size` times when
`size` is positive and not at all otherwise. -/
def findEmptySlot (table : List PCB) (size : Int) : Int :=
  findEmptySlotFrom table 0 size.toNat

/-! ## The scheduler state -/

/-- The shared clock, the global process table and the locals of `main` that the loop
reads and writes. -/
structure OssState where
  shmClock : CustomClock
  processTable : List PCB
  activeWorkers : Int
  totalWorkersLaunched : Int
  nextLaunchSec : Int
  nextLaunchNano : Int
  lastReportSec : Int
  lastReportNano : Int
  combinedTimeSec : Int
  combinedTimeNano : Int
deriving DecidableEq, Repr

/-- The command-line configuration. `timeLimitSec` is `(int)time_limit`, `timeLimitNano`
is `(int)((time_limit - (int)time_limit) * 1000000000)`; the launch interval likewise. -/
structure Config where
  total_p : Int
  max_sp : Int
  timeLimitSec : Int
  timeLimitNano : Int
  launchIntervalSec : Int
  launchIntervalNano : Int
deriving DecidableEq, Repr

/-- What the operating system answers during one loop iteration: the values returned by
the successive `waitpid(-1, &status, WNOHANG)` calls (the reap loop stops at the first
one that is not positive, or after the last of the list), and the value `fork()` returns
if it is called. -/
structure Env where
  waitpids : List Int
  forkResult : Int
deriving DecidableEq, Repr

/-- The state at the loop head the first time (oss.c lines 118-139). -/
def initState : OssState :=
  { shmClock := initClock
    processTable := List.replicate 20 emptyPCB
    activeWorkers := 0
    totalWorkersLaunched := 0
    nextLaunchSec := 0
    nextLaunchNano := 0
    lastReportSec := 0
    lastReportNano := 0
    combinedTimeSec := 0
    combinedTimeNano := 0 }

/-- The loop condition `totalWorkersLaunched < total_p || activeWorkers > 0`. -/
def loopCond (cfg : Config) (st : OssState) : Prop :=
  st.totalWorkersLaunched < cfg.total_p ∨ st.activeWorkers > 0

instance (cfg : Config) (st : OssState) : Decidable (loopCond cfg st) := by
  unfold loopCond; infer_instance

/-- First statement of the loop body: `incrementClock(shmClock)`. -/
def tickPhase (st : OssState) : OssState :=
  { st with shmClock := incrementClock st.shmClock }

/-- Body of the `if` of the reap scan (oss.c lines 158-176) for the entry at index `i`. -/
def reapEntry (st : OssState) (i : Nat) : OssState :=
  let e := st.processTable.getD i default
  let run := subTime st.shmClock.seconds st.shmClock.nanoseconds e.startSeconds e.startNanoseconds
  let combined := accumulate st.combinedTimeSec st.combinedTimeNano run.1 run.2
  { st with
    combinedTimeSec := combined.1
    combinedTimeNano := combined.2
    processTable := st.processTable.set i emptyPCB
    activeWorkers := wrapInt32 (st.activeWorkers - 1) }

/-- The scan `for (i = 0; i < 20; i++)` for the entry of a reaped pid, at index `i` with
`remaining` iterations to go; it stops (`break`) at the first match. -/
def reapScan (pid : Int) (st : OssState) : Nat → Nat → OssState
  | _, 0 => st
  | i, remaining + 1 =>
    if (st.processTable.getD i default).occupied = 1 ∧ (st.processTable.getD i default).pid = pid
    then reapEntry st i
    else reapScan pid st (i + 1) remaining

/-- One iteration of the `while ((pid = waitpid(...)) > 0)` loop for the returned `pid`. -/
def reapChild (pid : Int) (st : OssState) : OssState := reapScan pid st 0 20

/-- The reap loop `while ((pid = waitpid(-1, &status, WNOHANG)) > 0)`. -/
def reapPhase : List Int → OssState → OssState
  | [], st => st
  | pid :: rest, st => if pid > 0 then reapPhase rest (reapChild pid st) else st

/-- The condition clock >= nextLaunchTime as oss.c line 187 writes it. -/
def launchTimeReached (st : OssState) : Prop :=
  st.shmClock.seconds > st.nextLaunchSec ∨
    (st.shmClock.seconds = st.nextLaunchSec ∧ st.shmClock.nanoseconds ≥ st.nextLaunchNano)

instance (st : OssState) : Decidable (launchTimeReached st) := by
  unfold launchTimeReached; infer_instance

/-- The admission predicate of oss.c lines 184-187. -/
def admissionPredicate (cfg : Config) (st : OssState) : Prop :=
  st.totalWorkersLaunched < cfg.total_p ∧ st.activeWorkers < cfg.max_sp ∧
    findEmptySlot st.processTable 20 ≠ -1 ∧ launchTimeReached st

instance (cfg : Config) (st : OssState) : Decidable (admissionPredicate cfg st) := by
  unfold admissionPredicate; infer_instance

/-- The parent branch `pid > 0` of the launch (oss.c lines 197-216). -/
def launchWorker (cfg : Config) (pid : Int) (st : OssState) (slot : Nat) : OssState :=
  let startSeconds := st.shmClock.seconds
  let startNanoseconds := st.shmClock.nanoseconds
  let ending := addTime startSeconds startNanoseconds cfg.timeLimitSec cfg.timeLimitNano
  let next := addTime startSeconds startNanoseconds cfg.launchIntervalSec cfg.launchIntervalNano
  { st with
    processTable := st.processTable.set slot
      { occupied := 1, pid := pid, startSeconds := startSeconds,
        startNanoseconds := startNanoseconds,
        endingSeconds := ending.1, endingNanoseconds := ending.2 }
    activeWorkers := wrapInt32 (st.activeWorkers + 1)
    totalWorkersLaunched := wrapInt32 (st.totalWorkersLaunched + 1)
    nextLaunchSec := next.1
    nextLaunchNano := next.2 }

/-- The branch `fork failed` (oss.c lines 217-220): `processTable[slot].occupied = 0`. -/
def forkFailed (st : OssState) (slot : Nat) : OssState :=
  { st with
    processTable := st.processTable.set slot
      { st.processTable.getD slot default with occupied := 0 } }

/-- The admission phase (oss.c lines 184-221). The result is `none` when `fork` returns 0:
that process is the child, which leaves the scheduler (`execl`, or `exit(1)`). -/
def admitPhase (cfg : Config) (forkResult : Int) (st : OssState) : Option OssState :=
  let slot := findEmptySlot st.processTable 20
  if admissionPredicate cfg st then
    if forkResult = 0 then none
    else if forkResult > 0 then some (launchWorker cfg forkResult st slot.toNat)
    else some (forkFailed st slot.toNat)
  else some st

/-- Whether the reporter fires (oss.c lines 224-233). -/
def reportDue (st : OssState) : Prop :=
  (subTime st.shmClock.seconds st.shmClock.nanoseconds st.lastReportSec st.lastReportNano).1 > 0 ∨
  (subTime st.shmClock.seconds st.shmClock.nanoseconds st.lastReportSec st.lastReportNano).2
    ≥ 500000000

instance (st : OssState) : Decidable (reportDue st) := by
  unfold reportDue; infer_instance

/-- The report phase (oss.c lines 223-245); the printed text is not part of the state. -/
def reportPhase (st : OssState) : OssState :=
  if reportDue st then
    { st with lastReportSec := st.shmClock.seconds, lastReportNano := st.shmClock.nanoseconds }
  else st

/-- The state after the tick and the reap loop of an iteration. -/
def afterReap (env : Env) (st : OssState) : OssState :=
  reapPhase env.waitpids (tickPhase st)

/-- One iteration of the main loop (oss.c lines 149-245). -/
def loopBody (cfg : Config) (env : Env) (st : OssState) : Option OssState :=
  (admitPhase cfg env.forkResult (afterReap env st)).map reportPhase

/-- The main loop under the environment answers `envs`, one per iteration: the state at
the loop head once the answers are used up or the loop condition fails, `none` in the
forked child. -/
def runLoop (cfg : Config) : List Env → OssState → Option OssState
  | [], st => some st
  | env :: rest, st =>
    if loopCond cfg st then
      match loopBody cfg env st with
      | none => none
      | some st' => runLoop cfg rest st'
    else some st

/-- The states the scheduler can be in at the head of its main loop. -/
def Reachable (cfg : Config) (st : OssState) : Prop :=
  ∃ envs : List Env, runLoop cfg envs initState = some st

/-! ## Invariants of the scheduler state -/

/-- Number of occupied entries of a table (`occupied` is not 0). -/
def occupiedCount (table : List PCB) : Nat :=
  table.countP (fun e => decide (e.occupied ≠ 0))

/-- The table has its 20 entries, `occupied` is 0 or 1 in each of them, and
`activeWorkers` counts the occupied ones. -/
def TableInv (st : OssState) : Prop :=
  st.processTable.length = 20 ∧
    (∀ e ∈ st.processTable, e.occupied = 0 ∨ e.occupied = 1) ∧
    st.activeWorkers = (occupiedCount st.processTable : Int)

/-- The states the main loop passes through: at the loop head, after the tick and any
number of reaped children, and after the admission phase (before the report). -/
def Visited (cfg : Config) (st : OssState) : Prop :=
  Reachable cfg st ∨
    ∃ (s0 : OssState) (env : Env), Reachable cfg s0 ∧ loopCond cfg s0 ∧
      (st = afterReap env s0 ∨ admitPhase cfg env.forkResult (afterReap env s0) = some st)

/-- The admission predicate in the words of the specification: fewer than `total_p`
launched, fewer than `max_sp` active, some table entry free, and the clock at or past the
next launch time (seconds greater, or seconds equal and nanoseconds greater or equal). -/
def specAdmission (cfg : Config) (st : OssState) : Prop :=
  st.totalWorkersLaunched < cfg.total_p ∧ st.activeWorkers < cfg.max_sp ∧
    (∃ i : Nat, i < 20 ∧ (st.processTable.getD i default).occupied = 0) ∧
    (st.shmClock.seconds > st.nextLaunchSec ∨
      (st.shmClock.seconds = st.nextLaunchSec ∧ st.shmClock.nanoseconds ≥ st.nextLaunchNano))

/-- States that differ at most in the clock and in the time of the last report. -/
def SameSchedule (s s' : OssState) : Prop :=
  s'.processTable = s.processTable ∧ s'.activeWorkers = s.activeWorkers ∧
    s'.totalWorkersLaunched = s.totalWorkersLaunched ∧
    s'.nextLaunchSec = s.nextLaunchSec ∧ s'.nextLaunchNano = s.nextLaunchNano ∧
    s'.combinedTimeSec = s.combinedTimeSec ∧ s'.combinedTimeNano = s.combinedTimeNano

/-! ## Bookkeeping of a run, for the statements about children and run times

`Ghost` records facts about a run that the program itself does not store: how many ticks
there were, which children are alive (forked and not yet returned by `waitpid`), whether
every successful `fork` so far returned a pid that was not the pid of a child alive at
that moment, and the exact (unbounded) sum of the run times of the reaped workers. -/

/-- Facts about a run that are not part of the program state. -/
structure Ghost where
  ticks : Nat
  live : List Int
  forksFresh : Bool
  exactRunNanos : Int
deriving DecidableEq, Repr

/-- Bookkeeping at the start of a run. -/
def ghostInit : Ghost := { ticks := 0, live := [], forksFresh := true, exactRunNanos := 0 }

/-- Index of the entry the reap scan stops at, if any: the scan of `reapScan` without
its effect. -/
def reapIndex (pid : Int) (table : List PCB) : Nat → Nat → Option Nat
  | _, 0 => none
  | i, remaining + 1 =>
    if (table.getD i default).occupied = 1 ∧ (table.getD i default).pid = pid then some i
    else reapIndex pid table (i + 1) remaining

/-- Exact run time, in nanoseconds, of the entry at index `k` when it is reaped in state
`st`: clock minus recorded start time. -/
def exactRunTime (st : OssState) (k : Nat) : Int :=
  totalNanos st.shmClock.seconds st.shmClock.nanoseconds
    - totalNanos (st.processTable.getD k default).startSeconds
        (st.processTable.getD k default).startNanoseconds

/-- Bookkeeping of one reaped pid: the child is no longer alive, and the run time of its
table entry (if it has one) is added to the exact sum. -/
def ghostReapChild (pid : Int) (st : OssState) (g : Ghost) : Ghost :=
  { g with
    live := g.live.filter (fun p => decide (p ≠ pid))
    exactRunNanos :=
      match reapIndex pid st.processTable 0 20 with
      | none => g.exactRunNanos
      | some k => g.exactRunNanos + exactRunTime st k }

/-- Bookkeeping of the reap loop, alongside `reapPhase`. -/
def ghostReapPhase : List Int → OssState → Ghost → Ghost
  | [], _, g => g
  | pid :: rest, st, g =>
    if pid > 0 then ghostReapPhase rest (reapChild pid st) (ghostReapChild pid st g) else g

/-- Bookkeeping of the admission phase: a successful `fork` adds a live child, and it is
noted whether its pid was the pid of a child already alive. -/
def ghostAdmit (cfg : Config) (forkResult : Int) (st : OssState) (g : Ghost) : Ghost :=
  if admissionPredicate cfg st ∧ forkResult > 0 then
    { g with
      live := forkResult :: g.live
      forksFresh := g.forksFresh && decide (forkResult ∉ g.live) }
  else g

/-- Bookkeeping of the tick. -/
def ghostTick (g : Ghost) : Ghost := { g with ticks := g.ticks + 1 }

/-- Bookkeeping of one loop iteration, alongside `loopBody`. -/
def ghostBody (cfg : Config) (env : Env) (st : OssState) (g : Ghost) : Ghost :=
  ghostAdmit cfg env.forkResult (afterReap env st)
    (ghostReapPhase env.waitpids (tickPhase st) (ghostTick g))

/-- Bookkeeping of a run, alongside `runLoop`. -/
def runGhost (cfg : Config) : List Env → OssState → Ghost → Ghost
  | [], _, g => g
  | env :: rest, st, g =>
    if loopCond cfg st then
      match loopBody cfg env st with
      | none => g
      | some st' => runGhost cfg rest st' (ghostBody cfg env st g)
    else g

/-- No two occupied entries of the table hold the same pid. -/
def DistinctPids (table : List PCB) : Prop :=
  ∀ i j : Nat, i < table.length → j < table.length →
    (table.getD i default).occupied ≠ 0 → (table.getD j default).occupied ≠ 0 →
    (table.getD i default).pid = (table.getD j default).pid → i = j

/-- As long as every successful `fork` returned a pid that was not the pid of a live
child, the occupied entries hold distinct pids, each the pid of a live child. -/
def LiveInv (st : OssState) (g : Ghost) : Prop :=
  TableInv st ∧
    (g.forksFresh = true →
      DistinctPids st.processTable ∧
      ∀ i : Nat, i < 20 → (st.processTable.getD i default).occupied ≠ 0 →
        (st.processTable.getD i default).pid ∈ g.live)

/-- Bound of the times a (seconds, nanoseconds) pair with `int` seconds can stand for:
`2^31` seconds, in nanoseconds. -/
def secondsLimit : Int := 2147483648 * 1000000000

/-- The relation between the state and the bookkeeping behind the combined run time.
Without condition: clock, recorded start times and combined run time have their
nanoseconds in `[0, 1e9)`. While the clock has not overflowed (`700 * ticks` below
`secondsLimit`): the clock stands for `700 * ticks` ns and no recorded start time is
negative or later than the clock, so the exact sum is not negative. While moreover the
exact sum is below `secondsLimit`: the combined run time stands for the exact sum. -/
def TimesInv (st : OssState) (g : Ghost) : Prop :=
  st.shmClock.normalized ∧
  (∀ e ∈ st.processTable, 0 ≤ e.startNanoseconds ∧ e.startNanoseconds < 1000000000) ∧
  (0 ≤ st.combinedTimeNano ∧ st.combinedTimeNano < 1000000000) ∧
  st.processTable.length = 20 ∧
  (700 * (g.ticks : Int) < secondsLimit →
    totalNanos st.shmClock.seconds st.shmClock.nanoseconds = 700 * (g.ticks : Int) ∧
    -2147483648 ≤ st.shmClock.seconds ∧
    (∀ e ∈ st.processTable,
      0 ≤ totalNanos e.startSeconds e.startNanoseconds ∧
      totalNanos e.startSeconds e.startNanoseconds
        ≤ totalNanos st.shmClock.seconds st.shmClock.nanoseconds) ∧
    0 ≤ g.exactRunNanos ∧
    (g.exactRunNanos < secondsLimit →
      0 ≤ st.combinedTimeSec ∧
      totalNanos st.combinedTimeSec st.combinedTimeNano = g.exactRunNanos))

/-- Configuration of the overflow example: `oss -n 2 -s 2 -t 0 -i 0`. -/
def overflowCfg : Config :=
  { total_p := 2, max_sp := 2, timeLimitSec := 0, timeLimitNano := 0,
    launchIntervalSec := 0, launchIntervalNano := 0 }

/-- The state of the overflow example after its first two iterations: workers 101 and
102 launched at (0, 700) and (0, 1400). -/
def overflowStart : OssState :=
  { shmClock := ⟨0, 1400⟩,
    processTable := ⟨1, 101, 0, 700, 0, 700⟩ :: ⟨1, 102, 0, 1400, 0, 1400⟩ ::
      List.replicate 18 emptyPCB,
    activeWorkers := 2, totalWorkersLaunched := 2, nextLaunchSec := 0,
    nextLaunchNano := 1400, lastReportSec := 0, lastReportNano := 0,
    combinedTimeSec := 0, combinedTimeNano := 0 }

/-- The environment of the overflow example: two successful forks, then 1533916891428570
iterations in which no child has exited, then both children reaped in one iteration. -/
def overflowEnvs : List Env :=
  [⟨[], 101⟩, ⟨[], 102⟩] ++ (List.replicate 1533916891428570 ⟨[], -1⟩ ++ [⟨[101, 102], -1⟩])

/-- The state of the overflow example before its last iteration: `overflowStart` with the
clock at (1073741824, 400) and the last report at (`a`, `b`). -/
def overflowMid (a b : Int) : OssState :=
  { overflowStart with
    shmClock := ⟨1073741824, 400⟩
    lastReportSec := a
    lastReportNano := b }

/-! ## What the scheduling decisions depend on -/

/-- Everything in the scheduler state except the time of the last report: clock, process
table, `totalWorkersLaunched`, `activeWorkers`, next launch time and combined run time. -/
def schedulingView (st : OssState) : CustomClock × List PCB × Int × Int × Int × Int × Int × Int :=
  (st.shmClock, st.processTable, st.totalWorkersLaunched, st.activeWorkers,
    st.nextLaunchSec, st.nextLaunchNano, st.combinedTimeSec, st.combinedTimeNano)

/-- The state `st` with another time of the last report. -/
def withLastReport (st : OssState) (sec nano : Int) : OssState :=
  { st with lastReportSec := sec, lastReportNano := nano }

/-! ## The kernel process seen from outside: start-up, signals, exit -/

/-- What the kernel process does to the outside world when it shuts down. -/
inductive Action where
  /-- The call `kill(pid, SIGTERM)`. -/
  | kill (pid : Int)
  /-- The call `shmctl(shm_id, IPC_RMID, NULL)`. -/
  | removeShm
  /-- The call `exit(code)`, or `return code` from `main`. -/
  | exit (code : Int)
  /-- The process is terminated by the default action of a signal; none of its code
  runs any more. -/
  | terminatedBySignal
deriving DecidableEq, Repr

/-- The kernel process as `kill` sees it: its own pid (`getpid()`) and the id of its
process group (`getpgrp()`). -/
structure ProcessIds where
  pid : Int
  pgrp : Int
deriving DecidableEq, Repr

/-- Whether `kill(target, SIGTERM)` signals the calling process itself: `target` is its
own pid, or 0 (every process of the caller's process group), or minus the id of the
caller's process group. (With `target = -1` the caller is not signalled on Linux.) -/
def killReachesCaller (ids : ProcessIds) (target : Int) : Prop :=
  target = ids.pid ∨ target = 0 ∨ (target < -1 ∧ target = -ids.pgrp)

instance (ids : ProcessIds) (target : Int) : Decidable (killReachesCaller ids target) := by
  unfold killReachesCaller; infer_instance

/-- The loop `for (i = 0; i < 20; i++)` of `signal_handler`, at index `i` with
`remaining` iterations to go: `if (processTable[i].occupied) kill(...)`. The result is
the calls made and whether the process is still running after them: oss.c installs no
handler for `SIGTERM`, so a `kill(..., SIGTERM)` that reaches the calling process
terminates it inside that call. -/
def signalScan (ids : ProcessIds) (table : List PCB) : Nat → Nat → List Action × Bool
  | _, 0 => ([], true)
  | i, remaining + 1 =>
    if (table.getD i default).occupied ≠ 0 then
      if killReachesCaller ids (table.getD i default).pid then
        ([Action.kill (table.getD i default).pid, Action.terminatedBySignal], false)
      else
        (Action.kill (table.getD i default).pid :: (signalScan ids table (i + 1) remaining).1,
          (signalScan ids table (i + 1) remaining).2)
    else signalScan ids table (i + 1) remaining

/-- The function `signal_handler` of oss.c (lines 70-81), as the sequence of its calls:
the loop, then, if the process is still running, `shmctl(shm_id, IPC_RMID, NULL)` and
`exit(0)`. -/
def signal_handler (ids : ProcessIds) (processTable : List PCB) : List Action :=
  if (signalScan ids processTable 0 20).2 then
    (signalScan ids processTable 0 20).1 ++ [Action.removeShm, Action.exit 0]
  else (signalScan ids processTable 0 20).1

/-- The end of `main` after the loop (oss.c lines 258-262): `shmdt`, `shmctl(IPC_RMID)`,
`return 0`. -/
def normalCompletion : List Action := [Action.removeShm, Action.exit 0]

/-- The two signals the kernel arranges for: the interrupt (Ctrl+C) and the alarm that
`alarm(60)` schedules. -/
inductive Signal where
  | sigint
  | sigalrm
deriving DecidableEq, Repr

/-- How a signal is handled: by the default action, or by `signal_handler`. -/
inductive Disposition where
  | defaultAction
  | handler
deriving DecidableEq, Repr

/-- The dispositions after oss.c lines 113-115: `signal(SIGINT, signal_handler);
alarm(60);`. The only call of `signal` is the one for `SIGINT`; `SIGALRM` keeps its
default action. -/
def installedDisposition : Signal → Disposition
  | Signal.sigint => Disposition.handler
  | Signal.sigalrm => Disposition.defaultAction

/-- What the kernel process does when a signal is delivered: the handler runs, or the
default action (for `SIGINT` and for `SIGALRM`: termination of the process) is taken. -/
def deliverSignal (ids : ProcessIds) (sig : Signal) (processTable : List PCB) : List Action :=
  match installedDisposition sig with
  | Disposition.handler => signal_handler ids processTable
  | Disposition.defaultAction => [Action.terminatedBySignal]

/-- Answers of the operating system to the shared-memory calls of oss.c lines 110-111:
the value `shmget` returns (-1 on failure) and whether the address `shmat` returns can
be used (on failure, and so whenever `shm_id` is -1, it returns `(void *) -1`). -/
structure ShmEnv where
  shmgetResult : Int
  shmatUsable : Bool
deriving DecidableEq, Repr

/-- How the start of `main` (oss.c lines 109-120) ends. -/
inductive StartOutcome where
  /-- A diagnostic is printed and the process exits with `code`. -/
  | diagnosticExit (code : Int)
  /-- The clock is initialised and the scheduler loop is reached. -/
  | entersLoop
  /-- The store `shmClock->seconds = 0` goes through an address that cannot be used. -/
  | invalidStore
deriving DecidableEq, Repr

/-- The start of `main`, oss.c lines 109-120: `shm_id` and the address `shmat` returns
are not tested; the first use of the address is the store `shmClock->seconds = 0`. -/
def startup (env : ShmEnv) : StartOutcome :=
  if env.shmatUsable then StartOutcome.entersLoop else StartOutcome.invalidStore

/-- The start of the worker, worker.c lines 33-39, which does test `shm_id`:
`if (shm_id == -1) { perror(...); exit(1); }`. -/
def workerStartup (env : ShmEnv) : StartOutcome :=
  if env.shmgetResult = -1 then StartOutcome.diagnosticExit 1
  else if env.shmatUsable then StartOutcome.entersLoop else StartOutcome.invalidStore

/-- Termination time the worker computes (worker.c lines 42-49) from the clock it reads
and its two arguments. -/
def workerTermTime (shmClock : CustomClock) (lifetimeSeconds lifetimeNano : Int) : Int × Int :=
  let termSec := wrapInt32 (shmClock.seconds + lifetimeSeconds)
  let termNano := wrapInt32 (shmClock.nanoseconds + lifetimeNano)
  if termNano ≥ 1000000000 then (wrapInt32 (termSec + 1), wrapInt32 (termNano - 1000000000))
  else (termSec, termNano)

/-- Start times of the workers launched during a run, in launch order: the clock at each
iteration in which the admission predicate holds and `fork` returns a positive pid. -/
def launchStarts (cfg : Config) : List Env → OssState → List CustomClock
  | [], _ => []
  | env :: rest, st =>
    if loopCond cfg st then
      match loopBody cfg env st with
      | none => []
      | some st' =>
        if admissionPredicate cfg (afterReap env st) ∧ env.forkResult > 0 then
          (afterReap env st).shmClock :: launchStarts cfg rest st'
        else launchStarts cfg rest st'
    else []

/-- Consecutive launches are at least the launch interval apart. -/
def IntervalApart (cfg : Config) (a b : CustomClock) : Prop :=
  totalNanos a.seconds a.nanoseconds + totalNanos cfg.launchIntervalSec cfg.launchIntervalNano
    ≤ totalNanos b.seconds b.nanoseconds

instance (cfg : Config) (a b : CustomClock) : Decidable (IntervalApart cfg a b) := by
  unfold IntervalApart; infer_instance

/-- What holds of the clock and of the time of the last report at the head of the loop:
both are normalized with `int` seconds, and the clock seconds are at most one above the
seconds of the last report (the last report is a copy of an earlier clock value, and a
report is made before the difference reaches a second). -/
def ReportInv (st : OssState) : Prop :=
  st.shmClock.normalized ∧
    (0 ≤ st.lastReportNano ∧ st.lastReportNano < 1000000000) ∧
    isInt32 st.shmClock.seconds ∧ isInt32 st.lastReportSec ∧
    st.shmClock.seconds - st.lastReportSec ≤ 1

/-- The watchdog as a bound on the length of a run. oss.c line 115 arms `alarm(60)` and
installs no handler for `SIGALRM`, so the process ends 60 seconds of wall-clock time
after start-up. Wall-clock time is not part of the embedding; what the watchdog means
for a run is a bound on its number of loop iterations. The bound taken here is the
largest `n` with `20 * 700 * n < 2^31 * 10^9` (20 table slots, 700 ns per iteration):
to pass it within 60 seconds the loop would have to make more than 2.5 * 10^12
iterations per second, each with at least one `waitpid` system call. -/
def maxIterationsUnderWatchdog : Nat := 153391689142857

/-- Run time so far, in nanoseconds, of the worker of a table entry when the clock
stands for `now` nanoseconds; 0 for an unoccupied entry. -/
def entryRunNanos (now : Int) (e : PCB) : Int :=
  if e.occupied ≠ 0 then now - totalNanos e.startSeconds e.startNanoseconds else 0

/-- Sum of the run times so far of the workers in the table. -/
def pendingRunNanos (st : OssState) : Int :=
  (st.processTable.map
    (entryRunNanos (totalNanos st.shmClock.seconds st.shmClock.nanoseconds))).sum

/-- While the clock has not overflowed, the run times of the reaped workers and of the
workers in the table add up to at most 20 slots times 700 ns per tick. -/
def SlotInv (st : OssState) (g : Ghost) : Prop :=
  700 * (g.ticks : Int) < secondsLimit →
    g.exactRunNanos + pendingRunNanos st ≤ 14000 * (g.ticks : Int)

/-! ## Basic facts on `wrapInt32` -/

theorem wrapInt32_of_isInt32 {x : Int} (h : isInt32 x) : wrapInt32 x = x := by
  unfold isInt32 at h
  unfold wrapInt32
  omega

theorem wrapInt32_id {x : Int} (h1 : -2147483648 ≤ x) (h2 : x ≤ 2147483647) :
    wrapInt32 x = x := wrapInt32_of_isInt32 ⟨h1, h2⟩

theorem wrapInt32_isInt32 (x : Int) : isInt32 (wrapInt32 x) := by
  unfold isInt32 wrapInt32
  omega

/-! ## The clock: lemmas -/

/-- On a normalized clock neither nanosecond operation of `incrementClock` overflows. -/
theorem incrementClock_of_normalized (c : CustomClock) (h : c.normalized) :
    incrementClock c =
      if c.nanoseconds + 700 ≥ 1000000000 then
        { seconds := wrapInt32 (c.seconds + 1), nanoseconds := c.nanoseconds + 700 - 1000000000 }
      else { seconds := c.seconds, nanoseconds := c.nanoseconds + 700 } := by
  obtain ⟨h0, h1⟩ := h
  have hw : wrapInt32 (c.nanoseconds + 700) = c.nanoseconds + 700 :=
    wrapInt32_id (by omega) (by omega)
  have hw2 : wrapInt32 (c.nanoseconds + 700 - 1000000000) = c.nanoseconds + 700 - 1000000000 :=
    wrapInt32_id (by omega) (by omega)
  simp only [incrementClock, hw, hw2]

theorem incrementClock_normalized (c : CustomClock) (h : c.normalized) :
    (incrementClock c).normalized := by
  rw [incrementClock_of_normalized c h]
  obtain ⟨h0, h1⟩ := h
  unfold CustomClock.normalized
  split <;> simp only [] <;> omega

theorem iterate_incrementClock_normalized (n : Nat) (c : CustomClock) (h : c.normalized) :
    (incrementClock^[n] c).normalized := by
  induction n generalizing c with
  | zero => simpa using h
  | succ k ih =>
    rw [Function.iterate_succ_apply]
    exact ih _ (incrementClock_normalized c h)

/-! ## Claims C1, C2 -/

/-- C1: after any number of ticks from the initial clock (0, 0) the nanoseconds lie in
`[0, 1e9)`; more generally `incrementClock` maps a clock with nanoseconds in `[0, 1e9)`
to a clock with nanoseconds in `[0, 1e9)`. -/
theorem C1_nanoseconds_in_range :
    (∀ n : Nat, 0 ≤ (incrementClock^[n] initClock).nanoseconds ∧
        (incrementClock^[n] initClock).nanoseconds < 1000000000) ∧
    (∀ c : CustomClock, 0 ≤ c.nanoseconds → c.nanoseconds < 1000000000 →
        0 ≤ (incrementClock c).nanoseconds ∧ (incrementClock c).nanoseconds < 1000000000) := by
  refine ⟨fun n => ?_, fun c h0 h1 => ?_⟩
  · exact iterate_incrementClock_normalized n initClock (by decide)
  · exact incrementClock_normalized c ⟨h0, h1⟩

theorem C1_nanoseconds_in_range_witness :
    0 ≤ (incrementClock ⟨41, 999999800⟩).nanoseconds ∧
      (incrementClock ⟨41, 999999800⟩).nanoseconds < 1000000000 :=
  C1_nanoseconds_in_range.2 ⟨41, 999999800⟩ (by decide) (by decide)

/-- C2: for a normalized clock whose seconds are an `int` below the int32 maximum,
`incrementClock` adds exactly 700 ns in total, carries one second exactly when
`nanoseconds + 700 ≥ 1e9`, and so never moves the clock backward. -/
theorem C2_incrementClock_adds_700 (c : CustomClock)
    (hn0 : 0 ≤ c.nanoseconds) (hn1 : c.nanoseconds < 1000000000)
    (hs0 : -2147483648 ≤ c.seconds) (hs1 : c.seconds < 2147483647) :
    totalNanos (incrementClock c).seconds (incrementClock c).nanoseconds
        = totalNanos c.seconds c.nanoseconds + 700 ∧
    ((incrementClock c).seconds = c.seconds + 1 ↔ c.nanoseconds + 700 ≥ 1000000000) ∧
    ((incrementClock c).seconds = c.seconds ↔ c.nanoseconds + 700 < 1000000000) ∧
    totalNanos c.seconds c.nanoseconds
        < totalNanos (incrementClock c).seconds (incrementClock c).nanoseconds := by
  have hs : wrapInt32 (c.seconds + 1) = c.seconds + 1 := wrapInt32_id (by omega) (by omega)
  have hc := incrementClock_of_normalized c ⟨hn0, hn1⟩
  unfold totalNanos
  by_cases hge : c.nanoseconds + 700 ≥ 1000000000
  · rw [if_pos hge, hs] at hc
    rw [hc]
    simp only []
    refine ⟨by ring, ?_, ?_, by omega⟩
    · exact ⟨fun _ => hge, fun _ => trivial⟩
    · constructor <;> intro <;> first | trivial | omega
  · rw [if_neg hge] at hc
    rw [hc]
    simp only []
    refine ⟨by ring, ?_, ?_, by omega⟩
    · constructor <;> intro <;> first | trivial | omega
    · constructor <;> intro <;> first | trivial | omega

theorem C2_incrementClock_adds_700_witness :
    totalNanos (incrementClock ⟨3, 999999500⟩).seconds (incrementClock ⟨3, 999999500⟩).nanoseconds
        = totalNanos 3 999999500 + 700 ∧
    ((incrementClock ⟨3, 999999500⟩).seconds = 3 + 1 ↔ (999999500 : Int) + 700 ≥ 1000000000) ∧
    ((incrementClock ⟨3, 999999500⟩).seconds = 3 ↔ (999999500 : Int) + 700 < 1000000000) ∧
    totalNanos 3 999999500
        < totalNanos (incrementClock ⟨3, 999999500⟩).seconds
            (incrementClock ⟨3, 999999500⟩).nanoseconds :=
  C2_incrementClock_adds_700 ⟨3, 999999500⟩ (by decide) (by decide) (by decide) (by decide)

/-! ## `findEmptySlot` -/

/-- What the loop of `findEmptySlot` returns from index `i` with `remaining` iterations. -/
theorem findEmptySlotFrom_spec (table : List PCB) (remaining i : Nat) :
    (findEmptySlotFrom table i remaining = -1 ∧
        ∀ j, i ≤ j → j < i + remaining → (table.getD j default).occupied ≠ 0) ∨
    (∃ k : Nat, findEmptySlotFrom table i remaining = (k : Int) ∧ i ≤ k ∧ k < i + remaining ∧
        (table.getD k default).occupied = 0 ∧
        ∀ j, i ≤ j → j < k → (table.getD j default).occupied ≠ 0) := by
  induction remaining generalizing i with
  | zero =>
    left
    refine ⟨rfl, fun j h1 h2 => ?_⟩
    omega
  | succ r ih =>
    unfold findEmptySlotFrom
    by_cases h : (table.getD i default).occupied = 0
    · right
      rw [if_pos h]
      exact ⟨i, rfl, le_refl i, by omega, h, fun j h1 h2 => by omega⟩
    · rw [if_neg h]
      rcases ih (i + 1) with ⟨heq, hall⟩ | ⟨k, heq, hik, hk, hocc, hall⟩
      · left
        refine ⟨heq, fun j h1 h2 => ?_⟩
        rcases Nat.eq_or_lt_of_le h1 with hji | hji
        · rw [← hji]; exact h
        · exact hall j hji (by omega)
      · right
        refine ⟨k, heq, by omega, by omega, hocc, fun j h1 h2 => ?_⟩
        rcases Nat.eq_or_lt_of_le h1 with hji | hji
        · rw [← hji]; exact h
        · exact hall j hji h2

/-- What `findEmptySlot` returns. -/
theorem findEmptySlot_spec (table : List PCB) (size : Int) :
    (findEmptySlot table size = -1 ∧
        ∀ j : Nat, (j : Int) < size → (table.getD j default).occupied ≠ 0) ∨
    (∃ k : Nat, findEmptySlot table size = (k : Int) ∧ (k : Int) < size ∧
        (table.getD k default).occupied = 0 ∧
        ∀ j : Nat, j < k → (table.getD j default).occupied ≠ 0) := by
  unfold findEmptySlot
  rcases findEmptySlotFrom_spec table size.toNat 0 with ⟨heq, hall⟩ | ⟨k, heq, _, hk, hocc, hall⟩
  · left
    exact ⟨heq, fun j hj => hall j (Nat.zero_le j) (by omega)⟩
  · right
    exact ⟨k, heq, by omega, hocc, fun j hj => hall j (Nat.zero_le j) hj⟩

/-- C9: `findEmptySlot(table, size)` returns the smallest index below `size` whose entry
has `occupied == 0` when there is one, and returns -1 exactly when every one of the
first `size` entries is occupied. The function only reads the table: its result is the
returned index. -/
theorem C9_findEmptySlot_first_free (table : List PCB) (size : Int) :
    ((∃ i : Nat, (i : Int) < size ∧ (table.getD i default).occupied = 0) →
      ∃ k : Nat, findEmptySlot table size = (k : Int) ∧ (k : Int) < size ∧
        (table.getD k default).occupied = 0 ∧
        ∀ j : Nat, j < k → (table.getD j default).occupied ≠ 0) ∧
    (findEmptySlot table size = -1 ↔
      ∀ i : Nat, (i : Int) < size → (table.getD i default).occupied ≠ 0) := by
  rcases findEmptySlot_spec table size with ⟨heq, hall⟩ | ⟨k, heq, hk, hocc, hall⟩
  · refine ⟨fun ⟨i, hi, hocc⟩ => absurd hocc (hall i hi), fun _ => hall, fun _ => heq⟩
  · refine ⟨fun _ => ⟨k, heq, hk, hocc, hall⟩, fun h => ?_, fun h => absurd hocc (h k hk)⟩
    rw [heq] at h
    omega

theorem C9_findEmptySlot_first_free_witness :
    ∃ k : Nat, findEmptySlot [⟨1, 7, 0, 700, 1, 700⟩, ⟨0, 0, 0, 0, 0, 0⟩, ⟨0, 0, 0, 0, 0, 0⟩] 3
        = (k : Int) ∧ (k : Int) < 3 ∧
      (List.getD [⟨1, 7, 0, 700, 1, 700⟩, ⟨0, 0, 0, 0, 0, 0⟩, ⟨0, 0, 0, 0, 0, 0⟩] k
        (default : PCB)).occupied = 0 ∧
      ∀ j : Nat, j < k →
        (List.getD [⟨1, 7, 0, 700, 1, 700⟩, ⟨0, 0, 0, 0, 0, 0⟩, ⟨0, 0, 0, 0, 0, 0⟩] j
          (default : PCB)).occupied ≠ 0 :=
  (C9_findEmptySlot_first_free [⟨1, 7, 0, 700, 1, 700⟩, ⟨0, 0, 0, 0, 0, 0⟩, ⟨0, 0, 0, 0, 0, 0⟩] 3).1
    ⟨2, by decide, by decide⟩

/-! ## Process-table lemmas -/

theorem getD_mem_of_lt {table : List PCB} {i : Nat} (h : i < table.length) :
    table.getD i default ∈ table := by
  rw [List.getD_eq_getElem _ _ h]
  exact List.getElem_mem h

theorem getD_set_self (table : List PCB) (i : Nat) (x : PCB) (h : i < table.length) :
    (table.set i x).getD i default = x := by
  rw [List.getD_eq_getElem _ _ (by simpa using h)]
  simp

theorem getD_set_other (table : List PCB) (i j : Nat) (x : PCB) (h : i ≠ j) :
    (table.set i x).getD j default = table.getD j default := by
  simp [List.getD_eq_getElem?_getD, List.getElem?_set, h]

/-- Writing entry `i` changes the number of occupied entries by the difference between
the new and the old entry. -/
theorem occupiedCount_set (table : List PCB) (i : Nat) (x : PCB) (h : i < table.length) :
    (occupiedCount (table.set i x) : Int) =
      occupiedCount table - (if (table.getD i default).occupied ≠ 0 then 1 else 0)
        + (if x.occupied ≠ 0 then 1 else 0) := by
  induction table generalizing i with
  | nil => simp at h
  | cons e rest ih =>
    cases i with
    | zero =>
      simp only [occupiedCount, List.set_cons_zero, List.countP_cons, List.getD_cons_zero]
      by_cases h1 : e.occupied = 0 <;> by_cases h2 : x.occupied = 0 <;> simp [h1, h2]
    | succ k =>
      have hk : k < rest.length := by simpa using h
      have := ih k hk
      simp only [occupiedCount, List.set_cons_succ, List.countP_cons, List.getD_cons_succ] at this ⊢
      push_cast
      rw [this]
      ring

theorem occupiedCount_pos_of_occupied (table : List PCB) (i : Nat) (h : i < table.length)
    (hocc : (table.getD i default).occupied ≠ 0) : 0 < occupiedCount table := by
  unfold occupiedCount
  rw [List.countP_pos_iff]
  exact ⟨table.getD i default, getD_mem_of_lt h, by simpa using hocc⟩

theorem occupiedCount_le_length (table : List PCB) : occupiedCount table ≤ table.length :=
  List.countP_le_length _

theorem occupiedCount_replicate_empty (n : Nat) :
    occupiedCount (List.replicate n emptyPCB) = 0 := by
  unfold occupiedCount
  rw [List.countP_eq_zero]
  intro e he
  rw [List.eq_of_mem_replicate he]
  decide

theorem set_getD_self (table : List PCB) (i : Nat) :
    table.set i (table.getD i default) = table := by
  induction table generalizing i with
  | nil => rfl
  | cons e rest ih =>
    cases i with
    | zero => rfl
    | succ k => simp only [List.set_cons_succ, List.getD_cons_succ, ih k]

/-! ## The reap scan -/

/-- The reap scan either finds no matching entry and returns the state as it is, or
applies `reapEntry` to the first matching entry. -/
theorem reapScan_spec (pid : Int) (st : OssState) (remaining i : Nat) :
    (reapScan pid st i remaining = st ∧
        ∀ j, i ≤ j → j < i + remaining →
          ¬ ((st.processTable.getD j default).occupied = 1 ∧
              (st.processTable.getD j default).pid = pid)) ∨
    (∃ k : Nat, reapScan pid st i remaining = reapEntry st k ∧ i ≤ k ∧ k < i + remaining ∧
        (st.processTable.getD k default).occupied = 1 ∧
        (st.processTable.getD k default).pid = pid ∧
        ∀ j, i ≤ j → j < k →
          ¬ ((st.processTable.getD j default).occupied = 1 ∧
              (st.processTable.getD j default).pid = pid)) := by
  induction remaining generalizing i with
  | zero =>
    left
    exact ⟨rfl, fun j h1 h2 => by omega⟩
  | succ r ih =>
    unfold reapScan
    by_cases h : (st.processTable.getD i default).occupied = 1 ∧
        (st.processTable.getD i default).pid = pid
    · right
      rw [if_pos h]
      exact ⟨i, rfl, le_refl i, by omega, h.1, h.2, fun j h1 h2 => by omega⟩
    · rw [if_neg h]
      rcases ih (i + 1) with ⟨heq, hall⟩ | ⟨k, heq, hik, hk, hocc, hpid, hall⟩
      · left
        refine ⟨heq, fun j h1 h2 => ?_⟩
        rcases Nat.eq_or_lt_of_le h1 with hji | hji
        · rw [← hji]; exact h
        · exact hall j hji (by omega)
      · right
        refine ⟨k, heq, by omega, by omega, hocc, hpid, fun j h1 h2 => ?_⟩
        rcases Nat.eq_or_lt_of_le h1 with hji | hji
        · rw [← hji]; exact h
        · exact hall j hji h2

/-- The two outcomes of reaping one child. -/
theorem reapChild_spec (pid : Int) (st : OssState) :
    (reapChild pid st = st ∧
        ∀ j, j < 20 →
          ¬ ((st.processTable.getD j default).occupied = 1 ∧
              (st.processTable.getD j default).pid = pid)) ∨
    (∃ k : Nat, reapChild pid st = reapEntry st k ∧ k < 20 ∧
        (st.processTable.getD k default).occupied = 1 ∧
        (st.processTable.getD k default).pid = pid ∧
        ∀ j, j < k →
          ¬ ((st.processTable.getD j default).occupied = 1 ∧
              (st.processTable.getD j default).pid = pid)) := by
  unfold reapChild
  rcases reapScan_spec pid st 20 0 with ⟨heq, hall⟩ | ⟨k, heq, _, hk, hocc, hpid, hall⟩
  · left
    exact ⟨heq, fun j hj => hall j (Nat.zero_le j) (by omega)⟩
  · right
    exact ⟨k, heq, by omega, hocc, hpid, fun j hj => hall j (Nat.zero_le j) hj⟩

/-! ## Invariants: the general scheme -/

theorem reapPhase_preserves (P : OssState → Prop)
    (hreap : ∀ pid st, P st → P (reapChild pid st)) :
    ∀ (pids : List Int) (st : OssState), P st → P (reapPhase pids st) := by
  intro pids
  induction pids with
  | nil => intro st h; exact h
  | cons pid rest ih =>
    intro st h
    unfold reapPhase
    split
    · exact ih _ (hreap pid st h)
    · exact h

theorem reapChild_preserves (P : OssState → Prop) (pid : Int) (st : OssState) (h : P st)
    (hentry : ∀ k, k < 20 → (st.processTable.getD k default).occupied = 1 →
      (st.processTable.getD k default).pid = pid → P (reapEntry st k)) :
    P (reapChild pid st) := by
  rcases reapChild_spec pid st with ⟨heq, _⟩ | ⟨k, heq, hk, hocc, hpid, _⟩
  · rw [heq]; exact h
  · rw [heq]; exact hentry k hk hocc hpid

theorem loopBody_preserves (cfg : Config) (P : OssState → Prop)
    (htick : ∀ st, P st → P (tickPhase st))
    (hreap : ∀ pid st, P st → P (reapChild pid st))
    (hadm : ∀ fr st st', P st → admitPhase cfg fr st = some st' → P st')
    (hreport : ∀ st, P st → P (reportPhase st))
    (env : Env) (st st' : OssState) (h : P st) (hb : loopBody cfg env st = some st') :
    P st' := by
  unfold loopBody at hb
  rw [Option.map_eq_some'] at hb
  obtain ⟨s1, hs1, rfl⟩ := hb
  exact hreport _ (hadm _ _ _ (reapPhase_preserves P hreap _ _ (htick _ h)) hs1)

theorem runLoop_preserves (cfg : Config) (P : OssState → Prop)
    (hstep : ∀ env st st', P st → loopCond cfg st → loopBody cfg env st = some st' → P st') :
    ∀ (envs : List Env) (st st' : OssState), P st → runLoop cfg envs st = some st' → P st' := by
  intro envs
  induction envs with
  | nil =>
    intro st st' h hr
    simp only [runLoop, Option.some.injEq] at hr
    exact hr ▸ h
  | cons env rest ih =>
    intro st st' h hr
    unfold runLoop at hr
    by_cases hc : loopCond cfg st
    · rw [if_pos hc] at hr
      cases hb : loopBody cfg env st with
      | none => rw [hb] at hr; cases hr
      | some s1 =>
        rw [hb] at hr
        exact ih s1 st' (hstep env st s1 h hc hb) hr
    · rw [if_neg hc] at hr
      simp only [Option.some.injEq] at hr
      exact hr ▸ h

/-- A property that holds initially and that each phase of an iteration preserves holds
in every state the main loop passes through. -/
theorem visited_invariant (cfg : Config) (P : OssState → Prop) (h0 : P initState)
    (htick : ∀ st, P st → P (tickPhase st))
    (hreap : ∀ pid st, P st → P (reapChild pid st))
    (hadm : ∀ fr st st', P st → admitPhase cfg fr st = some st' → P st')
    (hreport : ∀ st, P st → P (reportPhase st))
    (st : OssState) (hv : Visited cfg st) : P st := by
  have hreach : ∀ s, Reachable cfg s → P s := by
    intro s ⟨envs, hr⟩
    exact runLoop_preserves cfg P
      (fun env a b ha _ hb => loopBody_preserves cfg P htick hreap hadm hreport env a b ha hb)
      envs initState s h0 hr
  rcases hv with hr | ⟨s0, env, hr, _, rfl | hst⟩
  · exact hreach st hr
  · exact reapPhase_preserves P hreap _ _ (htick _ (hreach s0 hr))
  · exact hadm _ _ _ (reapPhase_preserves P hreap _ _ (htick _ (hreach s0 hr))) hst

theorem reachable_visited (cfg : Config) (st : OssState) (h : Reachable cfg st) :
    Visited cfg st := Or.inl h

theorem reachable_init (cfg : Config) : Reachable cfg initState := ⟨[], rfl⟩

/-! ## Invariants: table shape and worker count -/

theorem tableInv_init : TableInv initState := by
  refine ⟨by simp [initState], fun e he => ?_, ?_⟩
  · left
    rw [List.eq_of_mem_replicate he]
    rfl
  · show (0 : Int) = ((occupiedCount (List.replicate 20 emptyPCB) : Nat) : Int)
    rw [occupiedCount_replicate_empty]
    rfl

theorem tableInv_tick (st : OssState) (h : TableInv st) : TableInv (tickPhase st) := h

theorem tableInv_report (st : OssState) (h : TableInv st) : TableInv (reportPhase st) := by
  unfold reportPhase
  split
  · exact h
  · exact h

/-- Reaping an occupied entry keeps the table invariant and takes one off `activeWorkers`. -/
theorem tableInv_reapEntry (st : OssState) (k : Nat) (h : TableInv st) (hk : k < 20)
    (hocc : (st.processTable.getD k default).occupied = 1) :
    TableInv (reapEntry st k) ∧ (reapEntry st k).activeWorkers = st.activeWorkers - 1 := by
  obtain ⟨hlen, hbool, hact⟩ := h
  have hkl : k < st.processTable.length := by omega
  have hpos := occupiedCount_pos_of_occupied st.processTable k hkl (by rw [hocc]; decide)
  have hle := occupiedCount_le_length st.processTable
  have hw : wrapInt32 (st.activeWorkers - 1) = st.activeWorkers - 1 :=
    wrapInt32_id (by omega) (by omega)
  have hcount := occupiedCount_set st.processTable k emptyPCB hkl
  rw [if_pos (by rw [hocc]; decide), if_neg (by decide)] at hcount
  refine ⟨⟨?_, ?_, ?_⟩, hw⟩
  · show (st.processTable.set k emptyPCB).length = 20
    rw [List.length_set]; exact hlen
  · intro e he
    show e.occupied = 0 ∨ e.occupied = 1
    rcases List.mem_or_eq_of_mem_set he with hm | rfl
    · exact hbool e hm
    · left; rfl
  · show wrapInt32 (st.activeWorkers - 1) = (occupiedCount (st.processTable.set k emptyPCB) : Int)
    rw [hw, hcount, hact]
    ring

theorem tableInv_reapChild (pid : Int) (st : OssState) (h : TableInv st) :
    TableInv (reapChild pid st) :=
  reapChild_preserves TableInv pid st h
    (fun k hk hocc _ => (tableInv_reapEntry st k h hk hocc).1)

/-- When the admission predicate holds, the slot `findEmptySlot` returns is the index of
an unoccupied entry of the table. -/
theorem admission_slot (cfg : Config) (st : OssState) (h : admissionPredicate cfg st) :
    ∃ k : Nat, findEmptySlot st.processTable 20 = (k : Int) ∧ k < 20 ∧
      (st.processTable.getD k default).occupied = 0 ∧
      ∀ j : Nat, j < k → (st.processTable.getD j default).occupied ≠ 0 := by
  rcases findEmptySlot_spec st.processTable 20 with ⟨heq, _⟩ | ⟨k, heq, hk, hocc, hall⟩
  · exact absurd heq h.2.2.1
  · exact ⟨k, heq, by omega, hocc, hall⟩

/-- The fork-failed branch writes 0 into an `occupied` field that is 0 already. -/
theorem forkFailed_eq (st : OssState) (k : Nat)
    (hocc : (st.processTable.getD k default).occupied = 0) : forkFailed st k = st := by
  have he : ({ st.processTable.getD k default with occupied := 0 } : PCB)
      = st.processTable.getD k default := by
    cases hg : st.processTable.getD k default with
    | mk occ pid ss sn es en =>
      rw [hg] at hocc
      simp only [] at hocc
      subst hocc
      rfl
  unfold forkFailed
  rw [he, set_getD_self]

/-- Launching into an unoccupied slot keeps the table invariant and adds one to
`activeWorkers`. -/
theorem tableInv_launchWorker (cfg : Config) (pid : Int) (st : OssState) (k : Nat)
    (h : TableInv st) (hk : k < 20) (hocc : (st.processTable.getD k default).occupied = 0) :
    TableInv (launchWorker cfg pid st k) ∧
      (launchWorker cfg pid st k).activeWorkers = st.activeWorkers + 1 := by
  obtain ⟨hlen, hbool, hact⟩ := h
  have hkl : k < st.processTable.length := by omega
  have hle := occupiedCount_le_length st.processTable
  have hw : wrapInt32 (st.activeWorkers + 1) = st.activeWorkers + 1 :=
    wrapInt32_id (by omega) (by omega)
  refine ⟨⟨?_, ?_, ?_⟩, hw⟩
  · show (st.processTable.set k _).length = 20
    rw [List.length_set]; exact hlen
  · intro e he
    show e.occupied = 0 ∨ e.occupied = 1
    rcases List.mem_or_eq_of_mem_set he with hm | rfl
    · exact hbool e hm
    · right; rfl
  · show wrapInt32 (st.activeWorkers + 1) = (occupiedCount (st.processTable.set k _) : Int)
    rw [hw, occupiedCount_set st.processTable k _ hkl, if_neg (by rw [hocc]; decide),
      if_pos (by show (1 : Int) ≠ 0; decide), hact]
    ring

/-- The three ways the admission phase can return a state. -/
theorem admitPhase_spec (cfg : Config) (fr : Int) (st st' : OssState)
    (h : admitPhase cfg fr st = some st') :
    (¬ admissionPredicate cfg st ∧ st' = st) ∨
    (admissionPredicate cfg st ∧ fr < 0 ∧ st' = st) ∨
    (admissionPredicate cfg st ∧ fr > 0 ∧
      ∃ k : Nat, findEmptySlot st.processTable 20 = (k : Int) ∧ k < 20 ∧
        (st.processTable.getD k default).occupied = 0 ∧ st' = launchWorker cfg fr st k) := by
  unfold admitPhase at h
  by_cases hp : admissionPredicate cfg st
  · obtain ⟨k, hslot, hk, hocc, _⟩ := admission_slot cfg st hp
    simp only [if_pos hp, hslot, Int.toNat_ofNat] at h
    by_cases h0 : fr = 0
    · simp [h0] at h
    · rw [if_neg h0] at h
      by_cases hpos : fr > 0
      · rw [if_pos hpos] at h
        right; right
        exact ⟨hp, hpos, k, hslot, hk, hocc, (Option.some.inj h).symm⟩
      · rw [if_neg hpos, forkFailed_eq st k hocc] at h
        right; left
        exact ⟨hp, by omega, (Option.some.inj h).symm⟩
  · left
    simp only [if_neg hp] at h
    exact ⟨hp, (Option.some.inj h).symm⟩

theorem tableInv_admitPhase (cfg : Config) (fr : Int) (st st' : OssState) (h : TableInv st)
    (ha : admitPhase cfg fr st = some st') : TableInv st' := by
  rcases admitPhase_spec cfg fr st st' ha with ⟨_, rfl⟩ | ⟨_, _, rfl⟩ | ⟨_, _, k, _, hk, hocc, rfl⟩
  · exact h
  · exact h
  · exact (tableInv_launchWorker cfg fr st k h hk hocc).1

theorem visited_tableInv (cfg : Config) (st : OssState) (hv : Visited cfg st) : TableInv st :=
  visited_invariant cfg TableInv tableInv_init tableInv_tick
    (fun pid s h => tableInv_reapChild pid s h)
    (fun fr s s' h ha => tableInv_admitPhase cfg fr s s' h ha)
    tableInv_report st hv

/-! ## Claims C3, C4: the launch counters -/

/-- Counter invariant: `totalWorkersLaunched` is an `int` that stays at or below `total_p`
when `total_p` is not negative and stays 0 when it is. -/
theorem launched_invariant (cfg : Config) (st : OssState) (hv : Visited cfg st) :
    isInt32 st.totalWorkersLaunched ∧
      (0 ≤ cfg.total_p → st.totalWorkersLaunched ≤ cfg.total_p) ∧
      (cfg.total_p < 0 → st.totalWorkersLaunched = 0) := by
  refine visited_invariant cfg
    (fun s => isInt32 s.totalWorkersLaunched ∧
      (0 ≤ cfg.total_p → s.totalWorkersLaunched ≤ cfg.total_p) ∧
      (cfg.total_p < 0 → s.totalWorkersLaunched = 0))
    ⟨by decide, fun h => h, fun _ => rfl⟩ (fun s h => h) ?_ ?_ ?_ st hv
  · intro pid s h
    exact reapChild_preserves (fun s => isInt32 s.totalWorkersLaunched ∧
      (0 ≤ cfg.total_p → s.totalWorkersLaunched ≤ cfg.total_p) ∧
      (cfg.total_p < 0 → s.totalWorkersLaunched = 0)) pid s h (fun k _ _ _ => h)
  · intro fr s s' h ha
    rcases admitPhase_spec cfg fr s s' ha with ⟨_, rfl⟩ | ⟨_, _, rfl⟩ | ⟨hp, _, k, _, _, _, rfl⟩
    · exact h
    · exact h
    · obtain ⟨hint, hle, hneg⟩ := h
      have hlt : s.totalWorkersLaunched < cfg.total_p := hp.1
      show isInt32 (wrapInt32 (s.totalWorkersLaunched + 1)) ∧
        (0 ≤ cfg.total_p → wrapInt32 (s.totalWorkersLaunched + 1) ≤ cfg.total_p) ∧
        (cfg.total_p < 0 → wrapInt32 (s.totalWorkersLaunched + 1) = 0)
      refine ⟨wrapInt32_isInt32 _, fun _ => ?_, fun hn => ?_⟩
      · unfold isInt32 at hint
        unfold wrapInt32
        omega
      · have := hneg hn
        omega
  · intro s h
    unfold reportPhase
    split
    · exact h
    · exact h

/-- Counter invariant: `activeWorkers` stays at or below `max_sp` when `max_sp` is not
negative and stays 0 when it is. -/
theorem active_invariant (cfg : Config) (st : OssState) (hv : Visited cfg st) :
    TableInv st ∧ (0 ≤ cfg.max_sp → st.activeWorkers ≤ cfg.max_sp) ∧
      (cfg.max_sp < 0 → st.activeWorkers = 0) := by
  refine visited_invariant cfg
    (fun s => TableInv s ∧ (0 ≤ cfg.max_sp → s.activeWorkers ≤ cfg.max_sp) ∧
      (cfg.max_sp < 0 → s.activeWorkers = 0))
    ⟨tableInv_init, fun h => h, fun _ => rfl⟩ (fun s h => h) ?_ ?_ ?_ st hv
  · intro pid s h
    refine reapChild_preserves (fun s => TableInv s ∧
      (0 ≤ cfg.max_sp → s.activeWorkers ≤ cfg.max_sp) ∧
      (cfg.max_sp < 0 → s.activeWorkers = 0)) pid s h (fun k hk hocc _ => ?_)
    obtain ⟨hinv, hle, hneg⟩ := h
    obtain ⟨hinv', hact⟩ := tableInv_reapEntry s k hinv hk hocc
    have hpos := occupiedCount_pos_of_occupied s.processTable k (by rw [hinv.1]; exact hk)
      (by rw [hocc]; decide)
    have hcnt := hinv.2.2
    refine ⟨hinv', fun h0 => ?_, fun hn => ?_⟩
    · have := hle h0
      omega
    · have := hneg hn
      omega
  · intro fr s s' h ha
    rcases admitPhase_spec cfg fr s s' ha with ⟨_, rfl⟩ | ⟨_, _, rfl⟩ | ⟨hp, _, k, _, hk, hocc, rfl⟩
    · exact h
    · exact h
    · obtain ⟨hinv, hle, hneg⟩ := h
      obtain ⟨hinv', hact⟩ := tableInv_launchWorker cfg fr s k hinv hk hocc
      have hlt : s.activeWorkers < cfg.max_sp := hp.2.1
      refine ⟨hinv', fun _ => ?_, fun hn => ?_⟩
      · omega
      · have := hneg hn
        omega
  · intro s h
    exact ⟨tableInv_report s h.1, by
      unfold reportPhase
      split
      · exact h.2
      · exact h.2⟩

/-- C3 as stated fails: with `total_p = -1` (`oss -n -1`) the loop-head state has
`totalWorkersLaunched = 0`, which exceeds `total_p`. -/
theorem C3_counterexample :
    Reachable { total_p := -1, max_sp := 0, timeLimitSec := 0, timeLimitNano := 0,
                launchIntervalSec := 0, launchIntervalNano := 0 } initState ∧
      ¬ (initState.totalWorkersLaunched ≤ (-1 : Int)) :=
  ⟨reachable_init _, by decide⟩

/-- C3 (amended): in every state the main loop passes through, under any environment
behaviour, `totalWorkersLaunched` never exceeds `total_p` when `total_p ≥ 0`, and stays 0
when `total_p` is negative. -/
theorem C3_total_launched_le_total_p (cfg : Config) (st : OssState) (hv : Visited cfg st) :
    (0 ≤ cfg.total_p → st.totalWorkersLaunched ≤ cfg.total_p) ∧
      (cfg.total_p < 0 → st.totalWorkersLaunched = 0) :=
  (launched_invariant cfg st hv).2

theorem C3_total_launched_le_total_p_witness :
    Visited ⟨2, 1, 1, 0, 0, 0⟩
        { shmClock := ⟨0, 2100⟩, processTable := List.replicate 20 emptyPCB,
          activeWorkers := 0, totalWorkersLaunched := 2, nextLaunchSec := 0,
          nextLaunchNano := 1400, lastReportSec := 0, lastReportNano := 0,
          combinedTimeSec := 0, combinedTimeNano := 1400 } ∧
      (((0 : Int) ≤ 2 → (2 : Int) ≤ 2) ∧ ((2 : Int) < 0 → (2 : Int) = 0)) :=
  have hv : Visited ⟨2, 1, 1, 0, 0, 0⟩
      { shmClock := ⟨0, 2100⟩, processTable := List.replicate 20 emptyPCB,
        activeWorkers := 0, totalWorkersLaunched := 2, nextLaunchSec := 0,
        nextLaunchNano := 1400, lastReportSec := 0, lastReportNano := 0,
        combinedTimeSec := 0, combinedTimeNano := 1400 } :=
    Or.inl ⟨[⟨[], 101⟩, ⟨[101], 102⟩, ⟨[102], 103⟩], by decide⟩
  ⟨hv, C3_total_launched_le_total_p _ _ hv⟩

/-- C4 as stated fails: with `max_sp = -1` (`oss -s -1`) the loop-head state has
`activeWorkers = 0`, which exceeds `max_sp`. -/
theorem C4_counterexample :
    Reachable { total_p := 0, max_sp := -1, timeLimitSec := 0, timeLimitNano := 0,
                launchIntervalSec := 0, launchIntervalNano := 0 } initState ∧
      ¬ (initState.activeWorkers ≤ (-1 : Int)) :=
  ⟨reachable_init _, by decide⟩

/-- C4 (amended): in every state the main loop passes through, under any environment
behaviour, `activeWorkers` never exceeds `max_sp` when `max_sp ≥ 0` (so with
`total_p = 5`, `max_sp = 2` never more than 2 workers are active), and stays 0 when
`max_sp` is negative. -/
theorem C4_active_le_max_sp (cfg : Config) (st : OssState) (hv : Visited cfg st) :
    (0 ≤ cfg.max_sp → st.activeWorkers ≤ cfg.max_sp) ∧
      (cfg.max_sp < 0 → st.activeWorkers = 0) :=
  (active_invariant cfg st hv).2

theorem C4_active_le_max_sp_witness :
    Visited ⟨5, 2, 1, 0, 0, 0⟩
        { shmClock := ⟨0, 2100⟩,
          processTable := ⟨1, 101, 0, 700, 1, 700⟩ :: ⟨1, 102, 0, 1400, 1, 1400⟩ ::
            List.replicate 18 emptyPCB,
          activeWorkers := 2, totalWorkersLaunched := 2, nextLaunchSec := 0,
          nextLaunchNano := 1400, lastReportSec := 0, lastReportNano := 0,
          combinedTimeSec := 0, combinedTimeNano := 0 } ∧
      (((0 : Int) ≤ 2 → (2 : Int) ≤ 2) ∧ ((2 : Int) < 0 → (2 : Int) = 0)) :=
  have hv : Visited ⟨5, 2, 1, 0, 0, 0⟩
      { shmClock := ⟨0, 2100⟩,
        processTable := ⟨1, 101, 0, 700, 1, 700⟩ :: ⟨1, 102, 0, 1400, 1, 1400⟩ ::
          List.replicate 18 emptyPCB,
        activeWorkers := 2, totalWorkersLaunched := 2, nextLaunchSec := 0,
        nextLaunchNano := 1400, lastReportSec := 0, lastReportNano := 0,
        combinedTimeSec := 0, combinedTimeNano := 0 } :=
    Or.inl ⟨[⟨[], 101⟩, ⟨[], 102⟩, ⟨[], 103⟩], by decide⟩
  ⟨hv, C4_active_le_max_sp _ _ hv⟩

/-! ## Claims C7, C10: the admission phase -/

theorem specAdmission_iff (cfg : Config) (st : OssState) :
    specAdmission cfg st ↔ admissionPredicate cfg st := by
  unfold specAdmission admissionPredicate launchTimeReached
  have hslot : (∃ i : Nat, i < 20 ∧ (st.processTable.getD i default).occupied = 0) ↔
      findEmptySlot st.processTable 20 ≠ -1 := by
    rcases findEmptySlot_spec st.processTable 20 with ⟨heq, hall⟩ | ⟨k, heq, hk, hocc, _⟩
    · constructor
      · rintro ⟨i, hi, hocc⟩
        exact absurd hocc (hall i (by omega))
      · intro hne
        exact absurd heq hne
    · constructor
      · intro _
        rw [heq]
        omega
      · intro _
        exact ⟨k, by omega, hocc⟩
  rw [hslot]

theorem reapChild_totalWorkersLaunched (pid : Int) (st : OssState) :
    (reapChild pid st).totalWorkersLaunched = st.totalWorkersLaunched :=
  reapChild_preserves (fun s => s.totalWorkersLaunched = st.totalWorkersLaunched) pid st rfl
    (fun _ _ _ _ => rfl)

theorem reapPhase_totalWorkersLaunched (pids : List Int) (st : OssState) :
    (reapPhase pids st).totalWorkersLaunched = st.totalWorkersLaunched :=
  reapPhase_preserves (fun s => s.totalWorkersLaunched = st.totalWorkersLaunched)
    (fun pid s h => (reapChild_totalWorkersLaunched pid s).trans h) pids st rfl

theorem afterReap_totalWorkersLaunched (env : Env) (st : OssState) :
    (afterReap env st).totalWorkersLaunched = st.totalWorkersLaunched :=
  reapPhase_totalWorkersLaunched env.waitpids (tickPhase st)

theorem reportPhase_frame (st : OssState) :
    (reportPhase st).shmClock = st.shmClock ∧
    (reportPhase st).processTable = st.processTable ∧
    (reportPhase st).activeWorkers = st.activeWorkers ∧
    (reportPhase st).totalWorkersLaunched = st.totalWorkersLaunched ∧
    (reportPhase st).nextLaunchSec = st.nextLaunchSec ∧
    (reportPhase st).nextLaunchNano = st.nextLaunchNano ∧
    (reportPhase st).combinedTimeSec = st.combinedTimeSec ∧
    (reportPhase st).combinedTimeNano = st.combinedTimeNano := by
  unfold reportPhase
  split <;> exact ⟨rfl, rfl, rfl, rfl, rfl, rfl, rfl, rfl⟩

/-- C7: in an iteration (from a reachable loop-head state) in which `fork` succeeds when
attempted, a worker is launched if and only if the admission predicate
(`totalWorkersLaunched < total_p`, `activeWorkers < max_sp`, a free slot, clock at or
past the next launch time, equality included) holds after the tick and the reap phase:
if it holds, both counters grow by exactly one and one more entry is occupied; if it
does not, counters and table stay as the reap phase left them. So at most one worker is
launched per iteration and no tick on which the predicate holds is skipped. -/
theorem C7_launch_iff_admission (cfg : Config) (hcfg : cfg.total_p ≤ 2147483647)
    (s : OssState) (env : Env) (hr : Reachable cfg s) (hc : loopCond cfg s)
    (hfork : env.forkResult > 0) :
    ∃ s', loopBody cfg env s = some s' ∧
      (afterReap env s).totalWorkersLaunched = s.totalWorkersLaunched ∧
      (specAdmission cfg (afterReap env s) →
        s'.totalWorkersLaunched = (afterReap env s).totalWorkersLaunched + 1 ∧
        s'.activeWorkers = (afterReap env s).activeWorkers + 1 ∧
        occupiedCount s'.processTable = occupiedCount (afterReap env s).processTable + 1) ∧
      (¬ specAdmission cfg (afterReap env s) →
        s'.totalWorkersLaunched = (afterReap env s).totalWorkersLaunched ∧
        s'.activeWorkers = (afterReap env s).activeWorkers ∧
        s'.processTable = (afterReap env s).processTable) := by
  have hv : Visited cfg (afterReap env s) := Or.inr ⟨s, env, hr, hc, Or.inl rfl⟩
  have hinv := visited_tableInv cfg _ hv
  have hint := (launched_invariant cfg _ hv).1
  obtain ⟨hf1, hf2, hf3, hf4, _⟩ := reportPhase_frame (afterReap env s)
  by_cases hp : admissionPredicate cfg (afterReap env s)
  · obtain ⟨k, hslot, hk, hocc, _⟩ := admission_slot cfg _ hp
    have hadm : admitPhase cfg env.forkResult (afterReap env s)
        = some (launchWorker cfg env.forkResult (afterReap env s) k) := by
      unfold admitPhase
      simp only [if_pos hp, hslot, Int.toNat_ofNat, if_pos hfork]
      rw [if_neg (by omega)]
    obtain ⟨hinv', hact⟩ := tableInv_launchWorker cfg env.forkResult _ k hinv hk hocc
    obtain ⟨g1, g2, g3, g4, _⟩ := reportPhase_frame (launchWorker cfg env.forkResult (afterReap env s) k)
    refine ⟨reportPhase (launchWorker cfg env.forkResult (afterReap env s) k), ?_,
      afterReap_totalWorkersLaunched env s, fun _ => ⟨?_, ?_, ?_⟩, fun hn => ?_⟩
    · unfold loopBody
      rw [hadm]
      rfl
    · rw [g4]
      show wrapInt32 ((afterReap env s).totalWorkersLaunched + 1) = _
      have hlt : (afterReap env s).totalWorkersLaunched < cfg.total_p := hp.1
      unfold isInt32 at hint
      exact wrapInt32_id (by omega) (by omega)
    · rw [g3, hact]
    · rw [g2]
      have h1 := hinv'.2.2
      have h2 := hinv.2.2
      rw [hact, h2] at h1
      omega
    · exact absurd ((specAdmission_iff cfg _).2 hp) hn
  · have hadm : admitPhase cfg env.forkResult (afterReap env s) = some (afterReap env s) := by
      unfold admitPhase
      simp only [if_neg hp]
    refine ⟨reportPhase (afterReap env s), ?_, afterReap_totalWorkersLaunched env s,
      fun hs => absurd ((specAdmission_iff cfg _).1 hs) hp, fun _ => ⟨hf4, hf3, hf2⟩⟩
    unfold loopBody
    rw [hadm]
    rfl

theorem C7_launch_iff_admission_witness :
    ∃ s', loopBody ⟨2, 1, 1, 0, 0, 0⟩ ⟨[], 101⟩ initState = some s' ∧
      (afterReap ⟨[], 101⟩ initState).totalWorkersLaunched = initState.totalWorkersLaunched ∧
      (specAdmission ⟨2, 1, 1, 0, 0, 0⟩ (afterReap ⟨[], 101⟩ initState) →
        s'.totalWorkersLaunched = (afterReap ⟨[], 101⟩ initState).totalWorkersLaunched + 1 ∧
        s'.activeWorkers = (afterReap ⟨[], 101⟩ initState).activeWorkers + 1 ∧
        occupiedCount s'.processTable
          = occupiedCount (afterReap ⟨[], 101⟩ initState).processTable + 1) ∧
      (¬ specAdmission ⟨2, 1, 1, 0, 0, 0⟩ (afterReap ⟨[], 101⟩ initState) →
        s'.totalWorkersLaunched = (afterReap ⟨[], 101⟩ initState).totalWorkersLaunched ∧
        s'.activeWorkers = (afterReap ⟨[], 101⟩ initState).activeWorkers ∧
        s'.processTable = (afterReap ⟨[], 101⟩ initState).processTable) :=
  C7_launch_iff_admission ⟨2, 1, 1, 0, 0, 0⟩ (by decide) initState ⟨[], 101⟩
    (reachable_init _) (by decide) (by decide)

/-- C10: when the admission predicate holds and `fork` fails, the admission phase returns
the state it was given: process table (the chosen slot stays unoccupied),
`totalWorkersLaunched`, `activeWorkers` and `nextLaunchTime` are unchanged, and the loop
goes on to the report phase and the next tick. -/
theorem C10_fork_failure_rolls_back (cfg : Config) (st : OssState) (forkResult : Int)
    (hp : admissionPredicate cfg st) (hfail : forkResult < 0) :
    admitPhase cfg forkResult st = some st ∧
      ∃ k : Nat, findEmptySlot st.processTable 20 = (k : Int) ∧
        (st.processTable.getD k default).occupied = 0 := by
  obtain ⟨k, hslot, _, hocc, _⟩ := admission_slot cfg st hp
  refine ⟨?_, k, hslot, hocc⟩
  unfold admitPhase
  simp only [if_pos hp, hslot, Int.toNat_ofNat]
  rw [if_neg (by omega), if_neg (by omega), forkFailed_eq st k hocc]

theorem C10_fork_failure_rolls_back_witness :
    admitPhase ⟨2, 1, 1, 0, 0, 0⟩ (-1) (tickPhase initState) = some (tickPhase initState) ∧
      ∃ k : Nat, findEmptySlot (tickPhase initState).processTable 20 = (k : Int) ∧
        ((tickPhase initState).processTable.getD k default).occupied = 0 :=
  C10_fork_failure_rolls_back ⟨2, 1, 1, 0, 0, 0⟩ (tickPhase initState) (-1) (by decide)
    (by decide)

/-! ## Time arithmetic without overflow -/

/-- The function `addTime` returns the normalized sum when both nanosecond parts lie in `[0, 1e9)`
and the sum is representable with `int` seconds. -/
theorem addTime_exact (sec nano dSec dNano : Int)
    (hn : 0 ≤ nano ∧ nano < 1000000000) (hd : 0 ≤ dNano ∧ dNano < 1000000000)
    (hlo : -2147483648 ≤ sec + dSec)
    (hhi : totalNanos sec nano + totalNanos dSec dNano < 2147483648 * 1000000000) :
    0 ≤ (addTime sec nano dSec dNano).2 ∧ (addTime sec nano dSec dNano).2 < 1000000000 ∧
      totalNanos (addTime sec nano dSec dNano).1 (addTime sec nano dSec dNano).2
        = totalNanos sec nano + totalNanos dSec dNano := by
  unfold totalNanos at hhi ⊢
  have hw1 : wrapInt32 (nano + dNano) = nano + dNano := wrapInt32_id (by omega) (by omega)
  have hw2 : wrapInt32 (sec + dSec) = sec + dSec := wrapInt32_id hlo (by omega)
  unfold addTime
  simp only [hw1, hw2]
  by_cases hc : nano + dNano ≥ 1000000000
  · have hw3 : wrapInt32 (nano + dNano - 1000000000) = nano + dNano - 1000000000 :=
      wrapInt32_id (by omega) (by omega)
    have hw4 : wrapInt32 (sec + dSec + 1) = sec + dSec + 1 := wrapInt32_id (by omega) (by omega)
    rw [if_pos hc]
    simp only [hw3, hw4]
    refine ⟨by omega, by omega, by ring⟩
  · rw [if_neg hc]
    simp only []
    refine ⟨by omega, by omega, by ring⟩

/-- The function `subTime` returns the normalized difference when both nanosecond parts lie in
`[0, 1e9)` and the difference is representable with `int` seconds. -/
theorem subTime_exact (sec nano sec0 nano0 : Int)
    (hn : 0 ≤ nano ∧ nano < 1000000000) (h0 : 0 ≤ nano0 ∧ nano0 < 1000000000)
    (hlo : -2147483648 * 1000000000 ≤ totalNanos sec nano - totalNanos sec0 nano0)
    (hhi : sec - sec0 ≤ 2147483647) :
    0 ≤ (subTime sec nano sec0 nano0).2 ∧ (subTime sec nano sec0 nano0).2 < 1000000000 ∧
      totalNanos (subTime sec nano sec0 nano0).1 (subTime sec nano sec0 nano0).2
        = totalNanos sec nano - totalNanos sec0 nano0 := by
  unfold totalNanos at hlo ⊢
  have hw1 : wrapInt32 (nano - nano0) = nano - nano0 := wrapInt32_id (by omega) (by omega)
  have hw2 : wrapInt32 (sec - sec0) = sec - sec0 := wrapInt32_id (by omega) hhi
  unfold subTime
  simp only [hw1, hw2]
  by_cases hc : nano - nano0 < 0
  · have hw3 : wrapInt32 (nano - nano0 + 1000000000) = nano - nano0 + 1000000000 :=
      wrapInt32_id (by omega) (by omega)
    have hw4 : wrapInt32 (sec - sec0 - 1) = sec - sec0 - 1 := wrapInt32_id (by omega) (by omega)
    rw [if_pos hc]
    simp only [hw3, hw4]
    refine ⟨by omega, by omega, by ring⟩
  · rw [if_neg hc]
    simp only []
    refine ⟨by omega, by omega, by ring⟩

/-- The nanosecond part of `subTime` lies in `[0, 1e9)` for normalized arguments, with or
without overflow of the seconds. -/
theorem subTime_nano_range (sec nano sec0 nano0 : Int)
    (hn : 0 ≤ nano ∧ nano < 1000000000) (h0 : 0 ≤ nano0 ∧ nano0 < 1000000000) :
    0 ≤ (subTime sec nano sec0 nano0).2 ∧ (subTime sec nano sec0 nano0).2 < 1000000000 := by
  have hw1 : wrapInt32 (nano - nano0) = nano - nano0 := wrapInt32_id (by omega) (by omega)
  unfold subTime
  simp only [hw1]
  by_cases hc : nano - nano0 < 0
  · have hw3 : wrapInt32 (nano - nano0 + 1000000000) = nano - nano0 + 1000000000 :=
      wrapInt32_id (by omega) (by omega)
    rw [if_pos hc]
    simp only [hw3]
    omega
  · rw [if_neg hc]
    simp only []
    omega

/-- The nanosecond part of `accumulate` lies in `[0, 1e9)` when both nanosecond arguments
do, with or without overflow of the seconds. -/
theorem accumulate_nano_range (cs cn rs rn : Int)
    (hc : 0 ≤ cn ∧ cn < 1000000000) (hr : 0 ≤ rn ∧ rn < 1000000000) :
    0 ≤ (accumulate cs cn rs rn).2 ∧ (accumulate cs cn rs rn).2 < 1000000000 := by
  have hw1 : wrapInt32 (cn + rn) = cn + rn := wrapInt32_id (by omega) (by omega)
  unfold accumulate
  simp only [hw1]
  by_cases hge : cn + rn ≥ 1000000000
  · have hw3 : wrapInt32 (cn + rn - 1000000000) = cn + rn - 1000000000 :=
      wrapInt32_id (by omega) (by omega)
    rw [if_pos hge]
    simp only [hw3]
    omega
  · rw [if_neg hge]
    simp only []
    omega

/-- The function `accumulate` adds exactly when the sum is representable with `int` seconds. -/
theorem accumulate_exact (cs cn rs rn : Int)
    (hc : 0 ≤ cn ∧ cn < 1000000000) (hr : 0 ≤ rn ∧ rn < 1000000000)
    (hlo : -2147483648 ≤ cs + rs)
    (hhi : totalNanos cs cn + totalNanos rs rn < 2147483648 * 1000000000) :
    totalNanos (accumulate cs cn rs rn).1 (accumulate cs cn rs rn).2
        = totalNanos cs cn + totalNanos rs rn := by
  unfold totalNanos at hhi ⊢
  have hw1 : wrapInt32 (cn + rn) = cn + rn := wrapInt32_id (by omega) (by omega)
  have hw2 : wrapInt32 (cs + rs) = cs + rs := wrapInt32_id hlo (by omega)
  unfold accumulate
  simp only [hw1, hw2]
  by_cases hge : cn + rn ≥ 1000000000
  · have hw3 : wrapInt32 (cn + rn - 1000000000) = cn + rn - 1000000000 :=
      wrapInt32_id (by omega) (by omega)
    have hw4 : wrapInt32 (cs + rs + 1) = cs + rs + 1 := wrapInt32_id (by omega) (by omega)
    rw [if_pos hge]
    simp only [hw3, hw4]
    ring
  · rw [if_neg hge]
    simp only []
    ring

/-! ## Claim C8: what a launch records -/

/-- C8 (amended): on a successful launch (admission predicate true, `fork` returns a
positive pid) with a normalized clock, lifetime and launch-interval nanoseconds in
`[0, 1e9)`, and sums whose seconds fit an `int`, the slot `findEmptySlot` returns becomes
occupied with the child's pid, its start time is the current clock, its end time is the
normalized sum start + lifetime, and `nextLaunchTime` is the normalized sum
start + launch interval. -/
theorem C8_launch_records_times (cfg : Config) (pid : Int) (st : OssState)
    (hlen : st.processTable.length = 20)
    (hp : admissionPredicate cfg st) (hpid : pid > 0)
    (hclk : st.shmClock.normalized)
    (hns : 0 ≤ cfg.timeLimitNano ∧ cfg.timeLimitNano < 1000000000)
    (hins : 0 ≤ cfg.launchIntervalNano ∧ cfg.launchIntervalNano < 1000000000)
    (hlo : -2147483648 ≤ st.shmClock.seconds + cfg.timeLimitSec)
    (hhi : totalNanos st.shmClock.seconds st.shmClock.nanoseconds
        + totalNanos cfg.timeLimitSec cfg.timeLimitNano < 2147483648 * 1000000000)
    (hilo : -2147483648 ≤ st.shmClock.seconds + cfg.launchIntervalSec)
    (hihi : totalNanos st.shmClock.seconds st.shmClock.nanoseconds
        + totalNanos cfg.launchIntervalSec cfg.launchIntervalNano < 2147483648 * 1000000000) :
    ∃ (k : Nat) (st' : OssState),
      findEmptySlot st.processTable 20 = (k : Int) ∧ k < 20 ∧
      admitPhase cfg pid st = some st' ∧
      (st'.processTable.getD k default).occupied = 1 ∧
      (st'.processTable.getD k default).pid = pid ∧
      (st'.processTable.getD k default).startSeconds = st.shmClock.seconds ∧
      (st'.processTable.getD k default).startNanoseconds = st.shmClock.nanoseconds ∧
      0 ≤ (st'.processTable.getD k default).endingNanoseconds ∧
      (st'.processTable.getD k default).endingNanoseconds < 1000000000 ∧
      totalNanos (st'.processTable.getD k default).endingSeconds
          (st'.processTable.getD k default).endingNanoseconds
        = totalNanos st.shmClock.seconds st.shmClock.nanoseconds
          + totalNanos cfg.timeLimitSec cfg.timeLimitNano ∧
      0 ≤ st'.nextLaunchNano ∧ st'.nextLaunchNano < 1000000000 ∧
      totalNanos st'.nextLaunchSec st'.nextLaunchNano
        = totalNanos st.shmClock.seconds st.shmClock.nanoseconds
          + totalNanos cfg.launchIntervalSec cfg.launchIntervalNano := by
  obtain ⟨k, hslot, hk, _, _⟩ := admission_slot cfg st hp
  have hadm : admitPhase cfg pid st = some (launchWorker cfg pid st k) := by
    unfold admitPhase
    simp only [if_pos hp, hslot, Int.toNat_ofNat, if_pos hpid]
    rw [if_neg (by omega)]
  have hget : (launchWorker cfg pid st k).processTable.getD k default =
      { occupied := 1, pid := pid, startSeconds := st.shmClock.seconds,
        startNanoseconds := st.shmClock.nanoseconds,
        endingSeconds := (addTime st.shmClock.seconds st.shmClock.nanoseconds
          cfg.timeLimitSec cfg.timeLimitNano).1,
        endingNanoseconds := (addTime st.shmClock.seconds st.shmClock.nanoseconds
          cfg.timeLimitSec cfg.timeLimitNano).2 } :=
    getD_set_self st.processTable k _ (by omega)
  obtain ⟨e1, e2, e3⟩ := addTime_exact st.shmClock.seconds st.shmClock.nanoseconds
    cfg.timeLimitSec cfg.timeLimitNano hclk hns hlo hhi
  obtain ⟨n1, n2, n3⟩ := addTime_exact st.shmClock.seconds st.shmClock.nanoseconds
    cfg.launchIntervalSec cfg.launchIntervalNano hclk hins hilo hihi
  refine ⟨k, launchWorker cfg pid st k, hslot, hk, hadm, ?_, ?_, ?_, ?_, ?_, ?_, ?_, n1, n2, n3⟩
  all_goals rw [hget]
  · exact e1
  · exact e2
  · exact e3

/-! ## Long runs: the clock after many ticks, iterations without launch or reap -/

/-- One tick adds exactly 700 ns as long as the seconds stay representable. -/
theorem incrementClock_exact (c : CustomClock) (hn : c.normalized)
    (hlo : -2147483648 ≤ c.seconds)
    (hfit : totalNanos c.seconds c.nanoseconds + 700 < 2147483648 * 1000000000) :
    (incrementClock c).normalized ∧ -2147483648 ≤ (incrementClock c).seconds ∧
      totalNanos (incrementClock c).seconds (incrementClock c).nanoseconds
        = totalNanos c.seconds c.nanoseconds + 700 := by
  refine ⟨incrementClock_normalized c hn, ?_⟩
  rw [incrementClock_of_normalized c hn]
  obtain ⟨h0, h1⟩ := hn
  unfold totalNanos at hfit ⊢
  by_cases hge : c.nanoseconds + 700 ≥ 1000000000
  · have hs : wrapInt32 (c.seconds + 1) = c.seconds + 1 := wrapInt32_id (by omega) (by omega)
    rw [if_pos hge, hs]
    simp only []
    exact ⟨by omega, by ring⟩
  · rw [if_neg hge]
    simp only []
    exact ⟨hlo, by ring⟩

/-- The clock after `n` ticks, as long as the seconds stay representable. -/
theorem iterate_incrementClock_exact (n : Nat) (c : CustomClock) (hn : c.normalized)
    (hlo : -2147483648 ≤ c.seconds)
    (hfit : totalNanos c.seconds c.nanoseconds + 700 * (n : Int) < 2147483648 * 1000000000) :
    (incrementClock^[n] c).normalized ∧ -2147483648 ≤ (incrementClock^[n] c).seconds ∧
      totalNanos (incrementClock^[n] c).seconds (incrementClock^[n] c).nanoseconds
        = totalNanos c.seconds c.nanoseconds + 700 * (n : Int) := by
  induction n with
  | zero => exact ⟨hn, hlo, by simp⟩
  | succ k ih =>
    have hfitk : totalNanos c.seconds c.nanoseconds + 700 * (k : Int)
        < 2147483648 * 1000000000 := by
      push_cast at hfit
      omega
    obtain ⟨i1, i2, i3⟩ := ih hfitk
    rw [Function.iterate_succ_apply']
    obtain ⟨j1, j2, j3⟩ := incrementClock_exact (incrementClock^[k] c) i1 i2 (by
      rw [i3]
      push_cast at hfit
      omega)
    refine ⟨j1, j2, ?_⟩
    rw [j3, i3]
    push_cast
    ring

/-- With a failing `fork` the admission phase returns the state it was given. -/
theorem admitPhase_fork_fail (cfg : Config) (st : OssState) (fr : Int) (h : fr < 0) :
    admitPhase cfg fr st = some st := by
  by_cases hp : admissionPredicate cfg st
  · obtain ⟨k, hslot, _, hocc, _⟩ := admission_slot cfg st hp
    unfold admitPhase
    simp only [if_pos hp, hslot, Int.toNat_ofNat]
    rw [if_neg (by omega), if_neg (by omega), forkFailed_eq st k hocc]
  · unfold admitPhase
    simp only [if_neg hp]

/-- An iteration with no exited child and a failing `fork` only ticks and reports. -/
theorem loopBody_idle (cfg : Config) (st : OssState) (fr : Int) (h : fr < 0) :
    loopBody cfg ⟨[], fr⟩ st = some (reportPhase (tickPhase st)) := by
  unfold loopBody
  show Option.map reportPhase (admitPhase cfg fr (tickPhase st)) = _
  rw [admitPhase_fork_fail cfg _ fr h]
  rfl

theorem runLoop_append (cfg : Config) (envs1 envs2 : List Env) (st : OssState) :
    runLoop cfg (envs1 ++ envs2) st = (runLoop cfg envs1 st).bind (runLoop cfg envs2) := by
  induction envs1 generalizing st with
  | nil => rfl
  | cons env rest ih =>
    by_cases hc : loopCond cfg st
    · simp only [List.cons_append, runLoop, if_pos hc]
      cases loopBody cfg env st with
      | none => rfl
      | some s1 => exact ih s1
    · simp only [List.cons_append, runLoop, if_neg hc, Option.some_bind]
      cases envs2 with
      | nil => rfl
      | cons e2 r2 => simp only [runLoop, if_neg hc]

/-- Any `n` iterations with no exited child and a failing `fork` tick the clock `n` times and
leave table, counters, next launch time and combined run time alone. -/
theorem runLoop_idle (cfg : Config) (fr : Int) (hfr : fr < 0) (n : Nat) (s : OssState)
    (hc : loopCond cfg s) :
    ∃ s', runLoop cfg (List.replicate n ⟨[], fr⟩) s = some s' ∧
      s'.shmClock = incrementClock^[n] s.shmClock ∧ SameSchedule s s' := by
  induction n generalizing s with
  | zero => exact ⟨s, rfl, rfl, rfl, rfl, rfl, rfl, rfl, rfl, rfl⟩
  | succ k ih =>
    obtain ⟨f1, f2, f3, f4, f5, f6, f7, f8⟩ := reportPhase_frame (tickPhase s)
    have hc' : loopCond cfg (reportPhase (tickPhase s)) := by
      unfold loopCond at hc ⊢
      rw [f4, f3]
      exact hc
    obtain ⟨s', hrun, hclk, g1, g2, g3, g4, g5, g6, g7⟩ := ih (reportPhase (tickPhase s)) hc'
    refine ⟨s', ?_, ?_, ?_⟩
    · rw [List.replicate_succ]
      unfold runLoop
      rw [if_pos hc, loopBody_idle cfg s fr hfr]
      exact hrun
    · rw [hclk, f1, Function.iterate_succ_apply]
      rfl
    · exact ⟨g1.trans f2, g2.trans f3, g3.trans f4, g4.trans f5, g5.trans f6, g6.trans f7,
        g7.trans f8⟩

theorem C8_launch_records_times_witness :
    ∃ (k : Nat) (st' : OssState),
      findEmptySlot (tickPhase initState).processTable 20 = (k : Int) ∧ k < 20 ∧
      admitPhase ⟨2, 1, 1, 500000000, 0, 250000000⟩ 101 (tickPhase initState) = some st' ∧
      (st'.processTable.getD k default).occupied = 1 ∧
      (st'.processTable.getD k default).pid = 101 ∧
      (st'.processTable.getD k default).startSeconds = (tickPhase initState).shmClock.seconds ∧
      (st'.processTable.getD k default).startNanoseconds
        = (tickPhase initState).shmClock.nanoseconds ∧
      0 ≤ (st'.processTable.getD k default).endingNanoseconds ∧
      (st'.processTable.getD k default).endingNanoseconds < 1000000000 ∧
      totalNanos (st'.processTable.getD k default).endingSeconds
          (st'.processTable.getD k default).endingNanoseconds
        = totalNanos (tickPhase initState).shmClock.seconds
            (tickPhase initState).shmClock.nanoseconds
          + totalNanos 1 500000000 ∧
      0 ≤ st'.nextLaunchNano ∧ st'.nextLaunchNano < 1000000000 ∧
      totalNanos st'.nextLaunchSec st'.nextLaunchNano
        = totalNanos (tickPhase initState).shmClock.seconds
            (tickPhase initState).shmClock.nanoseconds
          + totalNanos 0 250000000 :=
  C8_launch_records_times ⟨2, 1, 1, 500000000, 0, 250000000⟩ 101 (tickPhase initState)
    (by decide) (by decide) (by decide) (by decide) (by decide) (by decide) (by decide)
    (by decide) (by decide) (by decide)

/-- The clock after 182857142 ticks from (0, 0). -/
theorem clock_after_182857142_ticks :
    incrementClock^[182857142] initClock = ⟨127, 999999400⟩ := by
  obtain ⟨⟨h0, h1⟩, _, h3⟩ := iterate_incrementClock_exact 182857142 initClock (by decide)
    (by decide) (by decide)
  cases hc : incrementClock^[182857142] initClock with
  | mk a b =>
    rw [hc] at h0 h1 h3
    simp only [totalNanos, initClock] at h0 h1 h3
    have ha : a = 127 := by omega
    have hb : b = 999999400 := by omega
    rw [ha, hb]

/-- C8 as stated fails: with `-t 2147483520` (seconds part 2147483520, nanosecond part 0)
and a `fork` that fails 182857142 times and then succeeds, the worker is launched at the
normalized clock (128, 100); `128 + 2147483520` does not fit an `int`, the recorded
`endingSeconds` is -2147483648 and the recorded end time is not start + lifetime. -/
theorem C8_counterexample :
    ∃ st0 st1 : OssState,
      runLoop ⟨1, 1, 2147483520, 0, 0, 0⟩ (List.replicate 182857142 ⟨[], -1⟩) initState
        = some st0 ∧
      loopCond ⟨1, 1, 2147483520, 0, 0, 0⟩ st0 ∧
      (afterReap ⟨[], 101⟩ st0).shmClock = ⟨128, 100⟩ ∧
      admissionPredicate ⟨1, 1, 2147483520, 0, 0, 0⟩ (afterReap ⟨[], 101⟩ st0) ∧
      admitPhase ⟨1, 1, 2147483520, 0, 0, 0⟩ 101 (afterReap ⟨[], 101⟩ st0) = some st1 ∧
      findEmptySlot (afterReap ⟨[], 101⟩ st0).processTable 20 = 0 ∧
      (st1.processTable.getD 0 default).endingSeconds = -2147483648 ∧
      (st1.processTable.getD 0 default).endingNanoseconds = 100 ∧
      totalNanos (st1.processTable.getD 0 default).endingSeconds
          (st1.processTable.getD 0 default).endingNanoseconds
        ≠ totalNanos 128 100 + totalNanos 2147483520 0 := by
  obtain ⟨st0, hrun, hclk, htab, hact, htot, hns, hnn, _, _⟩ :=
    runLoop_idle ⟨1, 1, 2147483520, 0, 0, 0⟩ (-1) (by decide) 182857142 initState (by decide)
  replace hclk : st0.shmClock = ⟨127, 999999400⟩ := hclk.trans clock_after_182857142_ticks
  have hclk2 : (afterReap ⟨[], 101⟩ st0).shmClock = ⟨128, 100⟩ := by
    show incrementClock st0.shmClock = _
    rw [hclk]
    decide
  have htab2 : (afterReap ⟨[], 101⟩ st0).processTable = List.replicate 20 emptyPCB := htab
  have hslot : findEmptySlot (afterReap ⟨[], 101⟩ st0).processTable 20 = 0 := by
    rw [htab2]
    decide
  have hp : admissionPredicate ⟨1, 1, 2147483520, 0, 0, 0⟩ (afterReap ⟨[], 101⟩ st0) := by
    refine ⟨?_, ?_, ?_, ?_⟩
    · show st0.totalWorkersLaunched < 1
      rw [htot]; decide
    · show st0.activeWorkers < 1
      rw [hact]; decide
    · rw [hslot]; decide
    · left
      show (afterReap ⟨[], 101⟩ st0).shmClock.seconds > st0.nextLaunchSec
      rw [hclk2, hns]
      decide
  have hadm : admitPhase ⟨1, 1, 2147483520, 0, 0, 0⟩ 101 (afterReap ⟨[], 101⟩ st0)
      = some (launchWorker ⟨1, 1, 2147483520, 0, 0, 0⟩ 101 (afterReap ⟨[], 101⟩ st0) 0) := by
    unfold admitPhase
    simp only [if_pos hp, hslot]
    rfl
  have hget : (launchWorker ⟨1, 1, 2147483520, 0, 0, 0⟩ 101
      (afterReap ⟨[], 101⟩ st0) 0).processTable.getD 0 default =
      { occupied := 1, pid := 101, startSeconds := 128, startNanoseconds := 100,
        endingSeconds := -2147483648, endingNanoseconds := 100 } := by
    unfold launchWorker
    simp only [hclk2, htab2]
    decide
  have hc0 : loopCond ⟨1, 1, 2147483520, 0, 0, 0⟩ st0 := by
    left
    show st0.totalWorkersLaunched < 1
    rw [htot]; decide
  refine ⟨st0, _, hrun, hc0, hclk2, hp, hadm, hslot, ?_, ?_, ?_⟩
  · rw [hget]
  · rw [hget]
  · rw [hget]
    decide

/-! ## Invariants that relate the state to the bookkeeping -/

/-- The reap scan and its index: either there is no match and the state is returned as
it is, or the first match `k` is reaped. -/
theorem reapScan_index (pid : Int) (st : OssState) (remaining i : Nat) :
    (reapIndex pid st.processTable i remaining = none ∧ reapScan pid st i remaining = st ∧
        ∀ j, i ≤ j → j < i + remaining →
          ¬ ((st.processTable.getD j default).occupied = 1 ∧
              (st.processTable.getD j default).pid = pid)) ∨
    (∃ k : Nat, reapIndex pid st.processTable i remaining = some k ∧
        reapScan pid st i remaining = reapEntry st k ∧ i ≤ k ∧ k < i + remaining ∧
        (st.processTable.getD k default).occupied = 1 ∧
        (st.processTable.getD k default).pid = pid) := by
  induction remaining generalizing i with
  | zero =>
    left
    exact ⟨rfl, rfl, fun j h1 h2 => by omega⟩
  | succ r ih =>
    unfold reapIndex reapScan
    by_cases h : (st.processTable.getD i default).occupied = 1 ∧
        (st.processTable.getD i default).pid = pid
    · right
      rw [if_pos h, if_pos h]
      exact ⟨i, rfl, rfl, le_refl i, by omega, h.1, h.2⟩
    · rw [if_neg h, if_neg h]
      rcases ih (i + 1) with ⟨h1, h2, hall⟩ | ⟨k, h1, h2, hik, hk, hocc, hpid⟩
      · left
        refine ⟨h1, h2, fun j hj1 hj2 => ?_⟩
        rcases Nat.eq_or_lt_of_le hj1 with hji | hji
        · rw [← hji]; exact h
        · exact hall j hji (by omega)
      · right
        exact ⟨k, h1, h2, by omega, by omega, hocc, hpid⟩

/-- Reaping one child, state and bookkeeping together. -/
theorem reapChild_ghost_preserves (J : OssState → Ghost → Prop) (pid : Int) (st : OssState)
    (g : Ghost)
    (hnone : (∀ j, j < 20 → ¬ ((st.processTable.getD j default).occupied = 1 ∧
          (st.processTable.getD j default).pid = pid)) →
        J st { g with live := g.live.filter (fun p => decide (p ≠ pid)) })
    (hsome : ∀ k, k < 20 → (st.processTable.getD k default).occupied = 1 →
        (st.processTable.getD k default).pid = pid →
        J (reapEntry st k)
          { g with live := g.live.filter (fun p => decide (p ≠ pid))
                   exactRunNanos := g.exactRunNanos + exactRunTime st k }) :
    J (reapChild pid st) (ghostReapChild pid st g) := by
  unfold reapChild ghostReapChild
  rcases reapScan_index pid st 20 0 with ⟨h1, h2, hall⟩ | ⟨k, h1, h2, _, hk, hocc, hpid⟩
  · rw [h1, h2]
    exact hnone (fun j hj => hall j (Nat.zero_le j) (by omega))
  · rw [h1, h2]
    exact hsome k (by omega) hocc hpid

theorem reapPhase_ghost_preserves (J : OssState → Ghost → Prop)
    (hreap : ∀ pid st g, J st g → J (reapChild pid st) (ghostReapChild pid st g)) :
    ∀ (pids : List Int) (st : OssState) (g : Ghost),
      J st g → J (reapPhase pids st) (ghostReapPhase pids st g) := by
  intro pids
  induction pids with
  | nil => intro st g h; exact h
  | cons pid rest ih =>
    intro st g h
    unfold reapPhase ghostReapPhase
    by_cases hp : pid > 0
    · rw [if_pos hp, if_pos hp]
      exact ih _ _ (hreap pid st g h)
    · rw [if_neg hp, if_neg hp]
      exact h

/-- A relation between state and bookkeeping that each phase of an iteration preserves
holds along every run. -/
theorem runGhost_preserves (cfg : Config) (J : OssState → Ghost → Prop)
    (htick : ∀ st g, J st g → J (tickPhase st) (ghostTick g))
    (hreap : ∀ pid st g, J st g → J (reapChild pid st) (ghostReapChild pid st g))
    (hadm : ∀ fr st st' g, J st g → admitPhase cfg fr st = some st' →
      J st' (ghostAdmit cfg fr st g))
    (hreport : ∀ st g, J st g → J (reportPhase st) g) :
    ∀ (envs : List Env) (st st' : OssState) (g : Ghost),
      J st g → runLoop cfg envs st = some st' → J st' (runGhost cfg envs st g) := by
  intro envs
  induction envs with
  | nil =>
    intro st st' g h hr
    simp only [runLoop, Option.some.injEq] at hr
    subst hr
    exact h
  | cons env rest ih =>
    intro st st' g h hr
    unfold runLoop at hr
    unfold runGhost
    by_cases hc : loopCond cfg st
    · rw [if_pos hc] at hr ⊢
      cases hb : loopBody cfg env st with
      | none => rw [hb] at hr; cases hr
      | some s1 =>
        rw [hb] at hr
        simp only []
        refine ih s1 st' _ ?_ hr
        unfold loopBody at hb
        rw [Option.map_eq_some'] at hb
        obtain ⟨s2, hs2, rfl⟩ := hb
        exact hreport _ _ (hadm _ _ _ _
          (reapPhase_ghost_preserves J hreap _ _ _ (htick _ _ h)) hs2)
    · rw [if_neg hc] at hr ⊢
      simp only [Option.some.injEq] at hr
      subst hr
      exact h

/-! ## Claim C6: distinct pids -/

theorem occupied_eq_one (st : OssState) (h : TableInv st) (i : Nat) (hi : i < 20)
    (hocc : (st.processTable.getD i default).occupied ≠ 0) :
    (st.processTable.getD i default).occupied = 1 := by
  rcases h.2.1 _ (getD_mem_of_lt (by rw [h.1]; exact hi)) with h0 | h1
  · exact absurd h0 hocc
  · exact h1

theorem liveInv_reapChild (pid : Int) (st : OssState) (g : Ghost) (h : LiveInv st g) :
    LiveInv (reapChild pid st) (ghostReapChild pid st g) := by
  obtain ⟨hinv, hfresh⟩ := h
  refine reapChild_ghost_preserves LiveInv pid st g (fun hnone => ?_) (fun k hk hocc hpid => ?_)
  · refine ⟨hinv, fun hf => ?_⟩
    obtain ⟨hd, hl⟩ := hfresh hf
    refine ⟨hd, fun i hi hocci => ?_⟩
    show _ ∈ g.live.filter _
    rw [List.mem_filter]
    refine ⟨hl i hi hocci, ?_⟩
    have hne : (st.processTable.getD i default).pid ≠ pid :=
      fun heq => hnone i hi ⟨occupied_eq_one st hinv i hi hocci, heq⟩
    simpa using hne
  · refine ⟨(tableInv_reapEntry st k hinv hk hocc).1, fun hf => ?_⟩
    obtain ⟨hd, hl⟩ := hfresh hf
    have hlen : st.processTable.length = 20 := hinv.1
    have hother : ∀ i : Nat, i < 20 →
        ((st.processTable.set k emptyPCB).getD i default).occupied ≠ 0 →
        i ≠ k ∧ (st.processTable.set k emptyPCB).getD i default
          = st.processTable.getD i default := by
      intro i hi hocci
      have hik : i ≠ k := by
        intro heq
        rw [heq, getD_set_self _ _ _ (by omega)] at hocci
        exact hocci rfl
      exact ⟨hik, getD_set_other _ _ _ _ (Ne.symm hik)⟩
    constructor
    · intro i j hi hj hocci hoccj hpij
      have hi' : i < 20 := by
        have : (reapEntry st k).processTable.length = 20 := by
          show (st.processTable.set k emptyPCB).length = 20
          rw [List.length_set]; exact hlen
        omega
      have hj' : j < 20 := by
        have : (reapEntry st k).processTable.length = 20 := by
          show (st.processTable.set k emptyPCB).length = 20
          rw [List.length_set]; exact hlen
        omega
      obtain ⟨_, ei⟩ := hother i hi' hocci
      obtain ⟨_, ej⟩ := hother j hj' hoccj
      have hocci' : ((st.processTable.set k emptyPCB).getD i default).occupied ≠ 0 := hocci
      have hoccj' : ((st.processTable.set k emptyPCB).getD j default).occupied ≠ 0 := hoccj
      have hpij' : ((st.processTable.set k emptyPCB).getD i default).pid
          = ((st.processTable.set k emptyPCB).getD j default).pid := hpij
      rw [ei] at hocci' hpij'
      rw [ej] at hoccj' hpij'
      exact hd i j (by omega) (by omega) hocci' hoccj' hpij'
    · intro i hi hocci
      obtain ⟨hik, ei⟩ := hother i hi hocci
      have hocci' : ((st.processTable.set k emptyPCB).getD i default).occupied ≠ 0 := hocci
      show ((st.processTable.set k emptyPCB).getD i default).pid ∈ g.live.filter _
      rw [ei] at hocci' ⊢
      rw [List.mem_filter]
      refine ⟨hl i hi hocci', ?_⟩
      have hne : (st.processTable.getD i default).pid ≠ pid := by
        intro heq
        exact hik (hd i k (by omega) (by omega) hocci' (by rw [hocc]; decide)
          (heq.trans hpid.symm))
      simpa using hne

theorem liveInv_admitPhase (cfg : Config) (fr : Int) (st st' : OssState) (g : Ghost)
    (h : LiveInv st g) (ha : admitPhase cfg fr st = some st') :
    LiveInv st' (ghostAdmit cfg fr st g) := by
  obtain ⟨hinv, hfresh⟩ := h
  rcases admitPhase_spec cfg fr st st' ha with
    ⟨hp, rfl⟩ | ⟨_, hfr, rfl⟩ | ⟨hp, hfr, k, _, hk, hocc, rfl⟩
  · have : ghostAdmit cfg fr st' g = g := by
      unfold ghostAdmit
      rw [if_neg (fun hc => hp hc.1)]
    rw [this]
    exact ⟨hinv, hfresh⟩
  · have : ghostAdmit cfg fr st' g = g := by
      unfold ghostAdmit
      rw [if_neg (fun hc => by omega)]
    rw [this]
    exact ⟨hinv, hfresh⟩
  · have hg : ghostAdmit cfg fr st g =
        { g with live := fr :: g.live, forksFresh := g.forksFresh && decide (fr ∉ g.live) } := by
      unfold ghostAdmit
      rw [if_pos ⟨hp, hfr⟩]
    rw [hg]
    refine ⟨(tableInv_launchWorker cfg fr st k hinv hk hocc).1, fun hf => ?_⟩
    have hf' : g.forksFresh = true ∧ fr ∉ g.live := by
      simpa using hf
    obtain ⟨hd, hl⟩ := hfresh hf'.1
    have hlen : st.processTable.length = 20 := hinv.1
    have hlen' : (launchWorker cfg fr st k).processTable.length = 20 :=
      (tableInv_launchWorker cfg fr st k hinv hk hocc).1.1
    have hat : ((launchWorker cfg fr st k).processTable.getD k default).pid = fr := by
      show ((st.processTable.set k _).getD k default).pid = fr
      rw [getD_set_self _ _ _ (by omega)]
    have hother : ∀ i : Nat, i ≠ k →
        (launchWorker cfg fr st k).processTable.getD i default
          = st.processTable.getD i default :=
      fun i hik => getD_set_other _ _ _ _ (Ne.symm hik)
    have hold : ∀ i : Nat, i < 20 → i ≠ k →
        ((launchWorker cfg fr st k).processTable.getD i default).occupied ≠ 0 →
        ((launchWorker cfg fr st k).processTable.getD i default).pid ≠ fr := by
      intro i hi hik hocci heq
      rw [hother i hik] at hocci heq
      exact hf'.2 (heq ▸ hl i hi hocci)
    constructor
    · intro i j hi hj hocci hoccj hpij
      by_cases hik : i = k
      · by_cases hjk : j = k
        · rw [hik, hjk]
        · exfalso
          rw [hik, hat] at hpij
          exact hold j (by omega) hjk hoccj hpij.symm
      · by_cases hjk : j = k
        · exfalso
          rw [hjk, hat] at hpij
          exact hold i (by omega) hik hocci hpij
        · rw [hother i hik] at hocci hpij
          rw [hother j hjk] at hoccj hpij
          exact hd i j (by omega) (by omega) hocci hoccj hpij
    · intro i hi hocci
      show _ ∈ fr :: g.live
      by_cases hik : i = k
      · rw [hik, hat]
        exact List.mem_cons_self _ _
      · rw [hother i hik] at hocci ⊢
        exact List.mem_cons_of_mem _ (hl i hi hocci)

theorem initState_getD (i : Nat) : initState.processTable.getD i default = emptyPCB := by
  show (List.replicate 20 emptyPCB).getD i emptyPCB = emptyPCB
  by_cases hi : i < 20
  · exact List.eq_of_mem_replicate (getD_mem_of_lt (by simpa using hi))
  · exact List.getD_eq_default _ _ (by simpa using hi)

theorem liveInv_init : LiveInv initState ghostInit := by
  refine ⟨tableInv_init, fun _ => ⟨?_, ?_⟩⟩
  · intro i j _ _ hocci
    exact absurd (by rw [initState_getD i]; rfl) hocci
  · intro i _ hocci
    exact absurd (by rw [initState_getD i]; rfl) hocci

theorem liveInv_run (cfg : Config) (envs : List Env) (st : OssState)
    (hrun : runLoop cfg envs initState = some st) :
    LiveInv st (runGhost cfg envs initState ghostInit) :=
  runGhost_preserves cfg LiveInv (fun _ _ h => h) liveInv_reapChild
    (fun fr s s' g h ha => liveInv_admitPhase cfg fr s s' g h ha)
    (fun s g h => ⟨tableInv_report s h.1, by
      have hf := (reportPhase_frame s).2.1
      rw [hf]
      exact h.2⟩)
    envs initState st ghostInit liveInv_init hrun

theorem ghostReapPhase_forksFresh (pids : List Int) (st : OssState) (g : Ghost) :
    (ghostReapPhase pids st g).forksFresh = g.forksFresh := by
  induction pids generalizing st g with
  | nil => rfl
  | cons pid rest ih =>
    unfold ghostReapPhase
    split
    · rw [ih]
      rfl
    · rfl

/-- C6: along every run in which each successful `fork` returned a (positive) pid that
was not the pid of a child launched and not yet reaped, no two occupied process-table
entries hold the same pid, at the loop head and after any reaping of the next
iteration. -/
theorem C6_occupied_pids_distinct (cfg : Config) (envs : List Env) (st : OssState)
    (hrun : runLoop cfg envs initState = some st)
    (hfresh : (runGhost cfg envs initState ghostInit).forksFresh = true) :
    DistinctPids st.processTable ∧
      ∀ env : Env, DistinctPids (afterReap env st).processTable := by
  have h := liveInv_run cfg envs st hrun
  refine ⟨(h.2 hfresh).1, fun env => ?_⟩
  have h2 := reapPhase_ghost_preserves LiveInv liveInv_reapChild env.waitpids (tickPhase st)
    (ghostTick (runGhost cfg envs initState ghostInit)) h
  exact (h2.2 (by rw [ghostReapPhase_forksFresh]; exact hfresh)).1

theorem C6_occupied_pids_distinct_witness :
    DistinctPids (⟨1, 101, 0, 700, 1, 700⟩ :: ⟨1, 102, 0, 1400, 1, 1400⟩ ::
        List.replicate 18 emptyPCB) ∧
      ∀ env : Env, DistinctPids (afterReap env
        { shmClock := ⟨0, 2100⟩,
          processTable := ⟨1, 101, 0, 700, 1, 700⟩ :: ⟨1, 102, 0, 1400, 1, 1400⟩ ::
            List.replicate 18 emptyPCB,
          activeWorkers := 2, totalWorkersLaunched := 2, nextLaunchSec := 0,
          nextLaunchNano := 1400, lastReportSec := 0, lastReportNano := 0,
          combinedTimeSec := 0, combinedTimeNano := 0 }).processTable :=
  C6_occupied_pids_distinct ⟨5, 2, 1, 0, 0, 0⟩ [⟨[], 101⟩, ⟨[], 102⟩, ⟨[], 103⟩]
    { shmClock := ⟨0, 2100⟩,
      processTable := ⟨1, 101, 0, 700, 1, 700⟩ :: ⟨1, 102, 0, 1400, 1, 1400⟩ ::
        List.replicate 18 emptyPCB,
      activeWorkers := 2, totalWorkersLaunched := 2, nextLaunchSec := 0,
      nextLaunchNano := 1400, lastReportSec := 0, lastReportNano := 0,
      combinedTimeSec := 0, combinedTimeNano := 0 }
    (by decide) (by decide)

/-! ## The combined run time without overflow -/

theorem timesInv_init : TimesInv initState ghostInit := by
  refine ⟨by decide, fun e he => ?_, by decide, by decide, fun _ => ⟨by decide, by decide,
    fun e he => ?_, by decide, fun _ => ⟨by decide, by decide⟩⟩⟩
  · rw [List.eq_of_mem_replicate he]
    decide
  · rw [List.eq_of_mem_replicate he]
    decide

theorem timesInv_tick (st : OssState) (g : Ghost) (h : TimesInv st g) :
    TimesInv (tickPhase st) (ghostTick g) := by
  obtain ⟨hclk, hstart, hcn, hlen, hcond⟩ := h
  refine ⟨incrementClock_normalized _ hclk, hstart, hcn, hlen, fun ht => ?_⟩
  have ht' : 700 * ((g.ticks : Int) + 1) < secondsLimit := by
    have : ((ghostTick g).ticks : Int) = (g.ticks : Int) + 1 := by
      show ((g.ticks + 1 : Nat) : Int) = _
      push_cast
      rfl
    rw [this] at ht
    exact ht
  have hsl : secondsLimit = 2147483648 * 1000000000 := rfl
  obtain ⟨htot, hlo, hent, hex, hcomb⟩ := hcond (by omega)
  obtain ⟨_, j2, j3⟩ := incrementClock_exact st.shmClock hclk hlo (by rw [htot]; omega)
  refine ⟨?_, j2, fun e he => ?_, hex, hcomb⟩
  · show totalNanos (incrementClock st.shmClock).seconds (incrementClock st.shmClock).nanoseconds
      = 700 * (((g.ticks + 1 : Nat)) : Int)
    rw [j3, htot]
    push_cast
    ring
  · obtain ⟨e1, e2⟩ := hent e he
    refine ⟨e1, ?_⟩
    show _ ≤ totalNanos (incrementClock st.shmClock).seconds
      (incrementClock st.shmClock).nanoseconds
    rw [j3]
    omega

/-- Reaping the entry at index `k` under `TimesInv`, with the run time written `rs`, `rn`. -/
theorem timesInv_reapEntry (st : OssState) (g : Ghost) (live : List Int) (k : Nat)
    (h : TimesInv st g) (hk : k < 20) :
    TimesInv (reapEntry st k)
      { g with live := live, exactRunNanos := g.exactRunNanos + exactRunTime st k } := by
  obtain ⟨hclk, hstart, hcn, hlen, hcond⟩ := h
  have hmem : st.processTable.getD k default ∈ st.processTable :=
    getD_mem_of_lt (by rw [hlen]; exact hk)
  have hkn := hstart _ hmem
  have hrn := subTime_nano_range st.shmClock.seconds st.shmClock.nanoseconds
    (st.processTable.getD k default).startSeconds
    (st.processTable.getD k default).startNanoseconds hclk hkn
  have hsl : secondsLimit = 2147483648 * 1000000000 := rfl
  refine ⟨hclk, fun e he => ?_, ?_, ?_, fun ht => ?_⟩
  · rcases List.mem_or_eq_of_mem_set he with hm | rfl
    · exact hstart e hm
    · decide
  · exact accumulate_nano_range _ _ _ _ hcn hrn
  · show (st.processTable.set k emptyPCB).length = 20
    rw [List.length_set]; exact hlen
  · have ht' : 700 * (g.ticks : Int) < secondsLimit := ht
    obtain ⟨htot, hlo, hent, hex, hcomb⟩ := hcond ht'
    obtain ⟨hk0, hk1⟩ := hent _ hmem
    have hd : 0 ≤ exactRunTime st k := by
      unfold exactRunTime
      omega
    refine ⟨htot, hlo, fun e he => ?_, ?_, fun hlt => ?_⟩
    · rcases List.mem_or_eq_of_mem_set he with hm | rfl
      · exact hent e hm
      · refine ⟨by decide, ?_⟩
        show totalNanos 0 0 ≤ totalNanos st.shmClock.seconds st.shmClock.nanoseconds
        have : totalNanos 0 0 = 0 := by decide
        omega
    · show 0 ≤ g.exactRunNanos + exactRunTime st k
      omega
    · have hlt' : g.exactRunNanos + exactRunTime st k < secondsLimit := hlt
      obtain ⟨hcs, hct⟩ := hcomb (by omega)
      have hsecs : st.shmClock.seconds - (st.processTable.getD k default).startSeconds
          ≤ 2147483647 := by
        unfold totalNanos at htot hk0 hk1
        unfold CustomClock.normalized at hclk
        omega
      obtain ⟨_, _, r3⟩ := subTime_exact st.shmClock.seconds st.shmClock.nanoseconds
        (st.processTable.getD k default).startSeconds
        (st.processTable.getD k default).startNanoseconds hclk hkn
        (by unfold exactRunTime at hd; omega) hsecs
      have hr3 : totalNanos
          (subTime st.shmClock.seconds st.shmClock.nanoseconds
            (st.processTable.getD k default).startSeconds
            (st.processTable.getD k default).startNanoseconds).1
          (subTime st.shmClock.seconds st.shmClock.nanoseconds
            (st.processTable.getD k default).startSeconds
            (st.processTable.getD k default).startNanoseconds).2 = exactRunTime st k := r3
      have hrs : 0 ≤ (subTime st.shmClock.seconds st.shmClock.nanoseconds
            (st.processTable.getD k default).startSeconds
            (st.processTable.getD k default).startNanoseconds).1 := by
        unfold totalNanos at hr3
        omega
      have hacc := accumulate_exact st.combinedTimeSec st.combinedTimeNano
        (subTime st.shmClock.seconds st.shmClock.nanoseconds
            (st.processTable.getD k default).startSeconds
            (st.processTable.getD k default).startNanoseconds).1
        (subTime st.shmClock.seconds st.shmClock.nanoseconds
            (st.processTable.getD k default).startSeconds
            (st.processTable.getD k default).startNanoseconds).2 hcn hrn
        (by omega) (by rw [hct, hr3]; omega)
      have han := accumulate_nano_range st.combinedTimeSec st.combinedTimeNano
        (subTime st.shmClock.seconds st.shmClock.nanoseconds
            (st.processTable.getD k default).startSeconds
            (st.processTable.getD k default).startNanoseconds).1
        (subTime st.shmClock.seconds st.shmClock.nanoseconds
            (st.processTable.getD k default).startSeconds
            (st.processTable.getD k default).startNanoseconds).2 hcn hrn
      rw [hct, hr3] at hacc
      have hacc' : totalNanos (reapEntry st k).combinedTimeSec (reapEntry st k).combinedTimeNano
          = g.exactRunNanos + exactRunTime st k := hacc
      have han' : 0 ≤ (reapEntry st k).combinedTimeNano ∧
          (reapEntry st k).combinedTimeNano < 1000000000 := han
      refine ⟨?_, hacc'⟩
      unfold totalNanos at hacc'
      omega

theorem timesInv_reapChild (pid : Int) (st : OssState) (g : Ghost) (h : TimesInv st g) :
    TimesInv (reapChild pid st) (ghostReapChild pid st g) :=
  reapChild_ghost_preserves TimesInv pid st g (fun _ => h)
    (fun k hk _ _ => timesInv_reapEntry st g _ k h hk)

theorem timesInv_admitPhase (cfg : Config) (fr : Int) (st st' : OssState) (g : Ghost)
    (h : TimesInv st g) (ha : admitPhase cfg fr st = some st') :
    TimesInv st' (ghostAdmit cfg fr st g) := by
  have hgh : (ghostAdmit cfg fr st g).ticks = g.ticks ∧
      (ghostAdmit cfg fr st g).exactRunNanos = g.exactRunNanos := by
    unfold ghostAdmit
    split <;> exact ⟨rfl, rfl⟩
  obtain ⟨hclk, hstart, hcn, hlen, hcond⟩ := h
  unfold TimesInv
  rw [hgh.1, hgh.2]
  rcases admitPhase_spec cfg fr st st' ha with
    ⟨_, rfl⟩ | ⟨_, _, rfl⟩ | ⟨_, _, k, _, hk, _, rfl⟩
  · exact ⟨hclk, hstart, hcn, hlen, hcond⟩
  · exact ⟨hclk, hstart, hcn, hlen, hcond⟩
  · refine ⟨hclk, fun e he => ?_, hcn, ?_, fun ht => ?_⟩
    · rcases List.mem_or_eq_of_mem_set he with hm | rfl
      · exact hstart e hm
      · exact hclk
    · show (st.processTable.set k _).length = 20
      rw [List.length_set]; exact hlen
    · obtain ⟨htot, hlo, hent, hex, hcomb⟩ := hcond ht
      refine ⟨htot, hlo, fun e he => ?_, hex, hcomb⟩
      rcases List.mem_or_eq_of_mem_set he with hm | rfl
      · exact hent e hm
      · refine ⟨?_, le_refl _⟩
        show 0 ≤ totalNanos st.shmClock.seconds st.shmClock.nanoseconds
        rw [htot]
        omega

theorem timesInv_report (st : OssState) (g : Ghost) (h : TimesInv st g) :
    TimesInv (reportPhase st) g := by
  obtain ⟨f1, f2, _, _, _, _, f7, f8⟩ := reportPhase_frame st
  unfold TimesInv
  rw [f1, f2, f7, f8]
  exact h

theorem timesInv_run (cfg : Config) (envs : List Env) (st : OssState)
    (hrun : runLoop cfg envs initState = some st) :
    TimesInv st (runGhost cfg envs initState ghostInit) :=
  runGhost_preserves cfg TimesInv timesInv_tick timesInv_reapChild
    (fun fr s s' g h ha => timesInv_admitPhase cfg fr s s' g h ha) timesInv_report
    envs initState st ghostInit timesInv_init hrun

theorem ghostReapPhase_ticks (pids : List Int) (st : OssState) (g : Ghost) :
    (ghostReapPhase pids st g).ticks = g.ticks := by
  induction pids generalizing st g with
  | nil => rfl
  | cons pid rest ih =>
    unfold ghostReapPhase
    split
    · rw [ih]
      rfl
    · rfl

theorem ghostBody_ticks (cfg : Config) (env : Env) (st : OssState) (g : Ghost) :
    (ghostBody cfg env st g).ticks = g.ticks + 1 := by
  unfold ghostBody ghostAdmit
  split
  · show (ghostReapPhase env.waitpids (tickPhase st) (ghostTick g)).ticks = _
    rw [ghostReapPhase_ticks]
    rfl
  · rw [ghostReapPhase_ticks]
    rfl

/-- There are at most as many ticks as environment answers. -/
theorem runGhost_ticks_le (cfg : Config) (envs : List Env) (st : OssState) (g : Ghost) :
    (runGhost cfg envs st g).ticks ≤ g.ticks + envs.length := by
  induction envs generalizing st g with
  | nil => exact le_refl _
  | cons env rest ih =>
    unfold runGhost
    split
    · split
      · simp only [List.length_cons]; omega
      · rename_i s1 _
        have := ih s1 (ghostBody cfg env st g)
        rw [ghostBody_ticks] at this
        simp only [List.length_cons]
        omega
    · simp only [List.length_cons]; omega

/-- After every loop iteration of every run, `combinedTimeNano` lies in `[0, 1e9)`; and
as long as no `int` has overflowed (fewer than `2^31 * 1e9 / 700` iterations, so that the
clock seconds fit, and an exact sum below `2^31` seconds),
`combinedTimeSec * 1e9 + combinedTimeNano` is the exact sum, over the workers reaped so
far, of the clock at the tick of the reap minus the start time recorded in the table
entry, in nanoseconds. -/
theorem combined_run_time_exact_of_no_overflow (cfg : Config) (envs : List Env)
    (st : OssState) (hrun : runLoop cfg envs initState = some st) :
    0 ≤ st.combinedTimeNano ∧ st.combinedTimeNano < 1000000000 ∧
      (700 * (envs.length : Int) < 2147483648 * 1000000000 →
        (runGhost cfg envs initState ghostInit).exactRunNanos < 2147483648 * 1000000000 →
        totalNanos st.combinedTimeSec st.combinedTimeNano
          = (runGhost cfg envs initState ghostInit).exactRunNanos) := by
  obtain ⟨_, _, hcn, _, hcond⟩ := timesInv_run cfg envs st hrun
  refine ⟨hcn.1, hcn.2, fun hlen hsum => ?_⟩
  have hticks := runGhost_ticks_le cfg envs initState ghostInit
  have h0 : ghostInit.ticks = 0 := rfl
  have hsl : secondsLimit = 2147483648 * 1000000000 := rfl
  obtain ⟨_, _, _, _, hcomb⟩ := hcond (by omega)
  exact (hcomb (by omega)).2

/-! ## A run of the embedding longer than the watchdog allows -/

theorem ghostBody_idle (cfg : Config) (st : OssState) (g : Ghost) (fr : Int) (h : fr < 0) :
    ghostBody cfg ⟨[], fr⟩ st g = ghostTick g := by
  unfold ghostBody ghostAdmit
  rw [if_neg (fun hc => by
    have : fr > 0 := hc.2
    omega)]
  rfl

theorem runGhost_idle (cfg : Config) (fr : Int) (hfr : fr < 0) (n : Nat) (s : OssState)
    (g : Ghost) (hc : loopCond cfg s) :
    runGhost cfg (List.replicate n ⟨[], fr⟩) s g = { g with ticks := g.ticks + n } := by
  induction n generalizing s g with
  | zero => rfl
  | succ k ih =>
    obtain ⟨_, _, f3, f4, _⟩ := reportPhase_frame (tickPhase s)
    have hc' : loopCond cfg (reportPhase (tickPhase s)) := by
      unfold loopCond at hc ⊢
      rw [f4, f3]
      exact hc
    rw [List.replicate_succ]
    unfold runGhost
    rw [if_pos hc, loopBody_idle cfg s fr hfr]
    simp only []
    rw [ghostBody_idle cfg s g fr hfr, ih _ _ hc']
    show ({ ticks := g.ticks + 1 + k, live := g.live, forksFresh := g.forksFresh,
            exactRunNanos := g.exactRunNanos } : Ghost) = _
    rw [Nat.add_assoc, Nat.add_comm 1 k]

theorem runGhost_append (cfg : Config) (envs1 envs2 : List Env) (st : OssState) (g : Ghost) :
    runGhost cfg (envs1 ++ envs2) st g =
      match runLoop cfg envs1 st with
      | none => runGhost cfg envs1 st g
      | some s1 => runGhost cfg envs2 s1 (runGhost cfg envs1 st g) := by
  induction envs1 generalizing st g with
  | nil => rfl
  | cons env rest ih =>
    by_cases hc : loopCond cfg st
    · simp only [List.cons_append, runLoop, runGhost, if_pos hc]
      cases loopBody cfg env st with
      | none => rfl
      | some s1 => exact ih s1 _
    · simp only [List.cons_append, runLoop, runGhost, if_neg hc]
      cases envs2 with
      | nil => rfl
      | cons e2 r2 => simp only [runGhost, if_neg hc]

theorem overflow_clock :
    incrementClock^[1533916891428570] overflowStart.shmClock = ⟨1073741824, 400⟩ := by
  obtain ⟨⟨h0, h1⟩, _, h3⟩ := iterate_incrementClock_exact 1533916891428570
    overflowStart.shmClock (by decide) (by decide) (by decide)
  cases hc : incrementClock^[1533916891428570] overflowStart.shmClock with
  | mk a b =>
    rw [hc] at h0 h1 h3
    simp only [totalNanos, overflowStart] at h0 h1 h3
    have ha : a = 1073741824 := by omega
    have hb : b = 400 := by omega
    rw [ha, hb]

/-- The last iteration of the overflow example, whatever the time of the last report. -/
theorem overflow_last_iteration (a b : Int) (g : Ghost) :
    ∃ st, loopBody overflowCfg ⟨[101, 102], -1⟩ (overflowMid a b) = some st ∧
      st.combinedTimeSec = -2147483648 ∧ st.combinedTimeNano = 100 ∧
      (ghostBody overflowCfg ⟨[101, 102], -1⟩ (overflowMid a b) g).exactRunNanos
        = g.exactRunNanos + 2147483648000000100 := by
  obtain ⟨_, _, _, _, _, _, f7, f8⟩ :=
    reportPhase_frame (afterReap ⟨[101, 102], -1⟩ (overflowMid a b))
  refine ⟨reportPhase (afterReap ⟨[101, 102], -1⟩ (overflowMid a b)), ?_, ?_, ?_, ?_⟩
  · unfold loopBody
    rw [admitPhase_fork_fail overflowCfg _ (-1) (by decide)]
    rfl
  · rw [f7]
    rfl
  · rw [f8]
    rfl
  · unfold ghostBody ghostAdmit
    rw [if_neg (fun hc => absurd hc.2 (by decide))]
    show g.exactRunNanos + 1073741824000000400 + 1073741823999999700 = _
    omega

theorem overflow_first_iterations :
    runLoop overflowCfg [⟨[], 101⟩, ⟨[], 102⟩] initState = some overflowStart ∧
      runGhost overflowCfg [⟨[], 101⟩, ⟨[], 102⟩] initState ghostInit
        = ⟨2, [102, 101], true, 0⟩ := by
  decide

theorem overflow_idle_iterations :
    ∃ a b : Int,
      runLoop overflowCfg (List.replicate 1533916891428570 ⟨[], -1⟩) overflowStart
        = some (overflowMid a b) := by
  obtain ⟨s2, hrun2, hclk2, hsame⟩ := runLoop_idle overflowCfg (-1) (by decide)
    1533916891428570 overflowStart (by decide)
  rw [overflow_clock] at hclk2
  obtain ⟨clock, table, act, tot, nls, nln, a, b, cs, cn⟩ := s2
  obtain ⟨e1, e2, e3, e4, e5, e6, e7⟩ := hsame
  simp only [] at hclk2 e1 e2 e3 e4 e5 e6 e7
  subst hclk2 e1 e2 e3 e4 e5 e6 e7
  exact ⟨a, b, hrun2⟩


theorem overflow_run :
    ∃ (a b : Int) (st : OssState),
      runLoop overflowCfg overflowEnvs initState = some st ∧
      loopBody overflowCfg ⟨[101, 102], -1⟩ (overflowMid a b) = some st ∧
      runGhost overflowCfg overflowEnvs initState ghostInit
        = ghostBody overflowCfg ⟨[101, 102], -1⟩ (overflowMid a b)
            ⟨2 + 1533916891428570, [102, 101], true, 0⟩ := by
  obtain ⟨h1, g1⟩ := overflow_first_iterations
  obtain ⟨a, b, hrun2⟩ := overflow_idle_iterations
  have hg2 := runGhost_idle overflowCfg (-1) (by decide) 1533916891428570 overflowStart
    ⟨2, [102, 101], true, 0⟩ (by decide)
  obtain ⟨st, hbody, _⟩ := overflow_last_iteration a b ghostInit
  have hcond : loopCond overflowCfg (overflowMid a b) := Or.inr (by
    show (2 : Int) > 0
    decide)
  refine ⟨a, b, st, ?_, hbody, ?_⟩
  · unfold overflowEnvs
    rw [runLoop_append, h1, Option.some_bind, runLoop_append, hrun2, Option.some_bind]
    unfold runLoop
    rw [if_pos hcond, hbody]
    rfl
  · unfold overflowEnvs
    rw [runGhost_append, h1, g1]
    simp only []
    rw [runGhost_append, hrun2, hg2]
    simp only []
    unfold runGhost
    rw [if_pos hcond, hbody]
    rfl



/-- The bound on the length of a run matters in the embedding, which by itself puts no
limit on the number of iterations: launch two workers at (0, 700) and (0, 1400), let
1533916891428570 iterations pass in which no child has exited (ten times more than
`maxIterationsUnderWatchdog`), and reap both at clock (1073741824, 1100). The exact sum
of the two run times is 2147483648000000100 ns, more than an `int` of seconds can hold,
and the embedded loop ends with `combinedTimeSec = -2147483648`,
`combinedTimeNano = 100`. -/
theorem combined_run_time_wraps_past_watchdog :
    ∃ st, runLoop overflowCfg overflowEnvs initState = some st ∧
      (runGhost overflowCfg overflowEnvs initState ghostInit).exactRunNanos
        = 2147483648000000100 ∧
      st.combinedTimeSec = -2147483648 ∧ st.combinedTimeNano = 100 ∧
      totalNanos st.combinedTimeSec st.combinedTimeNano
        ≠ (runGhost overflowCfg overflowEnvs initState ghostInit).exactRunNanos := by
  obtain ⟨a, b, st, hrun, hbody, hgh⟩ := overflow_run
  obtain ⟨st', hbody', hcs, hcn, hex⟩ := overflow_last_iteration a b
    ⟨2 + 1533916891428570, [102, 101], true, 0⟩
  have hst : st' = st := Option.some.inj (hbody'.symm.trans hbody)
  subst hst
  have hexact : (runGhost overflowCfg overflowEnvs initState ghostInit).exactRunNanos
      = 2147483648000000100 := by
    rw [hgh, hex]
    rfl
  refine ⟨st', hrun, hexact, hcs, hcn, ?_⟩
  rw [hexact, hcs, hcn]
  decide

/-! ## Claim C20: `activeWorkers` counts the occupied entries -/

/-- C20: in every state the main loop passes through (from the all-empty table and
`activeWorkers = 0`, under any environment behaviour), `activeWorkers` is the number of
occupied process-table entries, and so lies between 0 and 20. -/
theorem C20_active_counts_occupied (cfg : Config) (st : OssState) (hv : Visited cfg st) :
    st.activeWorkers = (occupiedCount st.processTable : Int) ∧
      0 ≤ st.activeWorkers ∧ st.activeWorkers ≤ 20 := by
  obtain ⟨hlen, _, hact⟩ := visited_tableInv cfg st hv
  have hle := occupiedCount_le_length st.processTable
  refine ⟨hact, ?_, ?_⟩ <;> omega

theorem C20_active_counts_occupied_witness :
    (2 : Int) = (occupiedCount (⟨1, 101, 0, 700, 1, 700⟩ :: ⟨1, 102, 0, 1400, 1, 1400⟩ ::
        List.replicate 18 emptyPCB) : Int) ∧ (0 : Int) ≤ 2 ∧ (2 : Int) ≤ 20 :=
  C20_active_counts_occupied ⟨5, 2, 1, 0, 0, 0⟩
    { shmClock := ⟨0, 2100⟩,
      processTable := ⟨1, 101, 0, 700, 1, 700⟩ :: ⟨1, 102, 0, 1400, 1, 1400⟩ ::
        List.replicate 18 emptyPCB,
      activeWorkers := 2, totalWorkersLaunched := 2, nextLaunchSec := 0,
      nextLaunchNano := 1400, lastReportSec := 0, lastReportNano := 0,
      combinedTimeSec := 0, combinedTimeNano := 0 }
    (Or.inl ⟨[⟨[], 101⟩, ⟨[], 102⟩, ⟨[], 103⟩], by decide⟩)

/-! ## Claim C17: the reporter only observes -/

theorem reapScan_withLastReport (pid : Int) (st : OssState) (a b : Int) (remaining i : Nat) :
    reapScan pid (withLastReport st a b) i remaining
      = withLastReport (reapScan pid st i remaining) a b := by
  induction remaining generalizing i with
  | zero => rfl
  | succ r ih =>
    unfold reapScan
    by_cases h : (st.processTable.getD i default).occupied = 1 ∧
        (st.processTable.getD i default).pid = pid
    · have h' : ((withLastReport st a b).processTable.getD i default).occupied = 1 ∧
          ((withLastReport st a b).processTable.getD i default).pid = pid := h
      rw [if_pos h, if_pos h']
      rfl
    · have h' : ¬ (((withLastReport st a b).processTable.getD i default).occupied = 1 ∧
          ((withLastReport st a b).processTable.getD i default).pid = pid) := h
      rw [if_neg h, if_neg h']
      exact ih (i + 1)

theorem reapPhase_withLastReport (pids : List Int) (st : OssState) (a b : Int) :
    reapPhase pids (withLastReport st a b) = withLastReport (reapPhase pids st) a b := by
  induction pids generalizing st with
  | nil => rfl
  | cons pid rest ih =>
    unfold reapPhase
    split
    · have : reapChild pid (withLastReport st a b) = withLastReport (reapChild pid st) a b :=
        reapScan_withLastReport pid st a b 20 0
      rw [this]
      exact ih _
    · rfl

theorem admitPhase_withLastReport (cfg : Config) (fr : Int) (st : OssState) (a b : Int) :
    admitPhase cfg fr (withLastReport st a b)
      = (admitPhase cfg fr st).map (fun s => withLastReport s a b) := by
  unfold admitPhase
  by_cases hp : admissionPredicate cfg st
  · have hp' : admissionPredicate cfg (withLastReport st a b) := hp
    simp only [if_pos hp, if_pos hp']
    by_cases h0 : fr = 0
    · simp only [if_pos h0]
      rfl
    · simp only [if_neg h0]
      by_cases h1 : fr > 0
      · simp only [if_pos h1]
        rfl
      · simp only [if_neg h1]
        rfl
  · have hp' : ¬ admissionPredicate cfg (withLastReport st a b) := hp
    simp only [if_neg hp, if_neg hp']
    rfl

theorem schedulingView_reportPhase (st : OssState) :
    schedulingView (reportPhase st) = schedulingView st := by
  obtain ⟨f1, f2, f3, f4, f5, f6, f7, f8⟩ := reportPhase_frame st
  unfold schedulingView
  rw [f1, f2, f3, f4, f5, f6, f7, f8]

theorem loopBody_withLastReport (cfg : Config) (env : Env) (st : OssState) (a b : Int) :
    (loopBody cfg env (withLastReport st a b)).map schedulingView
      = (loopBody cfg env st).map schedulingView := by
  unfold loopBody afterReap
  have ht : tickPhase (withLastReport st a b) = withLastReport (tickPhase st) a b := rfl
  rw [ht, reapPhase_withLastReport, admitPhase_withLastReport]
  cases admitPhase cfg env.forkResult (reapPhase env.waitpids (tickPhase st)) with
  | none => rfl
  | some s =>
    simp only [Option.map_some']
    rw [schedulingView_reportPhase, schedulingView_reportPhase]
    rfl

/-- C17: the report phase changes nothing but the time of the last report, and two
states that differ only in the time of the last report give, after one loop iteration
under the same environment answers, the same clock, process table,
`totalWorkersLaunched`, `activeWorkers`, next launch time and combined run time (or are
both the forked child). -/
theorem C17_reporter_observation_only (cfg : Config) (env : Env) (st st' : OssState)
    (hsame : schedulingView st = schedulingView st') :
    schedulingView (reportPhase st) = schedulingView st ∧
      (loopBody cfg env st).map schedulingView = (loopBody cfg env st').map schedulingView := by
  refine ⟨schedulingView_reportPhase st, ?_⟩
  have hst : st' = withLastReport st st'.lastReportSec st'.lastReportNano := by
    obtain ⟨c, t, a, l, ns, nn, rs, rn, cs, cn⟩ := st
    obtain ⟨c', t', a', l', ns', nn', rs', rn', cs', cn'⟩ := st'
    simp only [schedulingView, Prod.mk.injEq] at hsame
    obtain ⟨h1, h2, h3, h4, h5, h6, h7, h8⟩ := hsame
    subst h1 h2 h3 h4 h5 h6 h7 h8
    rfl
  rw [hst, loopBody_withLastReport]

theorem C17_reporter_observation_only_witness :
    schedulingView (reportPhase (tickPhase initState)) = schedulingView (tickPhase initState) ∧
      (loopBody ⟨2, 1, 1, 0, 0, 0⟩ ⟨[], 101⟩ (tickPhase initState)).map schedulingView
        = (loopBody ⟨2, 1, 1, 0, 0, 0⟩ ⟨[], 101⟩
            (withLastReport (tickPhase initState) 0 700)).map schedulingView :=
  C17_reporter_observation_only ⟨2, 1, 1, 0, 0, 0⟩ ⟨[], 101⟩ (tickPhase initState)
    (withLastReport (tickPhase initState) 0 700) rfl

/-! ## Claim C18: what one reaped pid changes -/

/-- C18: in a state the main loop passes through, reaping a pid whose first matching
occupied entry is at index `k` resets that entry to the empty defaults, takes exactly
one off `activeWorkers`, and leaves every other entry, `totalWorkersLaunched` and the
next launch time as they were; reaping a pid that matches no occupied entry leaves the
whole state (table, `activeWorkers`, combined run time) as it was. -/
theorem C18_reap_step_frame (cfg : Config) (st : OssState) (pid : Int)
    (hv : Visited cfg st) :
    (∀ k : Nat, k < 20 →
      (st.processTable.getD k default).occupied = 1 →
      (st.processTable.getD k default).pid = pid →
      (∀ j : Nat, j < k → ¬ ((st.processTable.getD j default).occupied = 1 ∧
          (st.processTable.getD j default).pid = pid)) →
      (reapChild pid st).processTable.getD k default = emptyPCB ∧
      (∀ j : Nat, j ≠ k →
        (reapChild pid st).processTable.getD j default = st.processTable.getD j default) ∧
      (reapChild pid st).activeWorkers = st.activeWorkers - 1 ∧
      (reapChild pid st).totalWorkersLaunched = st.totalWorkersLaunched ∧
      (reapChild pid st).nextLaunchSec = st.nextLaunchSec ∧
      (reapChild pid st).nextLaunchNano = st.nextLaunchNano) ∧
    ((∀ j : Nat, j < 20 → ¬ ((st.processTable.getD j default).occupied = 1 ∧
          (st.processTable.getD j default).pid = pid)) →
      reapChild pid st = st) := by
  have hinv := visited_tableInv cfg st hv
  constructor
  · intro k hk hocc hpid hfirst
    rcases reapChild_spec pid st with ⟨_, hnone⟩ | ⟨k', heq, hk', hocc', hpid', hfirst'⟩
    · exact absurd ⟨hocc, hpid⟩ (hnone k hk)
    · have hkk : k' = k := by
        rcases Nat.lt_trichotomy k' k with hlt | heq' | hgt
        · exact absurd ⟨hocc', hpid'⟩ (hfirst k' hlt)
        · exact heq'
        · exact absurd ⟨hocc, hpid⟩ (hfirst' k hgt)
      subst hkk
      rw [heq]
      refine ⟨?_, fun j hj => ?_, (tableInv_reapEntry st k' hinv hk hocc).2, rfl, rfl, rfl⟩
      · exact getD_set_self st.processTable k' emptyPCB (by rw [hinv.1]; exact hk)
      · exact getD_set_other st.processTable k' j emptyPCB (Ne.symm hj)
  · intro hnone
    rcases reapChild_spec pid st with ⟨heq, _⟩ | ⟨k', _, hk', hocc', hpid', _⟩
    · exact heq
    · exact absurd ⟨hocc', hpid'⟩ (hnone k' hk')

theorem C18_reap_step_frame_witness :
    (reapChild 102
        { shmClock := ⟨0, 2100⟩,
          processTable := ⟨1, 101, 0, 700, 1, 700⟩ :: ⟨1, 102, 0, 1400, 1, 1400⟩ ::
            List.replicate 18 emptyPCB,
          activeWorkers := 2, totalWorkersLaunched := 2, nextLaunchSec := 0,
          nextLaunchNano := 1400, lastReportSec := 0, lastReportNano := 0,
          combinedTimeSec := 0, combinedTimeNano := 0 }).activeWorkers = 2 - 1 :=
  ((C18_reap_step_frame ⟨5, 2, 1, 0, 0, 0⟩
    { shmClock := ⟨0, 2100⟩,
      processTable := ⟨1, 101, 0, 700, 1, 700⟩ :: ⟨1, 102, 0, 1400, 1, 1400⟩ ::
        List.replicate 18 emptyPCB,
      activeWorkers := 2, totalWorkersLaunched := 2, nextLaunchSec := 0,
      nextLaunchNano := 1400, lastReportSec := 0, lastReportNano := 0,
      combinedTimeSec := 0, combinedTimeNano := 0 }
    102 (Or.inl ⟨[⟨[], 101⟩, ⟨[], 102⟩, ⟨[], 103⟩], by decide⟩)).1 1 (by decide) (by decide)
    (by decide) (fun j hj => by
      have hj0 : j = 0 := by omega
      subst hj0
      decide)).2.2.1

/-! ## The reporter's test -/

/-- The reporter's test on a state whose clock and last report time are normalized, with
the last report not later than the clock and the difference of the seconds within an
`int`: it fires exactly when at least 500000000 ns have elapsed; when it fires the last
report time becomes the clock, otherwise the state is unchanged. -/
theorem report_iff_half_second_of_fit (st : OssState)
    (hclk : st.shmClock.normalized)
    (hlast : 0 ≤ st.lastReportNano ∧ st.lastReportNano < 1000000000)
    (hle : totalNanos st.lastReportSec st.lastReportNano
      ≤ totalNanos st.shmClock.seconds st.shmClock.nanoseconds)
    (hfit : st.shmClock.seconds - st.lastReportSec ≤ 2147483647) :
    (reportDue st ↔
      totalNanos st.shmClock.seconds st.shmClock.nanoseconds
        - totalNanos st.lastReportSec st.lastReportNano ≥ 500000000) ∧
    (reportDue st → reportPhase st =
      { st with lastReportSec := st.shmClock.seconds,
                lastReportNano := st.shmClock.nanoseconds }) ∧
    (¬ reportDue st → reportPhase st = st) := by
  obtain ⟨r1, r2, r3⟩ := subTime_exact st.shmClock.seconds st.shmClock.nanoseconds
    st.lastReportSec st.lastReportNano hclk hlast (by omega) hfit
  refine ⟨?_, fun h => ?_, fun h => ?_⟩
  · unfold reportDue
    rw [← r3]
    unfold totalNanos at r3 hle ⊢
    constructor
    · intro h
      rcases h with h | h <;> omega
    · intro h
      by_cases hs : (subTime st.shmClock.seconds st.shmClock.nanoseconds st.lastReportSec
          st.lastReportNano).1 > 0
      · exact Or.inl hs
      · right
        omega
  · unfold reportPhase
    rw [if_pos h]
  · unfold reportPhase
    rw [if_neg h]

/-! ## Claims C12, C13, C14: start-up failure, interrupt handler, watchdog -/

/-- In every state the main loop passes through, the occupied entries hold positive
pids: the values `fork` returned. -/
theorem visited_occupied_pid_pos (cfg : Config) (st : OssState) (hv : Visited cfg st) :
    ∀ e ∈ st.processTable, e.occupied ≠ 0 → 0 < e.pid := by
  refine visited_invariant cfg (fun s => ∀ e ∈ s.processTable, e.occupied ≠ 0 → 0 < e.pid)
    ?_ (fun s h => h) ?_ ?_ ?_ st hv
  · intro e he hocc
    rw [List.eq_of_mem_replicate he] at hocc
    exact absurd rfl hocc
  · intro pid s h
    refine reapChild_preserves (fun s => ∀ e ∈ s.processTable, e.occupied ≠ 0 → 0 < e.pid)
      pid s h (fun k _ _ _ e he hocc => ?_)
    rcases List.mem_or_eq_of_mem_set he with hm | rfl
    · exact h e hm hocc
    · exact absurd rfl hocc
  · intro fr s s' h ha
    rcases admitPhase_spec cfg fr s s' ha with ⟨_, rfl⟩ | ⟨_, _, rfl⟩ | ⟨_, hfr, k, _, _, _, rfl⟩
    · exact h
    · exact h
    · intro e he hocc
      rcases List.mem_or_eq_of_mem_set he with hm | rfl
      · exact h e hm hocc
      · exact hfr
  · intro s h
    rw [(reportPhase_frame s).2.1]
    exact h

/-- C12, the code at the failing input: when `shmget` returns -1 and `shmat` returns an
address that cannot be used, the start of `main` in oss.c neither prints a diagnostic
nor exits with code 1: it stores through that address. No answer of the operating
system makes it exit with code 1, whereas the worker does exit with code 1 when its
`shmget` returns -1. Normal completion removes the segment and exits with code 0. -/
theorem C12_startup_has_no_failure_exit :
    startup { shmgetResult := -1, shmatUsable := false } = StartOutcome.invalidStore ∧
    (∀ env : ShmEnv, startup env ≠ StartOutcome.diagnosticExit 1) ∧
    workerStartup { shmgetResult := -1, shmatUsable := false } = StartOutcome.diagnosticExit 1 ∧
    normalCompletion = [Action.removeShm, Action.exit 0] := by
  refine ⟨rfl, fun env => ?_, rfl, rfl⟩
  unfold startup
  split <;> exact fun h => StartOutcome.noConfusion h

/-- C14, the code at the failing input: on `SIGINT` the handler runs, but on `SIGALRM`
(the expiry of `alarm(60)`) the process is terminated by the default action: whatever
the process table holds, no child is signalled and the shared-memory segment is not
removed. -/
theorem C14_alarm_takes_default_action :
    (∀ (ids : ProcessIds) (processTable : List PCB),
      deliverSignal ids Signal.sigint processTable = signal_handler ids processTable) ∧
    (∀ (ids : ProcessIds) (processTable : List PCB),
      deliverSignal ids Signal.sigalrm processTable = [Action.terminatedBySignal]) ∧
    deliverSignal ⟨1000, 1000⟩ Signal.sigalrm
        (⟨1, 101, 0, 700, 100, 700⟩ :: List.replicate 19 emptyPCB)
      = [Action.terminatedBySignal] ∧
    Action.kill 101 ∉
      deliverSignal ⟨1000, 1000⟩ Signal.sigalrm
        (⟨1, 101, 0, 700, 100, 700⟩ :: List.replicate 19 emptyPCB) ∧
    Action.removeShm ∉
      deliverSignal ⟨1000, 1000⟩ Signal.sigalrm
        (⟨1, 101, 0, 700, 100, 700⟩ :: List.replicate 19 emptyPCB) :=
  ⟨fun _ _ => rfl, fun _ _ => rfl, rfl, by decide, by decide⟩

/-! ## Claim C15: `total_p` or `max_sp` zero -/

/-- With `total_p ≤ 0` or `max_sp ≤ 0` nothing is ever launched: in every state the main
loop passes through the table is empty and counters and combined run time are 0. -/
theorem nothing_launched (cfg : Config) (hz : cfg.total_p ≤ 0 ∨ cfg.max_sp ≤ 0)
    (st : OssState) (hv : Visited cfg st) :
    st.processTable = List.replicate 20 emptyPCB ∧ st.activeWorkers = 0 ∧
      st.totalWorkersLaunched = 0 ∧ st.combinedTimeSec = 0 ∧ st.combinedTimeNano = 0 := by
  refine visited_invariant cfg
    (fun s => s.processTable = List.replicate 20 emptyPCB ∧ s.activeWorkers = 0 ∧
      s.totalWorkersLaunched = 0 ∧ s.combinedTimeSec = 0 ∧ s.combinedTimeNano = 0)
    ⟨rfl, rfl, rfl, rfl, rfl⟩ (fun s h => h) ?_ ?_ ?_ st hv
  · intro pid s h
    rcases reapChild_spec pid s with ⟨heq, _⟩ | ⟨k, _, hk, hocc, _, _⟩
    · rw [heq]; exact h
    · exfalso
      have hg : s.processTable.getD k default = emptyPCB := by
        rw [h.1]
        exact List.eq_of_mem_replicate (getD_mem_of_lt (by simpa using hk))
      rw [hg] at hocc
      exact absurd hocc (by decide)
  · intro fr s s' h ha
    rcases admitPhase_spec cfg fr s s' ha with ⟨_, rfl⟩ | ⟨_, _, rfl⟩ | ⟨hp, _, _⟩
    · exact h
    · exact h
    · exfalso
      have h1 : s.totalWorkersLaunched < cfg.total_p := hp.1
      have h2 : s.activeWorkers < cfg.max_sp := hp.2.1
      obtain ⟨_, ha0, ht0, _, _⟩ := h
      rcases hz with hz | hz <;> omega
  · intro s h
    obtain ⟨_, f2, f3, f4, _, _, f7, f8⟩ := reportPhase_frame s
    rw [f2, f3, f4, f7, f8]
    exact h

/-- With `max_sp ≤ 0` (or `total_p ≤ 0`) every iteration returns a state: `fork` is never
called. -/
theorem runLoop_some_of_nothing_launched (cfg : Config)
    (hz : cfg.total_p ≤ 0 ∨ cfg.max_sp ≤ 0) (envs : List Env) :
    ∀ st : OssState, Visited cfg st → Reachable cfg st →
      ∃ st', runLoop cfg envs st = some st' := by
  induction envs with
  | nil => intro st _ _; exact ⟨st, rfl⟩
  | cons env rest ih =>
    intro st hv hr
    unfold runLoop
    by_cases hc : loopCond cfg st
    · rw [if_pos hc]
      have hv2 : Visited cfg (afterReap env st) := Or.inr ⟨st, env, hr, hc, Or.inl rfl⟩
      obtain ⟨_, ha0, ht0, _, _⟩ := nothing_launched cfg hz _ hv2
      have hnp : ¬ admissionPredicate cfg (afterReap env st) := by
        intro hp
        have h1 : (afterReap env st).totalWorkersLaunched < cfg.total_p := hp.1
        have h2 : (afterReap env st).activeWorkers < cfg.max_sp := hp.2.1
        rcases hz with hz | hz <;> omega
      have hb : loopBody cfg env st = some (reportPhase (afterReap env st)) := by
        unfold loopBody admitPhase
        simp only [if_neg hnp]
        rfl
      rw [hb]
      have hr' : Reachable cfg (reportPhase (afterReap env st)) := by
        obtain ⟨envs0, h0⟩ := hr
        refine ⟨envs0 ++ [env], ?_⟩
        rw [runLoop_append, h0, Option.some_bind]
        unfold runLoop
        rw [if_pos hc, hb]
        rfl
      exact ih _ (Or.inl hr') hr'
    · rw [if_neg hc]
      exact ⟨st, rfl⟩

/-- C15 as stated fails: with `total_p = 1` and `max_sp = 0` (`oss -n 1`) no run of the
main loop reaches a state in which the loop condition is false, although every run goes
on (no iteration is the forked child): the loop does not finish. -/
theorem C15_counterexample :
    (¬ ∃ (envs : List Env) (st : OssState),
        runLoop ⟨1, 0, 0, 0, 0, 0⟩ envs initState = some st ∧
        ¬ loopCond ⟨1, 0, 0, 0, 0, 0⟩ st) ∧
    (¬ ∃ envs : List Env, runLoop ⟨1, 0, 0, 0, 0, 0⟩ envs initState = none) := by
  constructor
  · rintro ⟨envs, st, hrun, hnc⟩
    obtain ⟨_, _, ht0, _, _⟩ :=
      nothing_launched ⟨1, 0, 0, 0, 0, 0⟩ (Or.inr (le_refl _)) st (Or.inl ⟨envs, hrun⟩)
    apply hnc
    left
    show st.totalWorkersLaunched < 1
    omega
  · rintro ⟨envs, hrun⟩
    obtain ⟨st', h⟩ := runLoop_some_of_nothing_launched ⟨1, 0, 0, 0, 0, 0⟩
      (Or.inr (le_refl _)) envs initState (Or.inl (reachable_init _)) (reachable_init _)
    rw [hrun] at h
    cases h

/-- C15 (amended): when `total_p` or `max_sp` is zero, no worker is ever launched: in
every state the main loop passes through the table is empty, `totalWorkersLaunched` and
`activeWorkers` are 0 and the combined run time is 0 s 0 ns. When `total_p` is zero the
loop condition is false from the start, so the loop finishes without an iteration; when
`max_sp` is zero and `total_p` is positive the loop condition stays true, so the loop
does not finish by itself. -/
theorem C15_zero_config_launches_nothing (cfg : Config)
    (hz : cfg.total_p = 0 ∨ cfg.max_sp = 0) (st : OssState) (hv : Visited cfg st) :
    st.processTable = List.replicate 20 emptyPCB ∧ st.activeWorkers = 0 ∧
      st.totalWorkersLaunched = 0 ∧ st.combinedTimeSec = 0 ∧ st.combinedTimeNano = 0 ∧
      (cfg.total_p = 0 → ¬ loopCond cfg st ∧ ∀ envs, runLoop cfg envs initState = some initState) ∧
      (0 < cfg.total_p → loopCond cfg st) := by
  have hz' : cfg.total_p ≤ 0 ∨ cfg.max_sp ≤ 0 := by
    rcases hz with h | h
    · exact Or.inl (le_of_eq h)
    · exact Or.inr (le_of_eq h)
  obtain ⟨h1, h2, h3, h4, h5⟩ := nothing_launched cfg hz' st hv
  refine ⟨h1, h2, h3, h4, h5, fun h0 => ⟨?_, fun envs => ?_⟩, fun hpos => ?_⟩
  · intro hc
    rcases hc with hc | hc <;> omega
  · have hnc : ¬ loopCond cfg initState := by
      intro hc
      rcases hc with hc | hc
      · have : initState.totalWorkersLaunched = 0 := rfl
        omega
      · exact absurd hc (by decide)
    cases envs with
    | nil => rfl
    | cons env rest =>
      unfold runLoop
      rw [if_neg hnc]
  · left
    omega

theorem C15_zero_config_launches_nothing_witness :
    (tickPhase initState).processTable = List.replicate 20 emptyPCB ∧
      (tickPhase initState).activeWorkers = 0 ∧
      (tickPhase initState).totalWorkersLaunched = 0 ∧
      (tickPhase initState).combinedTimeSec = 0 ∧ (tickPhase initState).combinedTimeNano = 0 ∧
      ((3 : Int) = 0 → ¬ loopCond ⟨3, 0, 1, 0, 0, 0⟩ (tickPhase initState) ∧
        ∀ envs, runLoop ⟨3, 0, 1, 0, 0, 0⟩ envs initState = some initState) ∧
      ((0 : Int) < 3 → loopCond ⟨3, 0, 1, 0, 0, 0⟩ (tickPhase initState)) :=
  C15_zero_config_launches_nothing ⟨3, 0, 1, 0, 0, 0⟩ (Or.inr rfl) (tickPhase initState)
    (Or.inr ⟨initState, ⟨[], 0⟩, reachable_init _, by decide, Or.inl rfl⟩)

/-! ## Claim C16: the worker's deadline and the kernel's recorded end time -/

/-- The worker and the kernel use the same computation. -/
theorem workerTermTime_eq_addTime (c : CustomClock) (s ns : Int) :
    workerTermTime c s ns = addTime c.seconds c.nanoseconds s ns := rfl

/-- C16 as stated fails: for the normalized clock (2147483647, 0) and the lifetime
(1, 0) the worker computes the deadline (-2147483648, 0), which is not clock + lifetime:
`2147483647 + 1` does not fit an `int`. -/
theorem C16_counterexample :
    (⟨2147483647, 0⟩ : CustomClock).normalized ∧
    workerTermTime ⟨2147483647, 0⟩ 1 0 = (-2147483648, 0) ∧
    totalNanos (workerTermTime ⟨2147483647, 0⟩ 1 0).1 (workerTermTime ⟨2147483647, 0⟩ 1 0).2
      ≠ totalNanos 2147483647 0 + totalNanos 1 0 := by
  decide

/-- C16 (amended): the deadline the worker computes from the clock `c` and its arguments
`(s, ns)` is, in seconds and in nanoseconds, the end time the kernel records in the
process table for a worker launched at `c` with the lifetime split `(s, ns)`; and when
`c` is normalized, `0 ≤ ns < 1e9` and the seconds of `c` + lifetime fit an `int`, it is
the normalized sum `c` + lifetime. -/
theorem C16_worker_deadline_matches_kernel (cfg : Config) (pid : Int) (st : OssState)
    (k : Nat) (hk : k < 20) (hlen : st.processTable.length = 20) :
    ((launchWorker cfg pid st k).processTable.getD k default).endingSeconds
      = (workerTermTime st.shmClock cfg.timeLimitSec cfg.timeLimitNano).1 ∧
    ((launchWorker cfg pid st k).processTable.getD k default).endingNanoseconds
      = (workerTermTime st.shmClock cfg.timeLimitSec cfg.timeLimitNano).2 ∧
    (st.shmClock.normalized →
      0 ≤ cfg.timeLimitNano ∧ cfg.timeLimitNano < 1000000000 →
      -2147483648 ≤ st.shmClock.seconds + cfg.timeLimitSec →
      totalNanos st.shmClock.seconds st.shmClock.nanoseconds
        + totalNanos cfg.timeLimitSec cfg.timeLimitNano < 2147483648 * 1000000000 →
      0 ≤ (workerTermTime st.shmClock cfg.timeLimitSec cfg.timeLimitNano).2 ∧
      (workerTermTime st.shmClock cfg.timeLimitSec cfg.timeLimitNano).2 < 1000000000 ∧
      totalNanos (workerTermTime st.shmClock cfg.timeLimitSec cfg.timeLimitNano).1
          (workerTermTime st.shmClock cfg.timeLimitSec cfg.timeLimitNano).2
        = totalNanos st.shmClock.seconds st.shmClock.nanoseconds
          + totalNanos cfg.timeLimitSec cfg.timeLimitNano) := by
  have hget : (launchWorker cfg pid st k).processTable.getD k default =
      { occupied := 1, pid := pid, startSeconds := st.shmClock.seconds,
        startNanoseconds := st.shmClock.nanoseconds,
        endingSeconds := (addTime st.shmClock.seconds st.shmClock.nanoseconds
          cfg.timeLimitSec cfg.timeLimitNano).1,
        endingNanoseconds := (addTime st.shmClock.seconds st.shmClock.nanoseconds
          cfg.timeLimitSec cfg.timeLimitNano).2 } :=
    getD_set_self st.processTable k _ (by omega)
  rw [hget, workerTermTime_eq_addTime]
  exact ⟨rfl, rfl, fun hclk hns hlo hhi =>
    addTime_exact st.shmClock.seconds st.shmClock.nanoseconds cfg.timeLimitSec
      cfg.timeLimitNano hclk hns hlo hhi⟩

theorem C16_worker_deadline_matches_kernel_witness :
    ((launchWorker ⟨2, 1, 1, 999999500, 0, 0⟩ 101 (tickPhase initState) 0).processTable.getD 0
        default).endingSeconds
      = (workerTermTime ⟨0, 700⟩ 1 999999500).1 ∧
    totalNanos (workerTermTime ⟨0, 700⟩ 1 999999500).1 (workerTermTime ⟨0, 700⟩ 1 999999500).2
      = totalNanos 0 700 + totalNanos 1 999999500 :=
  have h := C16_worker_deadline_matches_kernel ⟨2, 1, 1, 999999500, 0, 0⟩ 101
    (tickPhase initState) 0 (by decide) (by decide)
  ⟨h.1, (h.2.2 (by decide) (by decide) (by decide) (by decide)).2.2⟩

/-! ## Claim C19: launch cadence -/

theorem reapPhase_clock_nextLaunch (pids : List Int) (st : OssState) :
    (reapPhase pids st).shmClock = st.shmClock ∧
      (reapPhase pids st).nextLaunchSec = st.nextLaunchSec ∧
      (reapPhase pids st).nextLaunchNano = st.nextLaunchNano :=
  reapPhase_preserves
    (fun s => s.shmClock = st.shmClock ∧ s.nextLaunchSec = st.nextLaunchSec ∧
      s.nextLaunchNano = st.nextLaunchNano)
    (fun pid s h => reapChild_preserves
      (fun s => s.shmClock = st.shmClock ∧ s.nextLaunchSec = st.nextLaunchSec ∧
        s.nextLaunchNano = st.nextLaunchNano) pid s h (fun _ _ _ _ => h))
    pids st ⟨rfl, rfl, rfl⟩

/-- What one iteration does to the clock and to the next launch time: the clock ticks
once; either nothing is launched and the next launch time stays, or a worker is launched
at a clock that has reached the next launch time, which becomes `addTime` of that clock
and the launch interval. -/
theorem loopBody_launch_cases (cfg : Config) (env : Env) (st st' : OssState)
    (hb : loopBody cfg env st = some st') :
    (afterReap env st).shmClock = incrementClock st.shmClock ∧
    st'.shmClock = incrementClock st.shmClock ∧
    ((¬ (admissionPredicate cfg (afterReap env st) ∧ env.forkResult > 0) ∧
        st'.nextLaunchSec = st.nextLaunchSec ∧ st'.nextLaunchNano = st.nextLaunchNano) ∨
      ((admissionPredicate cfg (afterReap env st) ∧ env.forkResult > 0) ∧
        ((incrementClock st.shmClock).seconds > st.nextLaunchSec ∨
          ((incrementClock st.shmClock).seconds = st.nextLaunchSec ∧
            (incrementClock st.shmClock).nanoseconds ≥ st.nextLaunchNano)) ∧
        st'.nextLaunchSec = (addTime (incrementClock st.shmClock).seconds
          (incrementClock st.shmClock).nanoseconds cfg.launchIntervalSec
          cfg.launchIntervalNano).1 ∧
        st'.nextLaunchNano = (addTime (incrementClock st.shmClock).seconds
          (incrementClock st.shmClock).nanoseconds cfg.launchIntervalSec
          cfg.launchIntervalNano).2)) := by
  obtain ⟨hc, hns, hnn⟩ := reapPhase_clock_nextLaunch env.waitpids (tickPhase st)
  have hc2 : (afterReap env st).shmClock = incrementClock st.shmClock := hc
  have hns2 : (afterReap env st).nextLaunchSec = st.nextLaunchSec := hns
  have hnn2 : (afterReap env st).nextLaunchNano = st.nextLaunchNano := hnn
  unfold loopBody at hb
  rw [Option.map_eq_some'] at hb
  obtain ⟨s3, hs3, rfl⟩ := hb
  obtain ⟨f1, _, _, _, f5, f6, _, _⟩ := reportPhase_frame s3
  rw [f1, f5, f6]
  rcases admitPhase_spec cfg env.forkResult _ s3 hs3 with
    ⟨hp, rfl⟩ | ⟨_, hfr, rfl⟩ | ⟨hp, hfr, k, _, _, _, rfl⟩
  · exact ⟨hc2, hc2, Or.inl ⟨fun h => hp h.1, hns2, hnn2⟩⟩
  · exact ⟨hc2, hc2, Or.inl ⟨fun h => by omega, hns2, hnn2⟩⟩
  · refine ⟨hc2, hc2, Or.inr ⟨⟨hp, hfr⟩, ?_, ?_, ?_⟩⟩
    · have hl : launchTimeReached (afterReap env st) := hp.2.2.2
      unfold launchTimeReached at hl
      rw [hc2, hns2, hnn2] at hl
      exact hl
    · show (addTime (afterReap env st).shmClock.seconds (afterReap env st).shmClock.nanoseconds
        cfg.launchIntervalSec cfg.launchIntervalNano).1 = _
      rw [hc2]
    · show (addTime (afterReap env st).shmClock.seconds (afterReap env st).shmClock.nanoseconds
        cfg.launchIntervalSec cfg.launchIntervalNano).2 = _
      rw [hc2]

/-- Along a run without overflow every launch is at or after the next launch time of the
state the run starts from, and consecutive launches are a launch interval apart. -/
theorem launchStarts_apart (cfg : Config) (hsec : 0 ≤ cfg.launchIntervalSec)
    (hnano : 0 ≤ cfg.launchIntervalNano ∧ cfg.launchIntervalNano < 1000000000)
    (envs : List Env) :
    ∀ st : OssState, st.shmClock.normalized → -2147483648 ≤ st.shmClock.seconds →
      (0 ≤ st.nextLaunchNano ∧ st.nextLaunchNano < 1000000000) →
      totalNanos st.shmClock.seconds st.shmClock.nanoseconds + 700 * (envs.length : Int)
        + totalNanos cfg.launchIntervalSec cfg.launchIntervalNano < 2147483648 * 1000000000 →
      (∀ c ∈ launchStarts cfg envs st,
        totalNanos st.nextLaunchSec st.nextLaunchNano ≤ totalNanos c.seconds c.nanoseconds) ∧
      List.Chain' (IntervalApart cfg) (launchStarts cfg envs st) := by
  induction envs with
  | nil =>
    intro st _ _ _ _
    exact ⟨fun c hc => absurd hc (List.not_mem_nil c), List.chain'_nil⟩
  | cons env rest ih =>
    intro st hclk hlo hnl hfit
    have hI : 0 ≤ totalNanos cfg.launchIntervalSec cfg.launchIntervalNano := by
      unfold totalNanos
      omega
    have hlen : ((env :: rest).length : Int) = (rest.length : Int) + 1 := by
      simp only [List.length_cons]
      push_cast
      rfl
    rw [hlen] at hfit
    unfold launchStarts
    by_cases hc : loopCond cfg st
    · rw [if_pos hc]
      cases hb : loopBody cfg env st with
      | none => exact ⟨fun c hc => absurd hc (List.not_mem_nil c), List.chain'_nil⟩
      | some st' =>
        simp only []
        obtain ⟨hc2, hc', hcases⟩ := loopBody_launch_cases cfg env st st' hb
        obtain ⟨j1, j2, j3⟩ := incrementClock_exact st.shmClock hclk hlo (by omega)
        rcases hcases with ⟨hno, hs, hn⟩ | ⟨hyes, hreached, hs, hn⟩
        · rw [if_neg hno]
          have := ih st' (by rw [hc']; exact j1) (by rw [hc']; exact j2)
            (by rw [hn]; exact hnl) (by rw [hc', j3]; omega)
          rw [hs, hn] at this
          exact this
        · rw [if_pos hyes, hc2]
          obtain ⟨a1, a2, a3⟩ := addTime_exact (incrementClock st.shmClock).seconds
            (incrementClock st.shmClock).nanoseconds cfg.launchIntervalSec
            cfg.launchIntervalNano j1 hnano (by omega) (by rw [j3]; omega)
          obtain ⟨ih1, ih2⟩ := ih st' (by rw [hc']; exact j1) (by rw [hc']; exact j2)
            (by rw [hn]; exact ⟨a1, a2⟩) (by rw [hc', j3]; omega)
          rw [hs, hn, a3] at ih1
          have hstart : totalNanos st.nextLaunchSec st.nextLaunchNano
              ≤ totalNanos (incrementClock st.shmClock).seconds
                  (incrementClock st.shmClock).nanoseconds := by
            unfold totalNanos
            unfold CustomClock.normalized at j1
            rcases hreached with h | ⟨h1, h2⟩ <;> omega
          constructor
          · intro c hmem
            rcases List.mem_cons.1 hmem with rfl | hmem'
            · exact hstart
            · have := ih1 c hmem'
              omega
          · refine List.Chain'.cons' ih2 (fun y hy => ?_)
            exact ih1 y (List.mem_of_mem_head? hy)
    · rw [if_neg hc]
      exact ⟨fun c hc => absurd hc (List.not_mem_nil c), List.chain'_nil⟩

/-- C19 (amended): for every run with a non-negative launch interval (integer seconds,
nanoseconds in `[0, 1e9)`) that is short enough for no `int` to overflow (700 ns per
iteration plus the interval stay below `2^31` seconds), any two consecutive launches
have recorded start times at least the launch interval apart. -/
theorem C19_launch_cadence (cfg : Config) (envs : List Env)
    (hsec : 0 ≤ cfg.launchIntervalSec)
    (hnano : 0 ≤ cfg.launchIntervalNano ∧ cfg.launchIntervalNano < 1000000000)
    (hfit : 700 * (envs.length : Int)
      + totalNanos cfg.launchIntervalSec cfg.launchIntervalNano < 2147483648 * 1000000000) :
    List.Chain' (IntervalApart cfg) (launchStarts cfg envs initState) :=
  (launchStarts_apart cfg hsec hnano envs initState (by decide) (by decide) (by decide) (by
    have h0 : totalNanos initState.shmClock.seconds initState.shmClock.nanoseconds = 0 := by
      decide
    rw [h0]
    omega)).2

theorem C19_launch_cadence_witness :
    launchStarts ⟨3, 3, 1, 0, 0, 1400⟩ [⟨[], 101⟩, ⟨[], 102⟩, ⟨[], 103⟩, ⟨[], 104⟩] initState
        = [⟨0, 700⟩, ⟨0, 2100⟩] ∧
      List.Chain' (IntervalApart ⟨3, 3, 1, 0, 0, 1400⟩)
        (launchStarts ⟨3, 3, 1, 0, 0, 1400⟩ [⟨[], 101⟩, ⟨[], 102⟩, ⟨[], 103⟩, ⟨[], 104⟩]
          initState) :=
  ⟨by decide, C19_launch_cadence ⟨3, 3, 1, 0, 0, 1400⟩
    [⟨[], 101⟩, ⟨[], 102⟩, ⟨[], 103⟩, ⟨[], 104⟩] (by decide) (by decide) (by decide)⟩

/-! ## A run in which the next launch time overflows -/

theorem loopBody_view_congr (cfg : Config) (env : Env) (st st' : OssState)
    (hsame : schedulingView st = schedulingView st') :
    (loopBody cfg env st).map schedulingView = (loopBody cfg env st').map schedulingView := by
  have hst : st' = withLastReport st st'.lastReportSec st'.lastReportNano := by
    obtain ⟨c, t, a, l, ns, nn, rs, rn, cs, cn⟩ := st
    obtain ⟨c', t', a', l', ns', nn', rs', rn', cs', cn'⟩ := st'
    simp only [schedulingView, Prod.mk.injEq] at hsame
    obtain ⟨h1, h2, h3, h4, h5, h6, h7, h8⟩ := hsame
    subst h1 h2 h3 h4 h5 h6 h7 h8
    rfl
  rw [hst, loopBody_withLastReport]

theorem afterReap_view_congr (env : Env) (st st' : OssState)
    (hsame : schedulingView st = schedulingView st') :
    schedulingView (afterReap env st) = schedulingView (afterReap env st') := by
  have hst : st' = withLastReport st st'.lastReportSec st'.lastReportNano := by
    obtain ⟨c, t, a, l, ns, nn, rs, rn, cs, cn⟩ := st
    obtain ⟨c', t', a', l', ns', nn', rs', rn', cs', cn'⟩ := st'
    simp only [schedulingView, Prod.mk.injEq] at hsame
    obtain ⟨h1, h2, h3, h4, h5, h6, h7, h8⟩ := hsame
    subst h1 h2 h3 h4 h5 h6 h7 h8
    rfl
  rw [hst]
  unfold afterReap
  have ht : tickPhase (withLastReport st st'.lastReportSec st'.lastReportNano)
      = withLastReport (tickPhase st) st'.lastReportSec st'.lastReportNano := rfl
  rw [ht, reapPhase_withLastReport]
  rfl

theorem view_fields (st st' : OssState) (hsame : schedulingView st = schedulingView st') :
    st.shmClock = st'.shmClock ∧ st.processTable = st'.processTable ∧
      st.totalWorkersLaunched = st'.totalWorkersLaunched ∧
      st.activeWorkers = st'.activeWorkers ∧ st.nextLaunchSec = st'.nextLaunchSec ∧
      st.nextLaunchNano = st'.nextLaunchNano := by
  simp only [schedulingView, Prod.mk.injEq] at hsame
  obtain ⟨h1, h2, h3, h4, h5, h6, _, _⟩ := hsame
  exact ⟨h1, h2, h3, h4, h5, h6⟩

theorem admissionPredicate_view_congr (cfg : Config) (st st' : OssState)
    (hsame : schedulingView st = schedulingView st') :
    admissionPredicate cfg st ↔ admissionPredicate cfg st' := by
  obtain ⟨h1, h2, h3, h4, h5, h6⟩ := view_fields st st' hsame
  unfold admissionPredicate launchTimeReached
  rw [h1, h2, h3, h4, h5, h6]

/-- The launches of a run do not depend on the time of the last report. -/
theorem launchStarts_view_congr (cfg : Config) (envs : List Env) :
    ∀ st st' : OssState, schedulingView st = schedulingView st' →
      launchStarts cfg envs st = launchStarts cfg envs st' := by
  induction envs with
  | nil => intro _ _ _; rfl
  | cons env rest ih =>
    intro st st' hsame
    obtain ⟨_, _, h3, h4, _, _⟩ := view_fields st st' hsame
    have hcond : loopCond cfg st ↔ loopCond cfg st' := by
      unfold loopCond
      rw [h3, h4]
    have hbody := loopBody_view_congr cfg env st st' hsame
    have hafter := afterReap_view_congr env st st' hsame
    have hpred := admissionPredicate_view_congr cfg _ _ hafter
    have hclk := (view_fields _ _ hafter).1
    unfold launchStarts
    by_cases hc : loopCond cfg st
    · rw [if_pos hc, if_pos (hcond.1 hc)]
      cases h1 : loopBody cfg env st with
      | none =>
        cases h2 : loopBody cfg env st' with
        | none => rfl
        | some s2 => rw [h1, h2] at hbody; cases hbody
      | some s1 =>
        cases h2 : loopBody cfg env st' with
        | none => rw [h1, h2] at hbody; cases hbody
        | some s2 =>
          rw [h1, h2] at hbody
          simp only [Option.map_some', Option.some.injEq] at hbody
          simp only []
          rw [ih s1 s2 hbody, hclk]
          by_cases hl : admissionPredicate cfg (afterReap env st) ∧ env.forkResult > 0
          · rw [if_pos hl, if_pos ⟨hpred.1 hl.1, hl.2⟩]
          · rw [if_neg hl, if_neg (fun h => hl ⟨hpred.2 h.1, h.2⟩)]
    · rw [if_neg hc, if_neg (fun h => hc (hcond.2 h))]

theorem launchStarts_append (cfg : Config) (envs1 envs2 : List Env) (st : OssState) :
    launchStarts cfg (envs1 ++ envs2) st =
      launchStarts cfg envs1 st ++
        (match runLoop cfg envs1 st with
          | none => []
          | some s1 => launchStarts cfg envs2 s1) := by
  induction envs1 generalizing st with
  | nil => rfl
  | cons env rest ih =>
    by_cases hc : loopCond cfg st
    · simp only [List.cons_append, launchStarts, runLoop, if_pos hc]
      cases loopBody cfg env st with
      | none => rfl
      | some s1 =>
        simp only [List.append_eq]
        rw [ih s1]
        split <;> rfl
    · simp only [List.cons_append, launchStarts, runLoop, if_neg hc, List.nil_append]
      cases envs2 with
      | nil => rfl
      | cons e2 r2 => simp only [launchStarts, if_neg hc]

theorem launchStarts_idle (cfg : Config) (fr : Int) (hfr : fr < 0) (n : Nat) (st : OssState) :
    launchStarts cfg (List.replicate n ⟨[], fr⟩) st = [] := by
  induction n generalizing st with
  | zero => rfl
  | succ k ih =>
    rw [List.replicate_succ]
    unfold launchStarts
    split
    · rw [loopBody_idle cfg st fr hfr]
      simp only []
      rw [if_neg (fun h => by
        have : fr > 0 := h.2
        omega)]
      exact ih _
    · rfl

/-- C19 as stated fails: with `-n 2 -s 2 -i 2147483520` (interval seconds 2147483520,
nanoseconds 0) and a `fork` that fails 182857142 times and then succeeds twice, the
first worker starts at (128, 100); `128 + 2147483520` does not fit an `int`, the next
launch time becomes (-2147483648, 100), and the second worker starts one tick later, at
(128, 800), not a launch interval after the first. -/
theorem C19_counterexample :
    launchStarts ⟨2, 2, 0, 0, 2147483520, 0⟩
        (List.replicate 182857142 ⟨[], -1⟩ ++ [⟨[], 101⟩, ⟨[], 102⟩]) initState
      = [⟨128, 100⟩, ⟨128, 800⟩] ∧
    ¬ List.Chain' (IntervalApart ⟨2, 2, 0, 0, 2147483520, 0⟩)
      (launchStarts ⟨2, 2, 0, 0, 2147483520, 0⟩
        (List.replicate 182857142 ⟨[], -1⟩ ++ [⟨[], 101⟩, ⟨[], 102⟩]) initState) := by
  obtain ⟨st0, hrun, hclk, htab, hact, htot, hns, hnn, hcs, hcn⟩ :=
    runLoop_idle ⟨2, 2, 0, 0, 2147483520, 0⟩ (-1) (by decide) 182857142 initState (by decide)
  replace hclk : st0.shmClock = ⟨127, 999999400⟩ := hclk.trans clock_after_182857142_ticks
  have hview : schedulingView st0
      = schedulingView { initState with shmClock := ⟨127, 999999400⟩ } := by
    unfold schedulingView
    rw [hclk, htab, hact, htot, hns, hnn, hcs, hcn]
  have hlist : launchStarts ⟨2, 2, 0, 0, 2147483520, 0⟩
      (List.replicate 182857142 ⟨[], -1⟩ ++ [⟨[], 101⟩, ⟨[], 102⟩]) initState
      = [⟨128, 100⟩, ⟨128, 800⟩] := by
    rw [launchStarts_append, launchStarts_idle _ _ (by decide), hrun, List.nil_append]
    simp only []
    rw [launchStarts_view_congr _ _ _ _ hview]
    decide
  refine ⟨hlist, ?_⟩
  rw [hlist, List.chain'_pair]
  decide

/-! ## Claim C11: the reporter in the states of a run -/

theorem reapPhase_lastReport (pids : List Int) (st : OssState) :
    (reapPhase pids st).lastReportSec = st.lastReportSec ∧
      (reapPhase pids st).lastReportNano = st.lastReportNano :=
  reapPhase_preserves
    (fun s => s.lastReportSec = st.lastReportSec ∧ s.lastReportNano = st.lastReportNano)
    (fun pid s h => reapChild_preserves
      (fun s => s.lastReportSec = st.lastReportSec ∧ s.lastReportNano = st.lastReportNano)
      pid s h (fun _ _ _ _ => h))
    pids st ⟨rfl, rfl⟩

/-- The state the report phase is applied to has the clock of the loop head ticked once
and the last report time of the loop head. -/
theorem before_report_frame (cfg : Config) (env : Env) (s0 st : OssState)
    (ha : admitPhase cfg env.forkResult (afterReap env s0) = some st) :
    st.shmClock = incrementClock s0.shmClock ∧ st.lastReportSec = s0.lastReportSec ∧
      st.lastReportNano = s0.lastReportNano := by
  obtain ⟨hc, _, _⟩ := reapPhase_clock_nextLaunch env.waitpids (tickPhase s0)
  obtain ⟨hs, hn⟩ := reapPhase_lastReport env.waitpids (tickPhase s0)
  have hc2 : (afterReap env s0).shmClock = incrementClock s0.shmClock := hc
  have hs2 : (afterReap env s0).lastReportSec = s0.lastReportSec := hs
  have hn2 : (afterReap env s0).lastReportNano = s0.lastReportNano := hn
  rcases admitPhase_spec cfg env.forkResult _ st ha with
    ⟨_, rfl⟩ | ⟨_, _, rfl⟩ | ⟨_, _, k, _, _, _, rfl⟩
  · exact ⟨hc2, hs2, hn2⟩
  · exact ⟨hc2, hs2, hn2⟩
  · exact ⟨hc2, hs2, hn2⟩

/-- One tick raises the clock seconds by at most one and keeps them an `int`. -/
theorem incrementClock_seconds_le (c : CustomClock) (hn : c.normalized)
    (hs : isInt32 c.seconds) :
    isInt32 (incrementClock c).seconds ∧ (incrementClock c).seconds ≤ c.seconds + 1 := by
  rw [incrementClock_of_normalized c hn]
  unfold isInt32 at hs ⊢
  split
  · simp only []
    unfold wrapInt32
    omega
  · simp only []
    omega

/-- In the state the report phase is applied to, the clock seconds are at most two above
the seconds of the last report. -/
theorem before_report_fit (cfg : Config) (env : Env) (s0 st : OssState) (h0 : ReportInv s0)
    (ha : admitPhase cfg env.forkResult (afterReap env s0) = some st) :
    st.shmClock.normalized ∧ (0 ≤ st.lastReportNano ∧ st.lastReportNano < 1000000000) ∧
      isInt32 st.shmClock.seconds ∧ isInt32 st.lastReportSec ∧
      st.shmClock.seconds - st.lastReportSec ≤ 2 := by
  obtain ⟨hclk, hln, hcs, hls, hd⟩ := h0
  obtain ⟨f1, f2, f3⟩ := before_report_frame cfg env s0 st ha
  obtain ⟨i1, i2⟩ := incrementClock_seconds_le s0.shmClock hclk hcs
  rw [f1, f2, f3]
  exact ⟨incrementClock_normalized _ hclk, hln, i1, hls, by omega⟩

/-- The report phase re-establishes the loop-head relation between the clock and the
time of the last report. -/
theorem reportInv_reportPhase (st : OssState) (hclk : st.shmClock.normalized)
    (hln : 0 ≤ st.lastReportNano ∧ st.lastReportNano < 1000000000)
    (hcs : isInt32 st.shmClock.seconds) (hls : isInt32 st.lastReportSec)
    (hd : st.shmClock.seconds - st.lastReportSec ≤ 2) :
    ReportInv (reportPhase st) := by
  unfold reportPhase
  by_cases hdue : reportDue st
  · rw [if_pos hdue]
    refine ⟨hclk, hclk, hcs, hcs, ?_⟩
    show st.shmClock.seconds - st.shmClock.seconds ≤ 1
    omega
  · rw [if_neg hdue]
    refine ⟨hclk, hln, hcs, hls, ?_⟩
    by_contra hgt
    have h2 : st.shmClock.seconds - st.lastReportSec = 2 := by omega
    apply hdue
    unfold reportDue subTime
    unfold CustomClock.normalized at hclk
    have hw1 : wrapInt32 (st.shmClock.seconds - st.lastReportSec) = 2 := by
      rw [h2]; decide
    have hw2 : wrapInt32 (st.shmClock.nanoseconds - st.lastReportNano)
        = st.shmClock.nanoseconds - st.lastReportNano := wrapInt32_id (by omega) (by omega)
    simp only [hw1, hw2]
    left
    split
    · show wrapInt32 (2 - 1) > 0
      decide
    · show (2 : Int) > 0
      decide

theorem reportInv_init : ReportInv initState :=
  ⟨by decide, by decide, by decide, by decide, by decide⟩

theorem reportInv_reachable (cfg : Config) (st : OssState) (hr : Reachable cfg st) :
    ReportInv st := by
  obtain ⟨envs, hrun⟩ := hr
  refine runLoop_preserves cfg ReportInv (fun env s s' h _ hb => ?_) envs initState st
    reportInv_init hrun
  unfold loopBody at hb
  rw [Option.map_eq_some'] at hb
  obtain ⟨s3, hs3, rfl⟩ := hb
  obtain ⟨m1, m2, m3, m4, m5⟩ := before_report_fit cfg env s s3 h hs3
  exact reportInv_reportPhase s3 m1 m2 m3 m4 m5

/-- C11: in every state the report phase is applied to (the state after the tick, the
reaping and the admission of an iteration that starts at a reachable loop head) the
clock and the last report time are normalized, and whenever the last report time is not
later than the clock the reporter fires exactly when the elapsed time, clock minus last
report time in nanoseconds, is at least 500000000; when it fires the last report time
becomes the clock, otherwise the state (and so the last report time) is unchanged. -/
theorem C11_report_iff_half_second (cfg : Config) (env : Env) (s0 st : OssState)
    (hr : Reachable cfg s0)
    (ha : admitPhase cfg env.forkResult (afterReap env s0) = some st)
    (hle : totalNanos st.lastReportSec st.lastReportNano
      ≤ totalNanos st.shmClock.seconds st.shmClock.nanoseconds) :
    st.shmClock.normalized ∧
    (0 ≤ st.lastReportNano ∧ st.lastReportNano < 1000000000) ∧
    (reportDue st ↔
      totalNanos st.shmClock.seconds st.shmClock.nanoseconds
        - totalNanos st.lastReportSec st.lastReportNano ≥ 500000000) ∧
    (reportDue st → reportPhase st =
      { st with lastReportSec := st.shmClock.seconds,
                lastReportNano := st.shmClock.nanoseconds }) ∧
    (¬ reportDue st → reportPhase st = st) := by
  obtain ⟨m1, m2, _, _, m5⟩ :=
    before_report_fit cfg env s0 st (reportInv_reachable cfg s0 hr) ha
  exact ⟨m1, m2, report_iff_half_second_of_fit st m1 m2 hle (by omega)⟩

theorem C11_report_iff_half_second_witness :
    (reportDue
        { shmClock := ⟨0, 700⟩,
          processTable := ⟨1, 101, 0, 700, 1, 700⟩ :: List.replicate 19 emptyPCB,
          activeWorkers := 1, totalWorkersLaunched := 1, nextLaunchSec := 0,
          nextLaunchNano := 700, lastReportSec := 0, lastReportNano := 0,
          combinedTimeSec := 0, combinedTimeNano := 0 } ↔
      totalNanos 0 700 - totalNanos 0 0 ≥ 500000000) :=
  (C11_report_iff_half_second ⟨2, 1, 1, 0, 0, 0⟩ ⟨[], 101⟩ initState
    { shmClock := ⟨0, 700⟩,
      processTable := ⟨1, 101, 0, 700, 1, 700⟩ :: List.replicate 19 emptyPCB,
      activeWorkers := 1, totalWorkersLaunched := 1, nextLaunchSec := 0,
      nextLaunchNano := 700, lastReportSec := 0, lastReportNano := 0,
      combinedTimeSec := 0, combinedTimeNano := 0 }
    (reachable_init _) (by decide) (by decide)).2.2.1

/-! ## Claim C5: the combined run time on the runs the watchdog allows -/

theorem sum_map_set (f : PCB → Int) (table : List PCB) (k : Nat) (x : PCB)
    (h : k < table.length) :
    ((table.set k x).map f).sum = (table.map f).sum - f (table.getD k default) + f x := by
  induction table generalizing k with
  | nil => simp at h
  | cons e rest ih =>
    cases k with
    | zero =>
      simp only [List.set_cons_zero, List.map_cons, List.sum_cons, List.getD_cons_zero]
      ring
    | succ j =>
      have hj : j < rest.length := by simpa using h
      simp only [List.set_cons_succ, List.map_cons, List.sum_cons, List.getD_cons_succ, ih j hj]
      ring

theorem sum_map_nonneg (f : PCB → Int) (table : List PCB) (h : ∀ e ∈ table, 0 ≤ f e) :
    0 ≤ (table.map f).sum := by
  induction table with
  | nil => simp
  | cons e rest ih =>
    have h1 := h e (List.mem_cons_self e rest)
    have h2 := ih (fun x hx => h x (List.mem_cons_of_mem e hx))
    simp only [List.map_cons, List.sum_cons]
    omega

/-- One tick adds at most 700 ns per entry to the run times of the workers in the table. -/
theorem sum_entryRunNanos_tick (now : Int) (table : List PCB) :
    (table.map (entryRunNanos (now + 700))).sum
      ≤ (table.map (entryRunNanos now)).sum + 700 * (table.length : Int) := by
  induction table with
  | nil => simp
  | cons e rest ih =>
    simp only [List.map_cons, List.sum_cons, List.length_cons]
    have he : entryRunNanos (now + 700) e ≤ entryRunNanos now e + 700 := by
      unfold entryRunNanos
      split <;> omega
    push_cast
    omega

theorem pendingRunNanos_nonneg (st : OssState) (g : Ghost) (h : TimesInv st g)
    (ht : 700 * (g.ticks : Int) < secondsLimit) : 0 ≤ pendingRunNanos st := by
  obtain ⟨_, _, _, _, hcond⟩ := h
  obtain ⟨_, _, hent, _, _⟩ := hcond ht
  refine sum_map_nonneg _ _ (fun e he => ?_)
  unfold entryRunNanos
  have := (hent e he).2
  split <;> omega

theorem slotInv_init : SlotInv initState ghostInit := by
  intro _
  have hp : pendingRunNanos initState = 0 := by decide
  rw [hp]
  decide

theorem slotInv_tick (st : OssState) (g : Ghost) (h : TimesInv st g) (hs : SlotInv st g) :
    SlotInv (tickPhase st) (ghostTick g) := by
  intro ht
  have hsl : secondsLimit = 2147483648 * 1000000000 := rfl
  have hticks : ((ghostTick g).ticks : Int) = (g.ticks : Int) + 1 := by
    show ((g.ticks + 1 : Nat) : Int) = _
    push_cast
    rfl
  rw [hticks] at ht ⊢
  obtain ⟨hclk, _, _, hlen, hcond⟩ := h
  obtain ⟨htot, hlo, _, _, _⟩ := hcond (by omega)
  obtain ⟨_, _, j3⟩ := incrementClock_exact st.shmClock hclk hlo (by rw [htot]; omega)
  have hs' := hs (by omega)
  have hpend : pendingRunNanos (tickPhase st) ≤ pendingRunNanos st + 700 * 20 := by
    have := sum_entryRunNanos_tick
      (totalNanos st.shmClock.seconds st.shmClock.nanoseconds) st.processTable
    rw [hlen] at this
    show (st.processTable.map (entryRunNanos (totalNanos (incrementClock st.shmClock).seconds
      (incrementClock st.shmClock).nanoseconds))).sum ≤ _
    rw [j3]
    exact this
  show g.exactRunNanos + pendingRunNanos (tickPhase st) ≤ _
  omega

theorem slotInv_reapEntry (st : OssState) (g : Ghost) (live : List Int) (k : Nat)
    (h : TimesInv st g) (hs : SlotInv st g) (hk : k < 20)
    (hocc : (st.processTable.getD k default).occupied = 1) :
    SlotInv (reapEntry st k)
      { g with live := live, exactRunNanos := g.exactRunNanos + exactRunTime st k } := by
  intro ht
  have ht' : 700 * (g.ticks : Int) < secondsLimit := ht
  have hs' := hs ht'
  have hset := sum_map_set
    (entryRunNanos (totalNanos st.shmClock.seconds st.shmClock.nanoseconds))
    st.processTable k emptyPCB (by rw [h.2.2.2.1]; exact hk)
  have he : entryRunNanos (totalNanos st.shmClock.seconds st.shmClock.nanoseconds)
      (st.processTable.getD k default) = exactRunTime st k := by
    unfold entryRunNanos exactRunTime
    rw [if_pos (by rw [hocc]; decide)]
  have h0 : entryRunNanos (totalNanos st.shmClock.seconds st.shmClock.nanoseconds) emptyPCB
      = 0 := rfl
  rw [he, h0] at hset
  have hp : pendingRunNanos (reapEntry st k) = pendingRunNanos st - exactRunTime st k + 0 :=
    hset
  show g.exactRunNanos + exactRunTime st k + pendingRunNanos (reapEntry st k)
    ≤ 14000 * (g.ticks : Int)
  omega

theorem slotInv_launchWorker (cfg : Config) (pid : Int) (st : OssState) (g : Ghost) (k : Nat)
    (h : TimesInv st g) (hs : SlotInv st g) (hk : k < 20)
    (hocc : (st.processTable.getD k default).occupied = 0) (live : List Int) (fresh : Bool) :
    SlotInv (launchWorker cfg pid st k) { g with live := live, forksFresh := fresh } := by
  intro ht
  have ht' : 700 * (g.ticks : Int) < secondsLimit := ht
  have hs' := hs ht'
  have hset := sum_map_set
    (entryRunNanos (totalNanos st.shmClock.seconds st.shmClock.nanoseconds))
    st.processTable k
    { occupied := 1, pid := pid, startSeconds := st.shmClock.seconds,
      startNanoseconds := st.shmClock.nanoseconds,
      endingSeconds := (addTime st.shmClock.seconds st.shmClock.nanoseconds
        cfg.timeLimitSec cfg.timeLimitNano).1,
      endingNanoseconds := (addTime st.shmClock.seconds st.shmClock.nanoseconds
        cfg.timeLimitSec cfg.timeLimitNano).2 }
    (by rw [h.2.2.2.1]; exact hk)
  have he : entryRunNanos (totalNanos st.shmClock.seconds st.shmClock.nanoseconds)
      (st.processTable.getD k default) = 0 := by
    unfold entryRunNanos
    rw [if_neg (by rw [hocc]; decide)]
  have hn : entryRunNanos (totalNanos st.shmClock.seconds st.shmClock.nanoseconds)
      { occupied := 1, pid := pid, startSeconds := st.shmClock.seconds,
        startNanoseconds := st.shmClock.nanoseconds,
        endingSeconds := (addTime st.shmClock.seconds st.shmClock.nanoseconds
          cfg.timeLimitSec cfg.timeLimitNano).1,
        endingNanoseconds := (addTime st.shmClock.seconds st.shmClock.nanoseconds
          cfg.timeLimitSec cfg.timeLimitNano).2 } = 0 := by
    show (if (1 : Int) ≠ 0 then
      totalNanos st.shmClock.seconds st.shmClock.nanoseconds
        - totalNanos st.shmClock.seconds st.shmClock.nanoseconds else 0) = 0
    rw [if_pos (by decide)]
    omega
  rw [he, hn] at hset
  have hp : pendingRunNanos (launchWorker cfg pid st k) = pendingRunNanos st - 0 + 0 := hset
  show g.exactRunNanos + pendingRunNanos (launchWorker cfg pid st k) ≤ 14000 * (g.ticks : Int)
  omega

/-- Along every run the combined run time invariant and the slot accounting hold. -/
theorem timesInv_slotInv_run (cfg : Config) (envs : List Env) (st : OssState)
    (hrun : runLoop cfg envs initState = some st) :
    TimesInv st (runGhost cfg envs initState ghostInit) ∧
      SlotInv st (runGhost cfg envs initState ghostInit) := by
  refine runGhost_preserves cfg (fun s g => TimesInv s g ∧ SlotInv s g)
    (fun s g h => ⟨timesInv_tick s g h.1, slotInv_tick s g h.1 h.2⟩)
    (fun pid s g h => ?_) (fun fr s s' g h ha => ?_) (fun s g h => ?_)
    envs initState st ghostInit ⟨timesInv_init, slotInv_init⟩ hrun
  · exact reapChild_ghost_preserves (fun s g => TimesInv s g ∧ SlotInv s g) pid s g
      (fun _ => h)
      (fun k hk hocc _ => ⟨timesInv_reapEntry s g _ k h.1 hk,
        slotInv_reapEntry s g _ k h.1 h.2 hk hocc⟩)
  · refine ⟨timesInv_admitPhase cfg fr s s' g h.1 ha, ?_⟩
    rcases admitPhase_spec cfg fr s s' ha with
      ⟨hp, rfl⟩ | ⟨_, hfr, rfl⟩ | ⟨hp, hfr, k, _, hk, hocc, rfl⟩
    · have : ghostAdmit cfg fr s' g = g := by
        unfold ghostAdmit
        rw [if_neg (fun hc => hp hc.1)]
      rw [this]
      exact h.2
    · have : ghostAdmit cfg fr s' g = g := by
        unfold ghostAdmit
        rw [if_neg (fun hc => by omega)]
      rw [this]
      exact h.2
    · have hg : ghostAdmit cfg fr s g =
          { g with live := fr :: g.live,
                   forksFresh := g.forksFresh && decide (fr ∉ g.live) } := by
        unfold ghostAdmit
        rw [if_pos ⟨hp, hfr⟩]
      rw [hg]
      exact slotInv_launchWorker cfg fr s g k h.1 h.2 hk hocc _ _
  · refine ⟨timesInv_report s g h.1, ?_⟩
    obtain ⟨f1, f2, _⟩ := reportPhase_frame s
    have hp : pendingRunNanos (reportPhase s) = pendingRunNanos s := by
      unfold pendingRunNanos
      rw [f1, f2]
    intro ht
    rw [hp]
    exact h.2 ht

/-- C5: after every loop iteration of every run that the watchdog allows (any
configuration, any admission schedule, any sequence of reaped children),
`0 ≤ combinedTimeNano < 1e9` and `combinedTimeSec * 1e9 + combinedTimeNano` is the exact
sum, over every worker reaped so far, of the clock at the tick of the reap minus the
start time recorded in its table entry, in nanoseconds. No `int` overflows on such a
run: at most 20 workers run at a time and each tick adds 700 ns to each of them, so the
exact sum stays below `2^31` seconds. -/
theorem C5_combined_run_time_exact (cfg : Config) (envs : List Env) (st : OssState)
    (hrun : runLoop cfg envs initState = some st)
    (hlen : envs.length ≤ maxIterationsUnderWatchdog) :
    0 ≤ st.combinedTimeNano ∧ st.combinedTimeNano < 1000000000 ∧
      totalNanos st.combinedTimeSec st.combinedTimeNano
        = (runGhost cfg envs initState ghostInit).exactRunNanos := by
  obtain ⟨ht, hs⟩ := timesInv_slotInv_run cfg envs st hrun
  have hticks := runGhost_ticks_le cfg envs initState ghostInit
  have h0 : ghostInit.ticks = 0 := rfl
  have hsl : secondsLimit = 2147483648 * 1000000000 := rfl
  have hmax : maxIterationsUnderWatchdog = 153391689142857 := rfl
  have hfit : 700 * ((runGhost cfg envs initState ghostInit).ticks : Int) < secondsLimit := by
    omega
  have hpend := pendingRunNanos_nonneg st _ ht hfit
  have hsum := hs hfit
  obtain ⟨_, _, hcn, _, hcond⟩ := ht
  obtain ⟨_, _, _, _, hcomb⟩ := hcond hfit
  exact ⟨hcn.1, hcn.2, (hcomb (by omega)).2⟩

theorem C5_combined_run_time_exact_witness :
    runLoop ⟨2, 1, 1, 0, 0, 0⟩ [⟨[], 101⟩, ⟨[101], 102⟩, ⟨[102], 103⟩] initState
        = some { shmClock := ⟨0, 2100⟩, processTable := List.replicate 20 emptyPCB,
                 activeWorkers := 0, totalWorkersLaunched := 2, nextLaunchSec := 0,
                 nextLaunchNano := 1400, lastReportSec := 0, lastReportNano := 0,
                 combinedTimeSec := 0, combinedTimeNano := 1400 } ∧
      ([⟨[], 101⟩, ⟨[101], 102⟩, ⟨[102], 103⟩] : List Env).length
        ≤ maxIterationsUnderWatchdog ∧
      ((0 : Int) ≤ 1400 ∧ (1400 : Int) < 1000000000 ∧
        totalNanos 0 1400
          = (runGhost ⟨2, 1, 1, 0, 0, 0⟩ [⟨[], 101⟩, ⟨[101], 102⟩, ⟨[102], 103⟩] initState
              ghostInit).exactRunNanos) :=
  ⟨by decide, by decide,
    C5_combined_run_time_exact ⟨2, 1, 1, 0, 0, 0⟩ [⟨[], 101⟩, ⟨[101], 102⟩, ⟨[102], 103⟩]
      { shmClock := ⟨0, 2100⟩, processTable := List.replicate 20 emptyPCB,
        activeWorkers := 0, totalWorkersLaunched := 2, nextLaunchSec := 0,
        nextLaunchNano := 1400, lastReportSec := 0, lastReportNano := 0,
        combinedTimeSec := 0, combinedTimeNano := 1400 }
      (by decide) (by decide)⟩

end Oss
